import Mathlib

/-!
# Pipeline-ranges: a shallow embedding of `lib/processing.h`

The header defines lazy pipeline stages as C++ iterator adaptors that are chained with
`operator|`.  The embedding keeps that shape:

* an iterator is a value of a type `I` with the three operations the header relies on,
  `operator!=`, `operator++` and `operator*` (class `Iter`);
* a data flow is anything with `begin()` and `end()` (class `DataFlow`);
* a range-based `for` statement is the loop `rangeFor`;
* every `while`/`for` loop of the header is a recursive function with an iteration budget, and
  operations that the C++ standard leaves undefined (dereferencing or incrementing a
  past-the-end iterator, reading the value of an empty optional, ...) are reported as a `Fault`.

Operations take the budget `F` that they hand to every loop they start; a loop that needs more
than `F` iterations stops with `Fault.outOfFuel`.
-/

namespace Pipeline

/-- Ways in which a run leaves the defined behaviour of the program. -/
inductive Fault where
  /-- a past-the-end iterator was dereferenced or incremented, or a vector was indexed out of
  range -/
  | pastEnd
  /-- `value()` of an empty optional or of an errored expected, or `error()` of a success -/
  | badAccess
  /-- a loop used up its iteration budget -/
  | outOfFuel
  deriving DecidableEq, Repr

/-- Result of running a piece of the program. -/
abbrev Run (α : Type) : Type := Except Fault α

instance {ε α : Type} [DecidableEq ε] [DecidableEq α] : DecidableEq (Except ε α)
  | .ok a, .ok b => if h : a = b then isTrue (by rw [h]) else isFalse (by simp [h])
  | .error a, .error b => if h : a = b then isTrue (by rw [h]) else isFalse (by simp [h])
  | .ok _, .error _ => isFalse (by simp)
  | .error _, .ok _ => isFalse (by simp)

/-- The iterator operations used by the header: `operator!=`, `operator++`, `operator*`.
`operator*` returns the iterator as well, since some of the header's iterators change their
state when they are dereferenced. -/
class Iter (I : Type) (α : outParam Type) where
  /-- `a != b` -/
  ne : I → I → Bool
  /-- `++it` -/
  incr : Nat → I → Run I
  /-- `*it` -/
  deref : Nat → I → Run (α × I)

/-- Anything with `begin()` and `end()`. -/
class DataFlow (D : Type) (I : outParam Type) where
  /-- `d.begin()` -/
  begin : Nat → D → Run I
  /-- `d.end()` -/
  endOf : Nat → D → Run I

/-- The loop of a range-based `for` statement, `for (; it != e; ++it) { item = *it; body }`,
run for at most the given number of iterations. -/
def rangeLoop {I α σ : Type} [Iter I α] (F : Nat) (body : σ → α → Run σ) :
    Nat → I → I → σ → Run σ
  | 0, _, _, _ => throw Fault.outOfFuel
  | n + 1, it, e, s =>
    if Iter.ne it e then do
      let (item, it1) ← Iter.deref F it
      let s1 ← body s item
      let it2 ← Iter.incr F it1
      rangeLoop F body n it2 e s1
    else pure s

/-- Range-based `for (item : data) body`. -/
def rangeFor {D I α σ : Type} [DataFlow D I] [Iter I α] (F : Nat) (data : D)
    (body : σ → α → Run σ) (s : σ) : Run σ := do
  let b ← DataFlow.begin F data
  let e ← DataFlow.endOf F data
  rangeLoop F body F b e s

/-! ## `std::vector` and its iterators -/

/-- An iterator into a `std::vector`: the container it points into and a position. -/
structure VecIter (α : Type) where
  data : List α
  pos : Nat
  deriving DecidableEq, Repr

instance {α : Type} : Iter (VecIter α) α where
  ne a b := a.pos != b.pos
  incr _ it := if it.pos < it.data.length then pure { it with pos := it.pos + 1 }
    else throw Fault.pastEnd
  deref _ it := match it.data.get? it.pos with
    | some x => pure (x, it)
    | none => throw Fault.pastEnd

/-- A `std::vector` is itself a data flow. -/
instance {α : Type} : DataFlow (List α) (VecIter α) where
  begin _ v := pure ⟨v, 0⟩
  endOf _ v := pure ⟨v, v.length⟩

/-- `AsDataFlow`: a view of a container. -/
structure AsDataFlow (α : Type) where
  container_ : List α
  deriving DecidableEq, Repr

instance {α : Type} : DataFlow (AsDataFlow α) (VecIter α) where
  begin _ d := pure ⟨d.container_, 0⟩
  endOf _ d := pure ⟨d.container_, d.container_.length⟩

/-! ## `AsVector` -/

/-- `AsVector::operator()`: push every item of the flow to a vector. -/
def AsVector.call {D I α : Type} [DataFlow D I] [Iter I α] (F : Nat) (data : D) :
    Run (List α) :=
  rangeFor F data (fun data_ item => pure (data_ ++ [item])) []

/-! ## `Filter` -/

/-- The stage object `Filter<Predicate>`. -/
structure Filter (α : Type) where
  pred_ : α → Bool

/-- `Filter<Predicate>::Iterator<Iter>`. -/
structure Filter.Iterator (I α : Type) where
  iter_ : I
  end_ : I
  pred_ : α → Bool

/-- `filter()`: `while (iter_ != end_ && !pred_(*iter_)) ++iter_;`. -/
def Filter.Iterator.filter {I α : Type} [Iter I α] (F : Nat) :
    Nat → Filter.Iterator I α → Run (Filter.Iterator I α)
  | 0, _ => throw Fault.outOfFuel
  | n + 1, it =>
    if Iter.ne it.iter_ it.end_ then do
      let (x, i1) ← Iter.deref F it.iter_
      if !it.pred_ x then do
        let i2 ← Iter.incr F i1
        Filter.Iterator.filter F n { it with iter_ := i2 }
      else pure { it with iter_ := i1 }
    else pure it

/-- The constructor `Iterator(begin, end, pred)`, which runs `filter()`. -/
def Filter.Iterator.new {I α : Type} [Iter I α] (F : Nat) (b e : I) (pred : α → Bool) :
    Run (Filter.Iterator I α) :=
  Filter.Iterator.filter F F ⟨b, e, pred⟩

instance {I α : Type} [Iter I α] : Iter (Filter.Iterator I α) α where
  ne a b := Iter.ne a.iter_ b.iter_
  incr F it := do
    let i1 ← Iter.incr F it.iter_
    Filter.Iterator.filter F F { it with iter_ := i1 }
  deref F it := do
    let (x, i1) ← Iter.deref F it.iter_
    pure (x, { it with iter_ := i1 })

instance {I α : Type} [Iter I α] : DataFlow (Filter.Iterator I α) (Filter.Iterator I α) where
  begin _ it := pure it
  endOf F it := Filter.Iterator.new F it.end_ it.end_ it.pred_

/-- `Filter::operator()`. -/
def Filter.call {D I α : Type} [DataFlow D I] [Iter I α] (F : Nat) (self : Filter α)
    (data : D) : Run (Filter.Iterator I α) := do
  let b ← DataFlow.begin F data
  let e ← DataFlow.endOf F data
  Filter.Iterator.new F b e self.pred_

/-! ## `Transform` -/

/-- The stage object `Transform<Predicate>`. -/
structure Transform (α β : Type) where
  pred_ : α → β

/-- `Transform<Predicate>::Iterator<Iter>`; its constructor only stores its arguments. -/
structure Transform.Iterator (I α β : Type) where
  iter_ : I
  end_ : I
  predicate_ : α → β

instance {I α β : Type} [Iter I α] : Iter (Transform.Iterator I α β) β where
  ne a b := Iter.ne a.iter_ b.iter_
  incr F it := do
    let i1 ← Iter.incr F it.iter_
    pure { it with iter_ := i1 }
  deref F it := do
    let (x, i1) ← Iter.deref F it.iter_
    pure (it.predicate_ x, { it with iter_ := i1 })

instance {I α β : Type} [Iter I α] :
    DataFlow (Transform.Iterator I α β) (Transform.Iterator I α β) where
  begin _ it := pure ⟨it.iter_, it.end_, it.predicate_⟩
  endOf _ it := pure ⟨it.end_, it.end_, it.predicate_⟩

/-- `Transform::operator()`. -/
def Transform.call {D I α β : Type} [DataFlow D I] [Iter I α] (F : Nat)
    (self : Transform α β) (data : D) : Run (Transform.Iterator I α β) := do
  let b ← DataFlow.begin F data
  let e ← DataFlow.endOf F data
  pure ⟨b, e, self.pred_⟩

/-! ## `DropNullopt` -/

/-- The stage object `DropNullopt` (it has no members). -/
structure DropNullopt where
  deriving DecidableEq, Repr

/-- `DropNullopt::Iterator<Iter>`. -/
structure DropNullopt.Iterator (I : Type) where
  iter_ : I
  end_ : I

/-- `skip_nullopt()`: `while (iter_ != end_ && !(*iter_).has_value()) ++iter_;`. -/
def DropNullopt.Iterator.skip_nullopt {I α : Type} [Iter I (Option α)] (F : Nat) :
    Nat → DropNullopt.Iterator I → Run (DropNullopt.Iterator I)
  | 0, _ => throw Fault.outOfFuel
  | n + 1, it =>
    if Iter.ne it.iter_ it.end_ then do
      let (x, i1) ← Iter.deref F it.iter_
      if !x.isSome then do
        let i2 ← Iter.incr F i1
        DropNullopt.Iterator.skip_nullopt F n { it with iter_ := i2 }
      else pure { it with iter_ := i1 }
    else pure it

/-- The constructor `Iterator(begin, end)`, which runs `skip_nullopt()`. -/
def DropNullopt.Iterator.new {I α : Type} [Iter I (Option α)] (F : Nat) (b e : I) :
    Run (DropNullopt.Iterator I) :=
  DropNullopt.Iterator.skip_nullopt F F ⟨b, e⟩

instance {I α : Type} [Iter I (Option α)] : Iter (DropNullopt.Iterator I) α where
  ne a b := Iter.ne a.iter_ b.iter_
  incr F it := do
    let i1 ← Iter.incr F it.iter_
    DropNullopt.Iterator.skip_nullopt F F { it with iter_ := i1 }
  deref F it := do
    let (x, i1) ← Iter.deref F it.iter_
    match x with
    | some v => pure (v, { it with iter_ := i1 })
    | none => throw Fault.badAccess

instance {I α : Type} [Iter I (Option α)] :
    DataFlow (DropNullopt.Iterator I) (DropNullopt.Iterator I) where
  begin _ it := pure it
  endOf F it := DropNullopt.Iterator.new F it.end_ it.end_

/-- `DropNullopt::operator()`. -/
def DropNullopt.call {D I α : Type} [DataFlow D I] [Iter I (Option α)] (F : Nat)
    (_self : DropNullopt) (data : D) : Run (DropNullopt.Iterator I) := do
  let b ← DataFlow.begin F data
  let e ← DataFlow.endOf F data
  DropNullopt.Iterator.new F b e

/-! ## `Join` -/

/-- `KV<Key, Value>`. -/
structure KV (K V : Type) where
  key : K
  value : V
  deriving DecidableEq, Repr

/-- `JoinResult<Base, Joined>`. -/
structure JoinResult (B J : Type) where
  base : B
  joined : Option J
  deriving DecidableEq, Repr

/-- `JoinFunc<Right, LeftFunc, RightFunc>`: the explicit-key join stage. -/
structure JoinFunc (R L Ri K : Type) where
  right_flow_ : R
  left_func_ : L → K
  right_func_ : Ri → K

/-- `JoinFunc::operator()`: for each left item scan the whole right flow; the state of the inner
loop is the result vector and `flag`. -/
def JoinFunc.call {R IR L Ri K D ID : Type} [DataFlow R IR] [Iter IR Ri] [DataFlow D ID]
    [Iter ID L] [BEq K] (F : Nat) (self : JoinFunc R L Ri K) (left_flow : D) :
    Run (List (JoinResult L Ri)) :=
  rangeFor F left_flow (fun (result : List (JoinResult L Ri)) item_l => do
    let (result1, flag) ← rangeFor F self.right_flow_
      (fun (st : List (JoinResult L Ri) × Bool) item_r =>
        if self.left_func_ item_l == self.right_func_ item_r then
          pure (st.1 ++ [⟨item_l, some item_r⟩], true)
        else pure st)
      (result, false)
    if !flag then pure (result1 ++ [⟨item_l, none⟩]) else pure result1) []

/-- `Join(right_range, left_extractor, right_extractor)`. -/
def Join {R L Ri K : Type} (right_range : R) (left_extractor : L → K)
    (right_extractor : Ri → K) : JoinFunc R L Ri K :=
  ⟨right_range, left_extractor, right_extractor⟩

/-- `JoinSimple<Right>`: the join stage for flows of `KV`. -/
structure JoinSimple (R : Type) where
  right_flow_ : R

/-- `JoinSimple::operator()`. -/
def JoinSimple.call {R IR K V W D ID : Type} [DataFlow R IR] [Iter IR (KV K W)]
    [DataFlow D ID] [Iter ID (KV K V)] [BEq K] (F : Nat) (self : JoinSimple R)
    (left_flow : D) : Run (List (JoinResult V W)) :=
  rangeFor F left_flow (fun (result : List (JoinResult V W)) item_l => do
    let (result1, flag) ← rangeFor F self.right_flow_
      (fun (st : List (JoinResult V W) × Bool) item_r =>
        if item_l.key == item_r.key then
          pure (st.1 ++ [⟨item_l.value, some item_r.value⟩], true)
        else pure st)
      (result, false)
    if !flag then pure (result1 ++ [⟨item_l.value, none⟩]) else pure result1) []

/-- `Join(right_range)`, the one-argument overload. -/
def Join.simple {R : Type} (right_range : R) : JoinSimple R :=
  ⟨right_range⟩

/-! ## `AggregateByKey` -/

/-- `std::unordered_map<K, T>`: the entries of the table.  The order in which a range-based
`for` lists them is not this list's order; see `AggregateByKey.call`. -/
structure UnorderedMap (K T : Type) where
  entries : List (K × T)
  deriving DecidableEq, Repr

/-- `m.find(k)`: the mapped value, `none` for `m.end()`. -/
def UnorderedMap.find {K T : Type} [DecidableEq K] (m : UnorderedMap K T) (k : K) : Option T :=
  (m.entries.find? fun e => e.1 = k).map Prod.snd

/-- An update through `operator[]` on the entries: the mapped value of `k` becomes `g` of it,
and a value-initialised entry is inserted first when `k` is absent. -/
def UnorderedMap.subscriptEntries {K T : Type} [DecidableEq K] [Inhabited T] (k : K)
    (g : T → T) : List (K × T) → List (K × T)
  | [] => [(k, g default)]
  | e :: es => if e.1 = k then (e.1, g e.2) :: es
    else e :: UnorderedMap.subscriptEntries k g es

/-- The statement `m[k] = g(m[k])`. -/
def UnorderedMap.subscript {K T : Type} [DecidableEq K] [Inhabited T] (m : UnorderedMap K T)
    (k : K) (g : T → T) : UnorderedMap K T :=
  ⟨UnorderedMap.subscriptEntries k g m.entries⟩

/-- `m.size()`. -/
def UnorderedMap.size {K T : Type} (m : UnorderedMap K T) : Nat :=
  m.entries.length

/-- The stage object `AggregateByKey<InitValue, Rredicate, KeyFunc>`; the accumulation function
updates its second argument in place, which is a function from the old to the new value. -/
structure AggregateByKey (Item K V : Type) where
  key_func_ : Item → K
  predicate_ : Item → V → V
  init_value_ : V

/-- The body of the first loop of `AggregateByKey::operator()`; the state is `data_` and
`index`. -/
def AggregateByKey.step {Item K V : Type} [DecidableEq K] [Inhabited V]
    (self : AggregateByKey Item K V) (st : UnorderedMap K (V × Nat) × Nat) (item : Item) :
    UnorderedMap K (V × Nat) × Nat :=
  let st1 : UnorderedMap K (V × Nat) × Nat :=
    if (st.1.find (self.key_func_ item)).isNone then
      let d1 := st.1.subscript (self.key_func_ item) fun e => (self.init_value_, e.2)
      let d2 := d1.subscript (self.key_func_ item) fun e => (e.1, st.2)
      (d2, st.2 + 1)
    else st
  (st1.1.subscript (self.key_func_ item) fun e => (self.predicate_ item e.1, e.2), st1.2)

/-- `AggregateByKey::operator()`.  `order` is the order in which the hash table lists its
entries in the second loop, which the standard leaves unspecified; `new_flow_[i] = ...` with
`i` out of range is a fault. -/
def AggregateByKey.call {Item K V D I : Type} [DataFlow D I] [Iter I Item] [DecidableEq K]
    [Inhabited K] [Inhabited V] (F : Nat)
    (order : List (K × (V × Nat)) → List (K × (V × Nat)))
    (self : AggregateByKey Item K V) (data : D) : Run (List (K × V)) := do
  let (data_, _) ← rangeFor F data
    (fun (st : UnorderedMap K (V × Nat) × Nat) item => pure (self.step st item))
    ((⟨[]⟩ : UnorderedMap K (V × Nat)), 0)
  (order data_.entries).foldlM
    (fun (new_flow_ : List (K × V)) item =>
      if item.2.2 < new_flow_.length then pure (new_flow_.set item.2.2 (item.1, item.2.1))
      else throw Fault.pastEnd)
    (List.replicate data_.size (default, default))

/-! ## `SplitExpected`

`std::expected<T, E>` is `Except E T`: `Except.ok` holds a value, `Except.error` an error. -/

/-- `has_value()` of a `std::expected`. -/
def has_value {E T : Type} : Except E T → Bool
  | Except.ok _ => true
  | Except.error _ => false

/-- The stage object `SplitExpected` (it has no members). -/
structure SplitExpected where
  deriving DecidableEq, Repr

/-- `SplitExpected::ExpectedIterator<Iter>`; its constructor only stores its arguments. -/
structure SplitExpected.ExpectedIterator (I : Type) where
  iter_ : I
  end_ : I

/-- The `while` loop of `ExpectedIterator::apdate()`:
`while (!(*iter_).has_value()) { ++iter_; if (!(iter_ != end_)) return; }`. -/
def SplitExpected.ExpectedIterator.apdateLoop {I E T : Type} [Iter I (Except E T)] (F : Nat) :
    Nat → SplitExpected.ExpectedIterator I → Run (SplitExpected.ExpectedIterator I)
  | 0, _ => throw Fault.outOfFuel
  | n + 1, it => do
    let (x, i1) ← Iter.deref F it.iter_
    if !has_value x then do
      let i2 ← Iter.incr F i1
      if !Iter.ne i2 it.end_ then pure { it with iter_ := i2 }
      else SplitExpected.ExpectedIterator.apdateLoop F n { it with iter_ := i2 }
    else pure { it with iter_ := i1 }

/-- `ExpectedIterator::apdate()`. -/
def SplitExpected.ExpectedIterator.apdate {I E T : Type} [Iter I (Except E T)] (F : Nat)
    (it : SplitExpected.ExpectedIterator I) : Run (SplitExpected.ExpectedIterator I) := do
  let i1 ← Iter.incr F it.iter_
  if !Iter.ne i1 it.end_ then pure { it with iter_ := i1 }
  else SplitExpected.ExpectedIterator.apdateLoop F F { it with iter_ := i1 }

instance {I E T : Type} [Iter I (Except E T)] : Iter (SplitExpected.ExpectedIterator I) T where
  ne a b := Iter.ne a.iter_ b.iter_
  incr F it := it.apdate F
  deref F it := do
    let (x, i1) ← Iter.deref F it.iter_
    let it1 ← if !has_value x then
        SplitExpected.ExpectedIterator.apdate F { it with iter_ := i1 }
      else pure { it with iter_ := i1 }
    let (y, i2) ← Iter.deref F it1.iter_
    match y with
    | Except.ok v => pure (v, { it1 with iter_ := i2 })
    | Except.error _ => throw Fault.badAccess

instance {I E T : Type} [Iter I (Except E T)] :
    DataFlow (SplitExpected.ExpectedIterator I) (SplitExpected.ExpectedIterator I) where
  begin _ it := pure ⟨it.iter_, it.end_⟩
  endOf _ it := pure ⟨it.end_, it.end_⟩

/-- `SplitExpected::UnexpectedIterator<Iter>`; its constructor only stores its arguments. -/
structure SplitExpected.UnexpectedIterator (I : Type) where
  iter_ : I
  end_ : I

/-- The `while` loop of `UnexpectedIterator::apdate()`:
`while ((*iter_).has_value()) { ++iter_; if (!(iter_ != end_)) return; }`. -/
def SplitExpected.UnexpectedIterator.apdateLoop {I E T : Type} [Iter I (Except E T)]
    (F : Nat) :
    Nat → SplitExpected.UnexpectedIterator I → Run (SplitExpected.UnexpectedIterator I)
  | 0, _ => throw Fault.outOfFuel
  | n + 1, it => do
    let (x, i1) ← Iter.deref F it.iter_
    if has_value x then do
      let i2 ← Iter.incr F i1
      if !Iter.ne i2 it.end_ then pure { it with iter_ := i2 }
      else SplitExpected.UnexpectedIterator.apdateLoop F n { it with iter_ := i2 }
    else pure { it with iter_ := i1 }

/-- `UnexpectedIterator::apdate()`. -/
def SplitExpected.UnexpectedIterator.apdate {I E T : Type} [Iter I (Except E T)] (F : Nat)
    (it : SplitExpected.UnexpectedIterator I) : Run (SplitExpected.UnexpectedIterator I) := do
  let i1 ← Iter.incr F it.iter_
  if !Iter.ne i1 it.end_ then pure { it with iter_ := i1 }
  else SplitExpected.UnexpectedIterator.apdateLoop F F { it with iter_ := i1 }

instance {I E T : Type} [Iter I (Except E T)] :
    Iter (SplitExpected.UnexpectedIterator I) E where
  ne a b := Iter.ne a.iter_ b.iter_
  incr F it := it.apdate F
  deref F it := do
    let (x, i1) ← Iter.deref F it.iter_
    let it1 ← if has_value x then
        SplitExpected.UnexpectedIterator.apdate F { it with iter_ := i1 }
      else pure { it with iter_ := i1 }
    let (y, i2) ← Iter.deref F it1.iter_
    match y with
    | Except.error err => pure (err, { it1 with iter_ := i2 })
    | Except.ok _ => throw Fault.badAccess

instance {I E T : Type} [Iter I (Except E T)] :
    DataFlow (SplitExpected.UnexpectedIterator I) (SplitExpected.UnexpectedIterator I) where
  begin _ it := pure ⟨it.iter_, it.end_⟩
  endOf _ it := pure ⟨it.end_, it.end_⟩

/-- `SplitExpected::operator()`: the pair `(unexpected, expected)`. -/
def SplitExpected.call {D I E T : Type} [DataFlow D I] [Iter I (Except E T)] (F : Nat)
    (_self : SplitExpected) (flow : D) :
    Run (SplitExpected.UnexpectedIterator I × SplitExpected.ExpectedIterator I) := do
  let b1 ← DataFlow.begin F flow
  let e1 ← DataFlow.endOf F flow
  let expected : SplitExpected.ExpectedIterator I := ⟨b1, e1⟩
  let b2 ← DataFlow.begin F flow
  let e2 ← DataFlow.endOf F flow
  let unexpected : SplitExpected.UnexpectedIterator I := ⟨b2, e2⟩
  pure (unexpected, expected)

/-! ## `Split`

The upstream of `Split` is a vector of `std::stringstream`, as in the unit tests.  An iterator
into that vector is a `VecIter StringStream`; what `Split` does to a stream through `*iter_`
(reading characters through the stream buffer, `clear()`, `seekg`) is recorded in the `data` of
`iter_`.  A `std::string` is a `List Char`. -/

/-- A `std::stringstream` as far as `Split` uses it: the characters of its buffer and its get
position. -/
structure StringStream where
  buffer : List Char
  gpos : Nat
  deriving DecidableEq, Repr

/-- A stream whose buffer holds `s` and that has not been read yet. -/
def StringStream.ofString (s : List Char) : StringStream :=
  ⟨s, 0⟩

/-- Whether a `std::istreambuf_iterator<char>` is an end-of-stream iterator: it is `none` (default
constructed) or no character is left at the get position of the stream `some k` it reads. -/
def istreambuf_atEof (v : List StringStream) : Option Nat → Bool
  | none => true
  | some k =>
    match v.get? k with
    | some s => decide (s.buffer.length ≤ s.gpos)
    | none => true

/-- `a != b` on `std::istreambuf_iterator`: the two are equal when both or neither are
end-of-stream iterators. -/
def istreambuf_ne (v : List StringStream) (a b : Option Nat) : Bool :=
  istreambuf_atEof v a != istreambuf_atEof v b

/-- `*it` on `std::istreambuf_iterator`: the character at the get position. -/
def istreambuf_deref (v : List StringStream) : Option Nat → Option Char
  | none => none
  | some k =>
    match v.get? k with
    | some s => s.buffer.get? s.gpos
    | none => none

/-- `++it` on `std::istreambuf_iterator`: the get position of the stream moves on by one. -/
def istreambuf_incr (v : List StringStream) : Option Nat → List StringStream
  | none => v
  | some k =>
    match v.get? k with
    | some s => v.set k { s with gpos := s.gpos + 1 }
    | none => v

/-- The stage object `Split`. -/
structure Split where
  split_str_ : List Char
  deriving DecidableEq, Repr

/-- `Split::Iterator<Iter>` with its seven members; `flag` is `int flag = 1`. -/
structure Split.Iterator where
  iter_ : VecIter StringStream
  end_ : VecIter StringStream
  split_symbols_ : List Char
  current_word_ : List Char
  file_iter_ : Option Nat
  end_iter_ : Option Nat
  flag : Bool
  deriving DecidableEq, Repr

/-- The `while (file_iter_ != end_iter_)` loop of `split()`; the Boolean tells whether the loop
was left through the `return` in its body. -/
def Split.Iterator.splitLoop : Nat → Split.Iterator → Run (Split.Iterator × Bool)
  | 0, _ => throw Fault.outOfFuel
  | n + 1, it =>
    if istreambuf_ne it.iter_.data it.file_iter_ it.end_iter_ then
      match istreambuf_deref it.iter_.data it.file_iter_ with
      | none => throw Fault.pastEnd
      | some c =>
        let it1 : Split.Iterator :=
          { it with iter_ := { it.iter_ with
              data := istreambuf_incr it.iter_.data it.file_iter_ } }
        if !it1.split_symbols_.contains c then
          Split.Iterator.splitLoop n { it1 with current_word_ := it1.current_word_ ++ [c] }
        else pure (it1, true)
    else pure (it, false)

/-- `split()`. -/
def Split.Iterator.split (F : Nat) (it : Split.Iterator) : Run Split.Iterator := do
  let it0 : Split.Iterator := { it with current_word_ := [] }
  if !Iter.ne it0.iter_ it0.end_ then pure it0
  else
    let (it1, returned) ← Split.Iterator.splitLoop F it0
    if returned then pure it1
    else
      let (s, i1) ← Iter.deref F it1.iter_
      let i2 : VecIter StringStream := { i1 with data := i1.data.set i1.pos { s with gpos := 0 } }
      let i3 ← Iter.incr F i2
      if Iter.ne i3 it1.end_ then do
        let (_, i4) ← Iter.deref F i3
        pure { it1 with iter_ := i4, file_iter_ := some i4.pos }
      else pure { it1 with iter_ := i3 }

/-- The constructor `Iterator(begin, end, split_symbols)`. -/
def Split.Iterator.new (F : Nat) (b e : VecIter StringStream) (split_symbols : List Char) :
    Run Split.Iterator := do
  let file_iter ← if Iter.ne b e then do
      let (_, b1) ← Iter.deref F b
      pure (some b1.pos)
    else pure none
  pure ⟨b, e, split_symbols ++ [Char.ofNat 0], [], file_iter, none, true⟩

instance : Iter Split.Iterator (List Char) where
  ne a b := Iter.ne a.iter_ b.iter_ || a.current_word_ != b.current_word_
  incr F it := it.split F
  deref F it := do
    let it1 ← if it.current_word_ == [] && it.flag then it.split F else pure it
    pure (it1.current_word_, { it1 with flag := false })

instance : DataFlow Split.Iterator Split.Iterator where
  begin F it := Split.Iterator.new F it.iter_ it.end_ it.split_symbols_
  endOf F it := Split.Iterator.new F it.end_ it.end_ it.split_symbols_

/-- `Split::operator()`. -/
def Split.call {D : Type} [DataFlow D (VecIter StringStream)] (F : Nat) (self : Split)
    (data : D) : Run Split.Iterator := do
  let b ← DataFlow.begin F data
  let e ← DataFlow.endOf F data
  Split.Iterator.new F b e self.split_str_

/-- The pipeline `AsDataFlow(files) | Split(seps) | AsVector()` over streams whose buffers hold
`v` and that have not been read yet. -/
def collectSplit (F : Nat) (seps : List Char) (v : List (List Char)) : Run (List (List Char)) :=
  Split.call F ⟨seps⟩ (AsDataFlow.mk (v.map StringStream.ofString)) >>= AsVector.call F

/-- The number of characters of all streams plus the number of streams: an iteration budget
above it is enough for `collectSplit`. -/
def streamsSize (v : List (List Char)) : Nat :=
  (v.map List.length).sum + v.length

/-! ## `Write` -/

/-- The stage object `Write`.  Its member `os_` is a reference to the sink; the embedding passes
the sink's contents to `Write.call` and gets the new contents back. -/
structure Write where
  delimiter_ : Char
  deriving DecidableEq, Repr

/-- `Write::operator()`: `for (auto item : iter) os_ << item << delimiter_; return iter;`.
`text` is what `os_ << item` appends for an item; the result is the sink's contents and the
returned flow. -/
def Write.call {D I α : Type} [DataFlow D I] [Iter I α] (F : Nat) (text : α → List Char)
    (self : Write) (os_ : List Char) (iter : D) : Run (List Char × D) := do
  let os1 ← rangeFor F iter
    (fun (os : List Char) item => pure (os ++ text item ++ [self.delimiter_])) os_
  pure (os1, iter)

/-! ## Streams shared between traversals

The streams of the upstream vector are objects outside the iterators: every copy of a `Split`
iterator, and of an iterator built on one, reads and moves the same get positions.  During one
traversal only the traversing iterator touches the streams, and the embedding records their
state in it.  When a second traversal starts from another copy, that copy first has to be given
the state in which the earlier traversal left the streams. -/

/-- Iterators and flows that read the streams of an upstream vector of streams: `load` gives
a copy the current state of the streams, `store` is the state of the streams it has recorded. -/
class HasStreams (I : Type) where
  load : List StringStream → I → I
  store : I → List StringStream

instance : HasStreams (VecIter StringStream) where
  load streams it := { it with data := streams }
  store it := it.data

instance : HasStreams Split.Iterator where
  load streams it :=
    { it with iter_ := HasStreams.load streams it.iter_, end_ := HasStreams.load streams it.end_ }
  store it := HasStreams.store it.iter_

instance {I α : Type} [HasStreams I] : HasStreams (Filter.Iterator I α) where
  load streams it :=
    { it with iter_ := HasStreams.load streams it.iter_, end_ := HasStreams.load streams it.end_ }
  store it := HasStreams.store it.iter_

instance {I α β : Type} [HasStreams I] : HasStreams (Transform.Iterator I α β) where
  load streams it :=
    { it with iter_ := HasStreams.load streams it.iter_, end_ := HasStreams.load streams it.end_ }
  store it := HasStreams.store it.iter_

instance {I : Type} [HasStreams I] : HasStreams (SplitExpected.ExpectedIterator I) where
  load streams it :=
    { it with iter_ := HasStreams.load streams it.iter_, end_ := HasStreams.load streams it.end_ }
  store it := HasStreams.store it.iter_

instance {I : Type} [HasStreams I] : HasStreams (SplitExpected.UnexpectedIterator I) where
  load streams it :=
    { it with iter_ := HasStreams.load streams it.iter_, end_ := HasStreams.load streams it.end_ }
  store it := HasStreams.store it.iter_

/-- The loop of a range-based `for` statement, as `rangeLoop`, that also returns the state in
which the traversal leaves the streams. -/
def rangeLoopShared {I α σ : Type} [Iter I α] [HasStreams I] (F : Nat)
    (body : σ → α → Run σ) : Nat → I → I → σ → Run (σ × List StringStream)
  | 0, _, _, _ => throw Fault.outOfFuel
  | n + 1, it, e, s =>
    if Iter.ne it e then do
      let (item, it1) ← Iter.deref F it
      let s1 ← body s item
      let it2 ← Iter.incr F it1
      rangeLoopShared F body n it2 e s1
    else pure (s, HasStreams.store it)

/-- Range-based `for (item : data) body` run when the streams are in the state `streams`; it
also returns the state in which it leaves them. -/
def rangeForShared {D I α σ : Type} [DataFlow D I] [Iter I α] [HasStreams D] [HasStreams I]
    (F : Nat) (streams : List StringStream) (data : D) (body : σ → α → Run σ) (s : σ) :
    Run (σ × List StringStream) := do
  let b ← DataFlow.begin F (HasStreams.load streams data)
  let e ← DataFlow.endOf F (HasStreams.load streams data)
  rangeLoopShared F body F b e s

/-- `AsVector::operator()` run when the streams are in the state `streams`; it also returns the
state in which it leaves them. -/
def AsVector.callShared {D I α : Type} [DataFlow D I] [Iter I α] [HasStreams D] [HasStreams I]
    (F : Nat) (streams : List StringStream) (data : D) : Run (List α × List StringStream) :=
  rangeForShared F streams data (fun data_ item => pure (data_ ++ [item])) []

/-- The program
`auto [unexpected_flow, good_flow] = flow | SplitExpected();
 auto errors = unexpected_flow | AsVector();  auto values = good_flow | AsVector();`
for a flow that reads streams and whose `begin()` and `end()` only copy iterators (as those of
`Split`, `Filter` and `Transform` iterators do): the error view is collected first, on the
streams as the construction of `flow` left them, and the success view is collected on the
streams as that first traversal left them. -/
def collectBothViews {D I E T : Type} [DataFlow D I] [Iter I (Except E T)] [HasStreams I]
    (F : Nat) (flow : D) : Run (List E × List T) := do
  let (unexpected_flow, good_flow) ← SplitExpected.call F ⟨⟩ flow
  let (errors, streams) ← AsVector.callShared F (HasStreams.store unexpected_flow)
    unexpected_flow
  let (values, _) ← AsVector.callShared F streams good_flow
  pure (errors, values)

/-! ## Vocabulary for the proofs

`Lists F e it xs`: the iterator `it` is a stable cursor (dereferencing does not change it) and
walking it up to the end iterator `e` visits exactly the items `xs`. -/

/-- The items visited when walking a stable cursor up to the end iterator. -/
inductive Lists {I α : Type} [Iter I α] (F : Nat) (e : I) : I → List α → Prop
  | nil {it : I} : Iter.ne it e = false → Lists F e it []
  | cons {it it2 : I} {x : α} {xs : List α} :
      Iter.ne it e = true → Iter.deref F it = Except.ok (x, it) →
      Iter.incr F it = Except.ok it2 → Lists F e it2 xs → Lists F e it (x :: xs)

/-- A data flow whose `begin()`/`end()` succeed and delimit the items `xs`. -/
def Yields {D I α : Type} [DataFlow D I] [Iter I α] (F : Nat) (d : D) (xs : List α) : Prop :=
  ∃ b e : I, DataFlow.begin F d = Except.ok b ∧ DataFlow.endOf F d = Except.ok e ∧
    Iter.ne e e = false ∧ Lists F e b xs

/-- What holds of `data_` and `index` after the first loop of `AggregateByKey::operator()` has
processed the items `pre`. -/
structure AggInv {Item K V : Type} [DecidableEq K] (self : AggregateByKey Item K V)
    (pre : List Item) (st : UnorderedMap K (V × Nat) × Nat) : Prop where
  index_eq : st.2 = st.1.entries.length
  idx_range : st.1.entries.map (fun e => e.2.2) = List.range st.1.entries.length
  keys_nodup : (st.1.entries.map Prod.fst).Nodup
  keys_mem : ∀ k, k ∈ st.1.entries.map Prod.fst ↔ k ∈ pre.map self.key_func_
  keys_order : (st.1.entries.map Prod.fst).Pairwise fun a b =>
    (pre.map self.key_func_).indexOf a < (pre.map self.key_func_).indexOf b
  acc_eq : ∀ e ∈ st.1.entries, e.2.1 =
    (pre.filter fun x => self.key_func_ x = e.1).foldl (fun a x => self.predicate_ x a)
      self.init_value_

/-- The success values of a list of results, in order. -/
def valuesOf {E T : Type} : List (Except E T) → List T
  | [] => []
  | Except.ok v :: tl => v :: valuesOf tl
  | Except.error _ :: tl => valuesOf tl

/-- The error values of a list of results, in order. -/
def errorsOf {E T : Type} : List (Except E T) → List E
  | [] => []
  | Except.ok _ :: tl => errorsOf tl
  | Except.error err :: tl => err :: errorsOf tl

/-- The characters at which `Split(seps)` cuts: those of `seps` and NUL, which the constructor
of its iterator appends to `split_symbols_`. -/
def isSplitSymbol (seps : List Char) (c : Char) : Bool :=
  seps.contains c || c == Char.ofNat 0

/-- The upstream vector of streams with buffers `v` in which stream `i` is at get position `p`
and all other streams are at the beginning. -/
def streamsAt : List (List Char) → Nat → Nat → List StringStream
  | [], _, _ => []
  | s :: v, 0, p => ⟨s, p⟩ :: v.map StringStream.ofString
  | s :: v, i + 1, p => ⟨s, 0⟩ :: streamsAt v i p

/-- The fields `Split` has still to read when it is at stream `i`, get position `p`: those of
the unread part of stream `i`, then those of the later streams. -/
def pendingFields (seps : List Char) (v : List (List Char)) (i p : Nat) : List (List Char) :=
  match v.drop i with
  | [] => []
  | s :: later => (s.drop p).splitOnP (isSplitSymbol seps)
      ++ later.flatMap (List.splitOnP (isSplitSymbol seps))

/-- A list of strings without its last element when that element is empty. -/
def dropLastEmpty : List (List Char) → List (List Char)
  | [] => []
  | [w] => if w = [] then [] else [w]
  | w :: f :: ps => w :: dropLastEmpty (f :: ps)

/-- The state of a `Split` iterator over the streams `v` that is at stream `i`, get position
`p`. -/
def splitState (v : List (List Char)) (e : VecIter StringStream) (syms : List Char)
    (i p : Nat) (w : List Char) (fi : Option Nat) (fl : Bool) : Split.Iterator :=
  ⟨⟨streamsAt v i p, i⟩, e, syms, w, fi, none, fl⟩

/-- The fields of all streams, in stream order: each stream cut at the characters at which
`Split(seps)` cuts, empty fields kept. -/
def splitFields (seps : List Char) (v : List (List Char)) : List (List Char) :=
  v.flatMap (List.splitOnP (isSplitSymbol seps))

/-- The first field followed by the other fields without a final empty one. -/
def splitOutput (seps : List Char) (v : List (List Char)) : List (List Char) :=
  match splitFields seps v with
  | [] => []
  | f :: ps => f :: dropLastEmpty ps

/-- The states a `Filter(p)` iterator over the vector `xs` goes through when a range-based `for`
drives it: the state its constructor leaves, and, from a state that is not equal to `end()`,
the states `operator*` and `operator++` leave. -/
inductive FilterReached {α : Type} (F : Nat) (xs : List α) (p : α → Bool) :
    Filter.Iterator (VecIter α) α → Prop
  | constructed {it : Filter.Iterator (VecIter α) α} :
      Filter.call F ⟨p⟩ (AsDataFlow.mk xs) = Except.ok it → FilterReached F xs p it
  | deref {it it1 : Filter.Iterator (VecIter α) α} {x : α} :
      FilterReached F xs p it →
      Iter.ne it (⟨⟨xs, xs.length⟩, ⟨xs, xs.length⟩, p⟩ : Filter.Iterator (VecIter α) α) = true →
      Iter.deref F it = Except.ok (x, it1) → FilterReached F xs p it1
  | incr {it it1 : Filter.Iterator (VecIter α) α} :
      FilterReached F xs p it →
      Iter.ne it (⟨⟨xs, xs.length⟩, ⟨xs, xs.length⟩, p⟩ : Filter.Iterator (VecIter α) α) = true →
      Iter.incr F it = Except.ok it1 → FilterReached F xs p it1

/-! ## The scenarios of the unit tests, evaluated -/

example : (Filter.call 6 ⟨fun x => x % 2 == 0⟩ (AsDataFlow.mk [1, 2, 3, 4, 5])
    >>= AsVector.call 6) = Except.ok [2, 4] := by decide

example : (Filter.call 5 ⟨fun e : String × Nat => decide (30 < e.2)⟩
      (AsDataFlow.mk [("Alice", 25), ("Bob", 40), ("Charlie", 30), ("David", 45)])
    >>= Filter.call 5 ⟨fun e => e.1 != "David"⟩ >>= AsVector.call 5)
    = Except.ok [("Bob", 40)] := by decide

example : (Transform.call 6 ⟨fun x : Int => if 0 ≤ x then some x else none⟩
      (AsDataFlow.mk [10, -5, 20, -15, 30])
    >>= DropNullopt.call 6 ⟨⟩ >>= Transform.call 6 ⟨fun x => x + 10⟩ >>= AsVector.call 6)
    = Except.ok [20, 30, 40] := by decide

example : (Transform.call 6 ⟨fun x => x * x⟩ (AsDataFlow.mk [1, 2, 3, 4, 5])
    >>= AsVector.call 6) = Except.ok [1, 4, 9, 16, 25] := by decide

example : (DropNullopt.call 6 ⟨⟩ (AsDataFlow.mk [some 1, none, some 3, none, some 5])
    >>= AsVector.call 6) = Except.ok [1, 3, 5] := by decide

example : JoinSimple.call 6 (Join.simple (AsDataFlow.mk [KV.mk 1 "A", KV.mk 2 "B", KV.mk 4 "D"]))
      (AsDataFlow.mk [KV.mk 1 "a", KV.mk 2 "b", KV.mk 3 "c"])
    = Except.ok [⟨"a", some "A"⟩, ⟨"b", some "B"⟩, ⟨"c", none⟩] := by decide

example : (JoinFunc.call 7
      (Join (AsDataFlow.mk [(1, "Math"), (1, "Physics"), (2, "Biology")]) Prod.fst Prod.fst)
      (AsDataFlow.mk [(1, "Alice"), (2, "Bob"), (3, "Charlie")])
    >>= JoinFunc.call 7 (Join (AsDataFlow.mk [(1, 90), (1, 85), (2, 78), (3, 92)])
      (fun r : JoinResult (Nat × String) (Nat × String) => r.base.1) Prod.fst)
    >>= AsVector.call 7)
    = Except.ok [⟨⟨(1, "Alice"), some (1, "Math")⟩, some (1, 90)⟩,
        ⟨⟨(1, "Alice"), some (1, "Math")⟩, some (1, 85)⟩,
        ⟨⟨(1, "Alice"), some (1, "Physics")⟩, some (1, 90)⟩,
        ⟨⟨(1, "Alice"), some (1, "Physics")⟩, some (1, 85)⟩,
        ⟨⟨(2, "Bob"), some (2, "Biology")⟩, some (2, 78)⟩,
        ⟨⟨(3, "Charlie"), none⟩, some (3, 92)⟩] := by decide

example : AggregateByKey.call 4 List.reverse ⟨id, fun _ c => (c + 1) % 2 ^ 64, 0⟩
    (AsDataFlow.mk ["x", "y", "x"]) = Except.ok [("x", 2), ("y", 1)] := by decide

example : (SplitExpected.call 6 ⟨⟩ (AsDataFlow.mk [Except.ok 42, Except.error "Negative number",
      Except.ok 100, Except.error "Invalid integer", Except.ok 7])
    >>= fun views => AsVector.call 6 views.2) = Except.ok [42, 100, 7] := by decide

example : (SplitExpected.call 6 ⟨⟩ (AsDataFlow.mk [Except.ok 42, Except.error "Negative number",
      Except.ok 100, Except.error "Invalid integer", Except.ok 7])
    >>= fun views => AsVector.call 6 views.1)
    = Except.ok ["Negative number", "Invalid integer"] := by decide

example : (Split.call 12 ⟨" ".toList⟩ (AsDataFlow.mk
      [StringStream.ofString "1 2 3 4 5".toList, StringStream.ofString "6 7 8 9 10".toList])
    >>= AsVector.call 12)
    = Except.ok (["1", "2", "3", "4", "5", "6", "7", "8", "9", "10"].map String.toList) := by
  decide

example : (Split.call 8 ⟨"|".toList⟩ (AsDataFlow.mk [StringStream.ofString "a||b".toList])
    >>= AsVector.call 8) = Except.ok (["a", "", "b"].map String.toList) := by
  decide

example : (Split.call 8 ⟨"|".toList⟩ (AsDataFlow.mk
      [StringStream.ofString "a|".toList, StringStream.ofString "".toList,
        StringStream.ofString "b|".toList])
    >>= AsVector.call 8) = Except.ok (["a", "", "", "b"].map String.toList) := by
  decide

example : collectSplit 8 " ".toList ["10 2".toList, "3".toList]
    = Except.ok (["10", "2", "3"].map String.toList) := by
  decide

example : collectSplit 4 "|".toList ["x".toList, []] = Except.ok ["x".toList] := by
  decide

example : collectSplit 4 "|".toList [] = Except.ok [] := by
  decide

example : (Split.call 16 ⟨"|".toList⟩
      (AsDataFlow.mk [StringStream.ofString "42|-5|100|abc|7".toList])
    >>= Transform.call 16 ⟨fun w => if w.head? = some '-' then Except.error "Negative number"
      else if w.all Char.isDigit then Except.ok (String.mk w) else Except.error "Invalid integer"⟩
    >>= collectBothViews 16)
    = Except.ok (["Negative number", "Invalid integer"], ["42", "100", "7"]) := by decide

/-! ## The `Run` monad -/

@[simp] theorem run_pure {α : Type} (a : α) : (pure a : Run α) = Except.ok a := rfl

@[simp] theorem run_throw {α : Type} (f : Fault) : (throw f : Run α) = Except.error f := rfl

@[simp] theorem run_ok_bind {α β : Type} (a : α) (k : α → Run β) :
    ((Except.ok a : Run α) >>= k) = k a := rfl

@[simp] theorem run_error_bind {α β : Type} (f : Fault) (k : α → Run β) :
    ((Except.error f : Run α) >>= k) = Except.error f := rfl

/-! ## Range-based `for` over a stable cursor -/

theorem rangeLoop_of_lists {I α σ : Type} [Iter I α] {F : Nat} {e : I}
    (body : σ → α → Run σ) {it : I} {xs : List α} (h : Lists F e it xs) :
    ∀ (n : Nat) (s : σ), xs.length < n → rangeLoop F body n it e s = xs.foldlM body s := by
  induction h with
  | nil hne =>
    intro n s hn
    cases n with
    | zero => simp at hn
    | succ n => simp [rangeLoop, hne]
  | cons hne hd hi _ ih =>
    intro n s hn
    cases n with
    | zero => simp at hn
    | succ n =>
      have hn1 : _ < n := Nat.lt_of_succ_lt_succ hn
      simp only [rangeLoop, hne, if_true, hd, List.foldlM]
      show (body s _ >>= fun s1 => _) = _
      cases hb : body s _ with
      | error err => rfl
      | ok s1 =>
        show (Iter.incr F _ >>= fun it2 => _) = _
        rw [hi]
        exact ih n s1 hn1

theorem rangeLoop_succ {I α σ : Type} [Iter I α] (F : Nat) (body : σ → α → Run σ) (n : Nat)
    (it e : I) (s : σ) :
    rangeLoop F body (n + 1) it e s
      = if Iter.ne it e = true then
          Iter.deref F it >>= fun r => body s r.1 >>= fun s1 =>
            Iter.incr F r.2 >>= fun it2 => rangeLoop F body n it2 e s1
        else pure s := rfl

theorem foldlM_push {α : Type} (xs : List α) :
    ∀ acc : List α, xs.foldlM (fun (data_ : List α) item => (pure (data_ ++ [item]) : Run _)) acc
      = Except.ok (acc ++ xs) := by
  induction xs with
  | nil => intro acc; simp [List.foldlM]
  | cons x xs ih =>
    intro acc
    simp only [List.foldlM]
    show xs.foldlM _ (acc ++ [x]) = _
    rw [ih]; simp

theorem asVector_of_yields {D I α : Type} [DataFlow D I] [Iter I α] {F : Nat} {d : D}
    {xs : List α} (h : Yields F d xs) (hF : xs.length < F) :
    AsVector.call F d = Except.ok xs := by
  obtain ⟨b, e, hb, he, _, hl⟩ := h
  unfold AsVector.call rangeFor
  rw [hb, he]
  show rangeLoop F _ F b e [] = _
  rw [rangeLoop_of_lists _ hl F [] hF, foldlM_push]; simp

theorem vecIter_lists {α : Type} (F : Nat) (v : List α) :
    ∀ (rest pre : List α), v = pre ++ rest →
      Lists F (⟨v, v.length⟩ : VecIter α) ⟨v, pre.length⟩ rest := by
  intro rest
  induction rest with
  | nil =>
    intro pre hv
    apply Lists.nil
    subst hv
    simp [Iter.ne]
  | cons x rest ih =>
    intro pre hv
    have hlen : pre.length < v.length := by subst hv; simp
    have ih1 := ih (pre ++ [x]) (by subst hv; simp)
    refine Lists.cons ?_ ?_ ?_ ih1
    · simp only [Iter.ne, bne_iff_ne, ne_eq]; omega
    · have hget : v.get? pre.length = some x := by
        subst hv
        rw [List.get?_eq_getElem?, List.getElem?_append_right (Nat.le_refl _)]
        simp
      simp only [Iter.deref, hget]; rfl
    · simp only [Iter.incr, hlen, if_true, List.length_append, List.length_singleton]; rfl

theorem vec_yields {α : Type} (F : Nat) (v : List α) : Yields F v v :=
  ⟨⟨v, 0⟩, ⟨v, v.length⟩, rfl, rfl, by simp [Iter.ne], vecIter_lists F v v [] rfl⟩

theorem asDataFlow_yields {α : Type} (F : Nat) (v : List α) : Yields F (AsDataFlow.mk v) v :=
  ⟨⟨v, 0⟩, ⟨v, v.length⟩, rfl, rfl, by simp [Iter.ne], vecIter_lists F v v [] rfl⟩

/-! ### `Filter` over a stable cursor -/

theorem length_dropWhile_le {α : Type} (q : α → Bool) (xs : List α) :
    (xs.dropWhile q).length ≤ xs.length := by
  induction xs with
  | nil => simp
  | cons x xs ih =>
    by_cases hq : q x = true
    · simp only [List.dropWhile_cons, hq, if_true, List.length_cons]; omega
    · simp [List.dropWhile_cons, hq]

theorem filter_dropWhile_not {α : Type} (p : α → Bool) (xs : List α) :
    (xs.dropWhile (fun x => !p x)).filter p = xs.filter p := by
  induction xs with
  | nil => simp
  | cons x xs ih =>
    by_cases hp : p x = true
    · simp [List.dropWhile_cons, hp]
    · simp [List.dropWhile_cons, hp, ih]

theorem head_dropWhile_not {α : Type} (p : α → Bool) (xs : List α) :
    ∀ x ∈ (xs.dropWhile (fun x => !p x)).head?, p x = true := by
  induction xs with
  | nil => simp
  | cons x xs ih =>
    by_cases hp : p x = true
    · simp [List.dropWhile_cons, hp]
    · simpa [List.dropWhile_cons, hp] using ih

theorem filter_of_lists {I α : Type} [Iter I α] {F : Nat} {e : I} (p : α → Bool)
    {it : I} {xs : List α} (h : Lists F e it xs) :
    ∀ n : Nat, xs.length < n → ∃ it1 : I,
      Filter.Iterator.filter F n ⟨it, e, p⟩ = Except.ok ⟨it1, e, p⟩ ∧
      Lists F e it1 (xs.dropWhile (fun x => !p x)) := by
  induction h with
  | @nil it hne =>
    intro n hn
    cases n with
    | zero => simp at hn
    | succ n => exact ⟨it, by simp [Filter.Iterator.filter, hne], Lists.nil hne⟩
  | @cons it it2 x xs hne hd hi hl ih =>
    intro n hn
    cases n with
    | zero => simp at hn
    | succ n =>
      have hn1 : xs.length < n := Nat.lt_of_succ_lt_succ hn
      by_cases hp : p x = true
      · refine ⟨it, ?_, ?_⟩
        · simp only [Filter.Iterator.filter, hne, if_true, hd]
          show (if (!p x) = true then _ else _) = _
          simp [hp]
        · simpa [List.dropWhile_cons, hp] using Lists.cons hne hd hi hl
      · obtain ⟨it1, h1, h2⟩ := ih n hn1
        refine ⟨it1, ?_, ?_⟩
        · simp only [Filter.Iterator.filter, hne, if_true, hd]
          show (if (!p x) = true then _ else _) = _
          simp only [hp, Bool.not_false, if_true]
          show (Iter.incr F it >>= fun i2 => _) = _
          rw [hi]
          exact h1
        · simpa [List.dropWhile_cons, hp] using h2

theorem filterIterator_lists {I α : Type} [Iter I α] {F : Nat} {e : I} (p : α → Bool) :
    ∀ (n : Nat) (xs : List α) (it : I), xs.length ≤ n → xs.length < F → Lists F e it xs →
      (∀ x ∈ xs.head?, p x = true) →
      Lists F (⟨e, e, p⟩ : Filter.Iterator I α) ⟨it, e, p⟩ (xs.filter p) := by
  intro n
  induction n with
  | zero =>
    intro xs it hn _ hl _
    have : xs = [] := List.length_eq_zero.mp (Nat.le_zero.mp hn)
    subst this
    cases hl with
    | nil hne => exact Lists.nil hne
  | succ n ih =>
    intro xs it hn hF hl hh
    cases hl with
    | nil hne => exact Lists.nil hne
    | @cons _ it2 x xs1 hne hd hi hl1 =>
      have hp : p x = true := hh x (by simp)
      have hlen : xs1.length < F := by simp at hF; omega
      obtain ⟨it3, h3, hl3⟩ := filter_of_lists p hl1 F hlen
      have hle := length_dropWhile_le (fun x => !p x) xs1
      have ih1 := ih _ it3 (by simp at hn; omega) (by omega) hl3 (head_dropWhile_not p xs1)
      rw [filter_dropWhile_not] at ih1
      simp only [List.filter_cons, hp, if_true]
      refine Lists.cons hne ?_ ?_ ih1
      · show (Iter.deref F it >>= fun r => _) = _
        rw [hd]; rfl
      · show (Iter.incr F it >>= fun i1 => _) = _
        rw [hi]; exact h3

theorem filter_call_yields {D I α : Type} [DataFlow D I] [Iter I α] {F : Nat} {d : D}
    {xs : List α} (p : α → Bool) (h : Yields F d xs) (hF : xs.length < F) :
    ∃ it : Filter.Iterator I α, Filter.call F ⟨p⟩ d = Except.ok it ∧
      Yields F it (xs.filter p) := by
  obtain ⟨b, e, hb, he, hee, hl⟩ := h
  obtain ⟨it1, h1, hl1⟩ := filter_of_lists p hl F hF
  have hle := length_dropWhile_le (fun x => !p x) xs
  have hfl := filterIterator_lists p _ _ it1 (Nat.le_refl _) (by omega) hl1
    (head_dropWhile_not p xs)
  rw [filter_dropWhile_not] at hfl
  have hF0 : F = (F - 1) + 1 := by omega
  refine ⟨⟨it1, e, p⟩, ?_, ⟨it1, e, p⟩, ⟨e, e, p⟩, rfl, ?_, hee, hfl⟩
  · unfold Filter.call
    rw [hb, he]
    exact h1
  · show Filter.Iterator.filter F F ⟨e, e, p⟩ = _
    rw [hF0]
    simp [Filter.Iterator.filter, hee]

theorem transformIterator_lists {I α β : Type} [Iter I α] {F : Nat} {e : I} (f : α → β)
    {it : I} {xs : List α} (h : Lists F e it xs) :
    Lists F (⟨e, e, f⟩ : Transform.Iterator I α β) ⟨it, e, f⟩ (xs.map f) := by
  induction h with
  | nil hne => exact Lists.nil hne
  | @cons it it2 x xs hne hd hi _ ih =>
    refine Lists.cons hne ?_ ?_ ih
    · show (Iter.deref F it >>= fun r => _) = _
      rw [hd]; rfl
    · show (Iter.incr F it >>= fun i1 => _) = _
      rw [hi]; rfl

theorem transform_call_yields {D I α β : Type} [DataFlow D I] [Iter I α] {F : Nat} {d : D}
    {xs : List α} (f : α → β) (h : Yields F d xs) :
    ∃ it : Transform.Iterator I α β, Transform.call F ⟨f⟩ d = Except.ok it ∧
      Yields F it (xs.map f) := by
  obtain ⟨b, e, hb, he, hee, hl⟩ := h
  refine ⟨⟨b, e, f⟩, ?_, ⟨b, e, f⟩, ⟨e, e, f⟩, rfl, rfl, hee, transformIterator_lists f hl⟩
  unfold Transform.call
  rw [hb, he]; rfl

/-! ### `DropNullopt` over a stable cursor -/

theorem filterMap_dropWhile_none {α : Type} (xs : List (Option α)) :
    (xs.dropWhile (fun x => !x.isSome)).filterMap id = xs.filterMap id := by
  induction xs with
  | nil => simp
  | cons x xs ih =>
    cases x with
    | none => simpa [List.dropWhile_cons] using ih
    | some v => simp [List.dropWhile_cons]

theorem head_dropWhile_none {α : Type} (xs : List (Option α)) :
    ∀ x ∈ (xs.dropWhile (fun x => !x.isSome)).head?, x.isSome = true := by
  induction xs with
  | nil => simp
  | cons x xs ih =>
    cases x with
    | none => simpa [List.dropWhile_cons] using ih
    | some v => simp [List.dropWhile_cons]

theorem skip_nullopt_of_lists {I α : Type} [Iter I (Option α)] {F : Nat} {e : I}
    {it : I} {xs : List (Option α)} (h : Lists F e it xs) :
    ∀ n : Nat, xs.length < n → ∃ it1 : I,
      DropNullopt.Iterator.skip_nullopt F n ⟨it, e⟩ = Except.ok ⟨it1, e⟩ ∧
      Lists F e it1 (xs.dropWhile (fun x => !x.isSome)) := by
  induction h with
  | @nil it hne =>
    intro n hn
    cases n with
    | zero => simp at hn
    | succ n => exact ⟨it, by simp [DropNullopt.Iterator.skip_nullopt, hne], Lists.nil hne⟩
  | @cons it it2 x xs hne hd hi hl ih =>
    intro n hn
    cases n with
    | zero => simp at hn
    | succ n =>
      have hn1 : xs.length < n := Nat.lt_of_succ_lt_succ hn
      cases x with
      | some v =>
        refine ⟨it, ?_, ?_⟩
        · simp only [DropNullopt.Iterator.skip_nullopt, hne, if_true, hd]
          simp
        · simpa [List.dropWhile_cons] using Lists.cons hne hd hi hl
      | none =>
        obtain ⟨it1, h1, h2⟩ := ih n hn1
        refine ⟨it1, ?_, ?_⟩
        · simp only [DropNullopt.Iterator.skip_nullopt, hne, if_true, hd]
          simp only [run_ok_bind, Option.isSome_none, Bool.not_false, if_true, hi]
          exact h1
        · simpa [List.dropWhile_cons] using h2

theorem dropNulloptIterator_lists {I α : Type} [Iter I (Option α)] {F : Nat} {e : I} :
    ∀ (n : Nat) (xs : List (Option α)) (it : I), xs.length ≤ n → xs.length < F →
      Lists F e it xs → (∀ x ∈ xs.head?, x.isSome = true) →
      Lists F (⟨e, e⟩ : DropNullopt.Iterator I) ⟨it, e⟩ (xs.filterMap id) := by
  intro n
  induction n with
  | zero =>
    intro xs it hn _ hl _
    have : xs = [] := List.length_eq_zero.mp (Nat.le_zero.mp hn)
    subst this
    cases hl with
    | nil hne => exact Lists.nil hne
  | succ n ih =>
    intro xs it hn hF hl hh
    cases hl with
    | nil hne => exact Lists.nil hne
    | @cons _ it2 x xs1 hne hd hi hl1 =>
      have hp : x.isSome = true := hh x (by simp)
      obtain ⟨v, rfl⟩ := Option.isSome_iff_exists.mp hp
      have hlen : xs1.length < F := by simp at hF; omega
      obtain ⟨it3, h3, hl3⟩ := skip_nullopt_of_lists hl1 F hlen
      have hle := length_dropWhile_le (fun x : Option α => !x.isSome) xs1
      have ih1 := ih _ it3 (by simp at hn; omega) (by omega) hl3 (head_dropWhile_none xs1)
      rw [filterMap_dropWhile_none] at ih1
      simp only [List.filterMap_cons, id]
      refine Lists.cons hne ?_ ?_ ih1
      · show (Iter.deref F it >>= fun r => _) = _
        rw [hd]; rfl
      · show (Iter.incr F it >>= fun i1 => _) = _
        rw [hi]; exact h3

theorem dropNullopt_call_yields {D I α : Type} [DataFlow D I] [Iter I (Option α)] {F : Nat}
    {d : D} {xs : List (Option α)} (h : Yields F d xs) (hF : xs.length < F) :
    ∃ it : DropNullopt.Iterator I, DropNullopt.call F ⟨⟩ d = Except.ok it ∧
      Yields F it (xs.filterMap id) := by
  obtain ⟨b, e, hb, he, hee, hl⟩ := h
  obtain ⟨it1, h1, hl1⟩ := skip_nullopt_of_lists hl F hF
  have hle := length_dropWhile_le (fun x : Option α => !x.isSome) xs
  have hfl := dropNulloptIterator_lists _ _ it1 (Nat.le_refl _) (by omega) hl1
    (head_dropWhile_none xs)
  rw [filterMap_dropWhile_none] at hfl
  have hF0 : F = (F - 1) + 1 := by omega
  refine ⟨⟨it1, e⟩, ?_, ⟨it1, e⟩, ⟨e, e⟩, rfl, ?_, hee, hfl⟩
  · unfold DropNullopt.call
    rw [hb, he]
    exact h1
  · show DropNullopt.Iterator.skip_nullopt F F ⟨e, e⟩ = _
    rw [hF0]
    simp [DropNullopt.Iterator.skip_nullopt, hee]

/-- C2: collecting `xs | Transform(f)` with `AsVector` returns `[f(x) for x in xs]`: as long
as `xs`, with `f` of the `i`-th item at position `i`. -/
theorem C2_transform_asVector {α β : Type} (xs : List α) (f : α → β) (F : Nat)
    (hF : xs.length < F) :
    ∃ out : List β,
      (Transform.call F ⟨f⟩ (AsDataFlow.mk xs) >>= AsVector.call F) = Except.ok out ∧
      out = xs.map f ∧ out.length = xs.length ∧ ∀ i : Nat, out[i]? = (xs[i]?).map f := by
  obtain ⟨it, h1, h2⟩ := transform_call_yields f (asDataFlow_yields F xs)
  refine ⟨xs.map f, ?_, rfl, by simp, by simp⟩
  rw [h1]
  exact asVector_of_yields h2 (by simpa using hF)

theorem C2_transform_asVector_witness :
    [1, 2, 3].length < 4 ∧
    ∃ out : List Nat,
      (Transform.call 4 ⟨fun x => x * x⟩ (AsDataFlow.mk [1, 2, 3]) >>= AsVector.call 4)
        = Except.ok out ∧
      out = [1, 2, 3].map (fun x => x * x) ∧ out.length = [1, 2, 3].length ∧
      ∀ i : Nat, out[i]? = ([1, 2, 3][i]?).map fun x => x * x :=
  ⟨by decide, C2_transform_asVector [1, 2, 3] (fun x => x * x) 4 (by decide)⟩

theorem rangeFor_of_yields {D I α σ : Type} [DataFlow D I] [Iter I α] {F : Nat} {d : D}
    {xs : List α} (h : Yields F d xs) (hF : xs.length < F) (body : σ → α → Run σ) (s : σ) :
    rangeFor F d body s = xs.foldlM body s := by
  obtain ⟨b, e, hb, he, _, hl⟩ := h
  unfold rangeFor
  rw [hb, he]
  exact rangeLoop_of_lists body hl F s hF

theorem join_inner_fold {Ri J : Type} (m : Ri → Bool) (mk : Ri → J) (rs : List Ri) :
    ∀ (res : List J) (flag : Bool),
      rs.foldlM (fun (st : List J × Bool) item_r =>
          if m item_r = true then (Except.ok (st.1 ++ [mk item_r], true) : Run _)
          else Except.ok st)
        (res, flag)
      = Except.ok (res ++ (rs.filter m).map mk, flag || !(rs.filter m).isEmpty) := by
  induction rs with
  | nil => intro res flag; simp
  | cons r rs ih =>
    intro res flag
    by_cases hm : m r = true
    · simp [List.foldlM_cons, hm, ih]
    · simp [List.foldlM_cons, hm, ih]

theorem join_outer_fold {L J : Type} (body : List J → L → Run (List J)) (row : L → List J)
    (hbody : ∀ acc l, body acc l = Except.ok (acc ++ row l)) (ls : List L) :
    ∀ acc : List J, ls.foldlM body acc = Except.ok (acc ++ ls.flatMap row) := by
  induction ls with
  | nil => intro acc; simp
  | cons l ls ih =>
    intro acc
    simp [List.foldlM_cons, hbody, ih]

theorem joinFunc_call_eq {R IR L Ri K D ID : Type} [DataFlow R IR] [Iter IR Ri]
    [DataFlow D ID] [Iter ID L] [BEq K] {F : Nat} (self : JoinFunc R L Ri K) {left_flow : D}
    {ls : List L} {rs : List Ri} (hl : Yields F left_flow ls) (hr : Yields F self.right_flow_ rs)
    (hFl : ls.length < F) (hFr : rs.length < F) :
    JoinFunc.call F self left_flow = Except.ok (ls.flatMap fun l =>
      if (rs.filter fun r => self.left_func_ l == self.right_func_ r).isEmpty then [⟨l, none⟩]
      else (rs.filter fun r => self.left_func_ l == self.right_func_ r).map
        fun r => ⟨l, some r⟩) := by
  unfold JoinFunc.call
  rw [rangeFor_of_yields hl hFl, join_outer_fold _ (fun l =>
      if (rs.filter fun r => self.left_func_ l == self.right_func_ r).isEmpty then [⟨l, none⟩]
      else (rs.filter fun r => self.left_func_ l == self.right_func_ r).map
        fun r => ⟨l, some r⟩) ?_ ls []]
  · simp
  · intro acc l
    rw [rangeFor_of_yields hr hFr]
    simp only [run_pure]
    rw [join_inner_fold (fun r : Ri => self.left_func_ l == self.right_func_ r)
      (fun r : Ri => (⟨l, some r⟩ : JoinResult L Ri))]
    generalize (rs.filter fun r => self.left_func_ l == self.right_func_ r) = ms
    cases ms <;> simp

theorem joinSimple_call_eq {R IR K V W D ID : Type} [DataFlow R IR] [Iter IR (KV K W)]
    [DataFlow D ID] [Iter ID (KV K V)] [BEq K] {F : Nat} {self : JoinSimple R} {left_flow : D}
    {ls : List (KV K V)} {rs : List (KV K W)} (hl : Yields F left_flow ls)
    (hr : Yields F self.right_flow_ rs) (hFl : ls.length < F) (hFr : rs.length < F) :
    JoinSimple.call F self left_flow = Except.ok (ls.flatMap fun l =>
      if (rs.filter fun r => l.key == r.key).isEmpty then [⟨l.value, none⟩]
      else (rs.filter fun r => l.key == r.key).map fun r => ⟨l.value, some r.value⟩) := by
  unfold JoinSimple.call
  rw [rangeFor_of_yields hl hFl, join_outer_fold _ (fun l =>
      if (rs.filter fun r => l.key == r.key).isEmpty then [⟨l.value, none⟩]
      else (rs.filter fun r => l.key == r.key).map fun r => ⟨l.value, some r.value⟩) ?_ ls []]
  · simp
  · intro acc l
    rw [rangeFor_of_yields hr hFr]
    simp only [run_pure]
    rw [join_inner_fold (fun r : KV K W => l.key == r.key)
      (fun r : KV K W => (⟨l.value, some r.value⟩ : JoinResult V W))]
    generalize (rs.filter fun r => l.key == r.key) = ms
    cases ms <;> simp

/-- C4: the simple join of two vectors of `KV` returns, for each left item in left order, one
result per right item with an equal key (in right order), or a single result with an absent
joined value when no right item has that key; it returns nothing else. -/
theorem C4_joinSimple_rows {K V W : Type} [BEq K] (left : List (KV K V))
    (right : List (KV K W)) (F : Nat) (hFl : left.length < F) (hFr : right.length < F) :
    JoinSimple.call F (Join.simple (AsDataFlow.mk right)) (AsDataFlow.mk left)
      = Except.ok (left.flatMap fun l =>
          if (right.filter fun r => l.key == r.key).isEmpty then [⟨l.value, none⟩]
          else (right.filter fun r => l.key == r.key).map fun r => ⟨l.value, some r.value⟩) :=
  joinSimple_call_eq (asDataFlow_yields F left) (asDataFlow_yields F right) hFl hFr

theorem C4_joinSimple_rows_witness :
    ([KV.mk 1 "a", KV.mk 2 "b", KV.mk 3 "c"].length < 4 ∧
      [KV.mk 1 "A", KV.mk 2 "B", KV.mk 4 "D"].length < 4) ∧
    JoinSimple.call 4 (Join.simple (AsDataFlow.mk [KV.mk 1 "A", KV.mk 2 "B", KV.mk 4 "D"]))
        (AsDataFlow.mk [KV.mk 1 "a", KV.mk 2 "b", KV.mk 3 "c"])
      = Except.ok [⟨"a", some "A"⟩, ⟨"b", some "B"⟩, ⟨"c", none⟩] :=
  ⟨⟨by decide, by decide⟩,
    C4_joinSimple_rows [KV.mk 1 "a", KV.mk 2 "b", KV.mk 3 "c"]
      [KV.mk 1 "A", KV.mk 2 "B", KV.mk 4 "D"] 4 (by decide) (by decide)⟩

/-- C7: the explicit-key join of two vectors returns, for each left item `l` in order, one
result holding the whole of `l` and the whole of `r` for every right item `r` with
`kl l == kr r` (in right order), or the single result `(l, absent)` when there is none. -/
theorem C7_joinFunc_rows {L Ri K : Type} [BEq K] (left : List L) (right : List Ri)
    (kl : L → K) (kr : Ri → K) (F : Nat) (hFl : left.length < F) (hFr : right.length < F) :
    JoinFunc.call F (Join (AsDataFlow.mk right) kl kr) (AsDataFlow.mk left)
      = Except.ok (left.flatMap fun l =>
          if (right.filter fun r => kl l == kr r).isEmpty then [⟨l, none⟩]
          else (right.filter fun r => kl l == kr r).map fun r => ⟨l, some r⟩) :=
  joinFunc_call_eq (Join (AsDataFlow.mk right) kl kr) (asDataFlow_yields F left)
    (asDataFlow_yields F right) hFl hFr

theorem C7_joinFunc_rows_witness :
    ([(0, "a"), (1, "b"), (2, "c"), (3, "d"), (1, "e")].length < 6 ∧
      [(0, "f"), (1, "g"), (3, "i")].length < 6) ∧
    JoinFunc.call 6 (Join (AsDataFlow.mk [(0, "f"), (1, "g"), (3, "i")]) Prod.fst Prod.fst)
        (AsDataFlow.mk [(0, "a"), (1, "b"), (2, "c"), (3, "d"), (1, "e")])
      = Except.ok [⟨(0, "a"), some (0, "f")⟩, ⟨(1, "b"), some (1, "g")⟩, ⟨(2, "c"), none⟩,
          ⟨(3, "d"), some (3, "i")⟩, ⟨(1, "e"), some (1, "g")⟩] :=
  ⟨⟨by decide, by decide⟩,
    C7_joinFunc_rows [(0, "a"), (1, "b"), (2, "c"), (3, "d"), (1, "e")]
      [(0, "f"), (1, "g"), (3, "i")] Prod.fst Prod.fst 6 (by decide) (by decide)⟩

theorem join_row_cases {Ri J : Type} (m : Ri → Bool) (mk : Ri → J) (dflt : J) (rs : List Ri) :
    ((∀ r ∈ rs, m r = false) →
      (if (rs.filter m).isEmpty then [dflt] else (rs.filter m).map mk) = [dflt]) ∧
    ((∃ r ∈ rs, m r = true) →
      (if (rs.filter m).isEmpty then [dflt] else (rs.filter m).map mk) = (rs.filter m).map mk ∧
      rs.filter m ≠ []) := by
  constructor
  · intro h
    have : rs.filter m = [] := by simpa using h
    simp [this]
  · rintro ⟨r, hr, hm⟩
    have hne : rs.filter m ≠ [] := List.ne_nil_of_mem (List.mem_filter.mpr ⟨hr, hm⟩)
    have : (rs.filter m).isEmpty = false := by
      cases hms : rs.filter m with
      | nil => exact absurd hms hne
      | cons _ _ => rfl
    simp [this, hne]

/-- C5: in both join variants the output is the concatenation of what each left item
contributes; a left item with no equal-keyed right item contributes exactly one result, whose
joined value is absent, and a left item with an equal-keyed right item contributes no result
with an absent joined value (and at least one result). -/
theorem C5_join_unmatched_exactly_once {K V W L Ri K2 : Type} [BEq K] [BEq K2]
    (pre post : List (KV K V)) (l : KV K V) (right : List (KV K W))
    (pre2 post2 : List L) (l2 : L) (right2 : List Ri) (kl : L → K2) (kr : Ri → K2) (F : Nat)
    (hF1 : pre.length + post.length + 1 < F) (hF2 : right.length < F)
    (hF3 : pre2.length + post2.length + 1 < F) (hF4 : right2.length < F) :
    (∃ a b c : List (JoinResult V W),
      JoinSimple.call F (Join.simple (AsDataFlow.mk right)) (AsDataFlow.mk (pre ++ l :: post))
        = Except.ok (a ++ b ++ c) ∧
      JoinSimple.call F (Join.simple (AsDataFlow.mk right)) (AsDataFlow.mk pre) = Except.ok a ∧
      JoinSimple.call F (Join.simple (AsDataFlow.mk right)) (AsDataFlow.mk [l]) = Except.ok b ∧
      JoinSimple.call F (Join.simple (AsDataFlow.mk right)) (AsDataFlow.mk post) = Except.ok c ∧
      ((∀ r ∈ right, (l.key == r.key) = false) → b = [⟨l.value, none⟩]) ∧
      ((∃ r ∈ right, (l.key == r.key) = true) → b ≠ [] ∧ ∀ x ∈ b, x.joined ≠ none)) ∧
    (∃ a b c : List (JoinResult L Ri),
      JoinFunc.call F (Join (AsDataFlow.mk right2) kl kr) (AsDataFlow.mk (pre2 ++ l2 :: post2))
        = Except.ok (a ++ b ++ c) ∧
      JoinFunc.call F (Join (AsDataFlow.mk right2) kl kr) (AsDataFlow.mk pre2) = Except.ok a ∧
      JoinFunc.call F (Join (AsDataFlow.mk right2) kl kr) (AsDataFlow.mk [l2]) = Except.ok b ∧
      JoinFunc.call F (Join (AsDataFlow.mk right2) kl kr) (AsDataFlow.mk post2) = Except.ok c ∧
      ((∀ r ∈ right2, (kl l2 == kr r) = false) → b = [⟨l2, none⟩]) ∧
      ((∃ r ∈ right2, (kl l2 == kr r) = true) → b ≠ [] ∧ ∀ x ∈ b, x.joined ≠ none)) := by
  have hF0 : 1 < F := by omega
  constructor
  · have key : ∃ row : KV K V → List (JoinResult V W),
        (∀ ls : List (KV K V), ls.length < F →
          JoinSimple.call F (Join.simple (AsDataFlow.mk right)) (AsDataFlow.mk ls)
            = Except.ok (ls.flatMap row)) ∧
        ((∀ r ∈ right, (l.key == r.key) = false) → row l = [⟨l.value, none⟩]) ∧
        ((∃ r ∈ right, (l.key == r.key) = true) → row l ≠ [] ∧ ∀ x ∈ row l, x.joined ≠ none) := by
      have hrow := join_row_cases (fun r : KV K W => l.key == r.key)
        (fun r : KV K W => (⟨l.value, some r.value⟩ : JoinResult V W)) ⟨l.value, none⟩ right
      refine ⟨_, fun ls h => joinSimple_call_eq (asDataFlow_yields F ls)
        (asDataFlow_yields F right) h hF2, hrow.1, ?_⟩
      intro h
      obtain ⟨h1, h2⟩ := hrow.2 h
      simp only [h1]
      refine ⟨by simpa using h2, ?_⟩
      intro x hx
      obtain ⟨r, _, rfl⟩ := List.mem_map.mp hx
      simp
    obtain ⟨row, hcall, hu, hm⟩ := key
    refine ⟨pre.flatMap row, row l, post.flatMap row, ?_, hcall pre (by omega), ?_,
      hcall post (by omega), hu, hm⟩
    · rw [hcall _ (by simp; omega), List.flatMap_append, List.flatMap_cons, List.append_assoc]
    · rw [hcall _ (by simpa using hF0), List.flatMap_singleton]
  · have key : ∃ row : L → List (JoinResult L Ri),
        (∀ ls : List L, ls.length < F →
          JoinFunc.call F (Join (AsDataFlow.mk right2) kl kr) (AsDataFlow.mk ls)
            = Except.ok (ls.flatMap row)) ∧
        ((∀ r ∈ right2, (kl l2 == kr r) = false) → row l2 = [⟨l2, none⟩]) ∧
        ((∃ r ∈ right2, (kl l2 == kr r) = true) →
          row l2 ≠ [] ∧ ∀ x ∈ row l2, x.joined ≠ none) := by
      have hrow := join_row_cases (fun r : Ri => kl l2 == kr r)
        (fun r : Ri => (⟨l2, some r⟩ : JoinResult L Ri)) ⟨l2, none⟩ right2
      refine ⟨_, fun ls h => joinFunc_call_eq (Join (AsDataFlow.mk right2) kl kr)
        (asDataFlow_yields F ls) (asDataFlow_yields F right2) h hF4, hrow.1, ?_⟩
      intro h
      obtain ⟨h1, h2⟩ := hrow.2 h
      simp only [Join] at h1 ⊢
      simp only [h1]
      refine ⟨by simpa using h2, ?_⟩
      intro x hx
      obtain ⟨r, _, rfl⟩ := List.mem_map.mp hx
      simp
    obtain ⟨row, hcall, hu, hm⟩ := key
    refine ⟨pre2.flatMap row, row l2, post2.flatMap row, ?_, hcall pre2 (by omega), ?_,
      hcall post2 (by omega), hu, hm⟩
    · rw [hcall _ (by simp; omega), List.flatMap_append, List.flatMap_cons, List.append_assoc]
    · rw [hcall _ (by simpa using hF0), List.flatMap_singleton]

theorem C5_join_unmatched_exactly_once_witness :
    ([KV.mk 1 "a"].length + [KV.mk 2 "b"].length + 1 < 4 ∧
      [KV.mk 1 "A", KV.mk 2 "B", KV.mk 4 "D"].length < 4 ∧
      [(1, "Alice")].length + [(3, "Charlie")].length + 1 < 4 ∧
      [(1, "Math"), (1, "Physics"), (2, "Biology")].length < 4) ∧
    (∃ a b c : List (JoinResult String String),
      JoinSimple.call 4 (Join.simple (AsDataFlow.mk [KV.mk 1 "A", KV.mk 2 "B", KV.mk 4 "D"]))
          (AsDataFlow.mk ([KV.mk 1 "a"] ++ KV.mk 3 "c" :: [KV.mk 2 "b"]))
        = Except.ok (a ++ b ++ c) ∧
      JoinSimple.call 4 (Join.simple (AsDataFlow.mk [KV.mk 1 "A", KV.mk 2 "B", KV.mk 4 "D"]))
          (AsDataFlow.mk [KV.mk 1 "a"]) = Except.ok a ∧
      JoinSimple.call 4 (Join.simple (AsDataFlow.mk [KV.mk 1 "A", KV.mk 2 "B", KV.mk 4 "D"]))
          (AsDataFlow.mk [KV.mk 3 "c"]) = Except.ok b ∧
      JoinSimple.call 4 (Join.simple (AsDataFlow.mk [KV.mk 1 "A", KV.mk 2 "B", KV.mk 4 "D"]))
          (AsDataFlow.mk [KV.mk 2 "b"]) = Except.ok c ∧
      ((∀ r ∈ [KV.mk 1 "A", KV.mk 2 "B", KV.mk 4 "D"], ((KV.mk 3 "c").key == r.key) = false) →
        b = [⟨(KV.mk 3 "c").value, none⟩]) ∧
      ((∃ r ∈ [KV.mk 1 "A", KV.mk 2 "B", KV.mk 4 "D"], ((KV.mk 3 "c").key == r.key) = true) →
        b ≠ [] ∧ ∀ x ∈ b, x.joined ≠ none)) ∧
    (∃ a b c : List (JoinResult (Nat × String) (Nat × String)),
      JoinFunc.call 4
          (Join (AsDataFlow.mk [(1, "Math"), (1, "Physics"), (2, "Biology")]) Prod.fst Prod.fst)
          (AsDataFlow.mk ([(1, "Alice")] ++ (2, "Bob") :: [(3, "Charlie")]))
        = Except.ok (a ++ b ++ c) ∧
      JoinFunc.call 4
          (Join (AsDataFlow.mk [(1, "Math"), (1, "Physics"), (2, "Biology")]) Prod.fst Prod.fst)
          (AsDataFlow.mk [(1, "Alice")]) = Except.ok a ∧
      JoinFunc.call 4
          (Join (AsDataFlow.mk [(1, "Math"), (1, "Physics"), (2, "Biology")]) Prod.fst Prod.fst)
          (AsDataFlow.mk [(2, "Bob")]) = Except.ok b ∧
      JoinFunc.call 4
          (Join (AsDataFlow.mk [(1, "Math"), (1, "Physics"), (2, "Biology")]) Prod.fst Prod.fst)
          (AsDataFlow.mk [(3, "Charlie")]) = Except.ok c ∧
      ((∀ r ∈ [(1, "Math"), (1, "Physics"), (2, "Biology")],
          (Prod.fst (2, "Bob") == Prod.fst r) = false) → b = [⟨(2, "Bob"), none⟩]) ∧
      ((∃ r ∈ [(1, "Math"), (1, "Physics"), (2, "Biology")],
          (Prod.fst (2, "Bob") == Prod.fst r) = true) → b ≠ [] ∧ ∀ x ∈ b, x.joined ≠ none)) :=
  ⟨⟨by decide, by decide, by decide, by decide⟩,
    C5_join_unmatched_exactly_once [KV.mk 1 "a"] [KV.mk 2 "b"] (KV.mk 3 "c")
      [KV.mk 1 "A", KV.mk 2 "B", KV.mk 4 "D"] [(1, "Alice")] [(3, "Charlie")] (2, "Bob")
      [(1, "Math"), (1, "Physics"), (2, "Biology")] Prod.fst Prod.fst 4
      (by decide) (by decide) (by decide) (by decide)⟩

theorem join_row_base {Ri B J : Type} (m : Ri → Bool) (b : B) (mk : Ri → J) (rs : List Ri) :
    (if (rs.filter m).isEmpty then [(⟨b, none⟩ : JoinResult B J)]
      else (rs.filter m).map fun r => ⟨b, some (mk r)⟩).map JoinResult.base
    = List.replicate (max 1 (rs.countP m)) b := by
  rw [List.countP_eq_length_filter]
  cases rs.filter m with
  | nil => simp
  | cons r ms =>
    have hmax : max 1 (ms.length + 1) = ms.length + 1 := by omega
    simp only [List.isEmpty_cons, Bool.false_eq_true, if_false, List.map_map, List.length_cons,
      hmax]
    exact List.map_const' (r :: ms) b

theorem length_flatMap_replicate {L B : Type} (cnt : L → Nat) (val : L → B) (ls : List L) :
    (ls.flatMap fun l => List.replicate (cnt l) (val l)).length = (ls.map cnt).sum := by
  induction ls with
  | nil => simp
  | cons l ls ih => simp [List.flatMap_cons, ih]

theorem countP_key_le_one {K W : Type} [BEq K] [LawfulBEq K] (k : K) (rs : List (KV K W))
    (hnd : (rs.map KV.key).Nodup) : rs.countP (fun r => k == r.key) ≤ 1 := by
  induction rs with
  | nil => simp
  | cons r rs ih =>
    rw [List.map_cons, List.nodup_cons] at hnd
    by_cases hk : (k == r.key) = true
    · have hk1 : k = r.key := eq_of_beq hk
      have hz : rs.countP (fun r => k == r.key) = 0 := by
        rw [List.countP_eq_zero]
        intro a ha hka
        apply hnd.1
        rw [← hk1, eq_of_beq hka]
        exact List.mem_map_of_mem KV.key ha
      simp [List.countP_cons, hk, hz]
    · have := ih hnd.2
      simp [List.countP_cons, hk, this]

/-- C6: the `base` fields of a simple join list the left values in left order, each repeated
`max 1 m` consecutive times, `m` being the number of right items with the same key; the output
length is the sum of `max 1 m` and equals the left length when the right keys are pairwise
distinct. -/
theorem C6_join_left_order {K V W : Type} [BEq K] [LawfulBEq K] (left : List (KV K V))
    (right : List (KV K W)) (F : Nat) (hFl : left.length < F) (hFr : right.length < F) :
    ∃ out : List (JoinResult V W),
      JoinSimple.call F (Join.simple (AsDataFlow.mk right)) (AsDataFlow.mk left)
        = Except.ok out ∧
      out.map JoinResult.base = (left.flatMap fun l =>
        List.replicate (max 1 (right.countP fun r => l.key == r.key)) l.value) ∧
      out.length = (left.map fun l => max 1 (right.countP fun r => l.key == r.key)).sum ∧
      ((right.map KV.key).Nodup → out.length = left.length) := by
  refine ⟨_, joinSimple_call_eq (asDataFlow_yields F left) (asDataFlow_yields F right) hFl hFr,
    ?_, ?_, ?_⟩
  · rw [List.map_flatMap]
    congr 1
    funext l
    exact join_row_base (fun r : KV K W => l.key == r.key) l.value KV.value right
  · rw [← List.length_map _ JoinResult.base, List.map_flatMap]
    rw [← length_flatMap_replicate (fun l : KV K V => max 1 (right.countP fun r => l.key == r.key))
      KV.value left]
    congr 2
    funext l
    exact join_row_base (fun r : KV K W => l.key == r.key) l.value KV.value right
  · intro hnd
    rw [← List.length_map _ JoinResult.base, List.map_flatMap]
    have hrows : (fun l : KV K V =>
        (if (right.filter fun r => l.key == r.key).isEmpty then
            [(⟨l.value, none⟩ : JoinResult V W)]
          else (right.filter fun r => l.key == r.key).map
            fun r => ⟨l.value, some r.value⟩).map JoinResult.base)
        = fun l => [l.value] := by
      funext l
      rw [join_row_base (fun r : KV K W => l.key == r.key) l.value KV.value right]
      have := countP_key_le_one l.key right hnd
      have hmax : max 1 (right.countP fun r => l.key == r.key) = 1 := by omega
      rw [hmax]; rfl
    rw [hrows]
    clear hFl hrows
    induction left with
    | nil => rfl
    | cons l ls ih =>
      rw [List.flatMap_cons, List.length_append, ih]
      simp [Nat.add_comm]

theorem C6_join_left_order_witness :
    ([KV.mk 0 "a", KV.mk 1 "b", KV.mk 2 "c"].length < 4 ∧
      [KV.mk 1 "g", KV.mk 1 "h", KV.mk 3 "i"].length < 4) ∧
    ∃ out : List (JoinResult String String),
      JoinSimple.call 4 (Join.simple (AsDataFlow.mk [KV.mk 1 "g", KV.mk 1 "h", KV.mk 3 "i"]))
          (AsDataFlow.mk [KV.mk 0 "a", KV.mk 1 "b", KV.mk 2 "c"]) = Except.ok out ∧
      out.map JoinResult.base = ([KV.mk 0 "a", KV.mk 1 "b", KV.mk 2 "c"].flatMap fun l =>
        List.replicate
          (max 1 ([KV.mk 1 "g", KV.mk 1 "h", KV.mk 3 "i"].countP fun r => l.key == r.key))
          l.value) ∧
      out.length = ([KV.mk 0 "a", KV.mk 1 "b", KV.mk 2 "c"].map fun l =>
        max 1 ([KV.mk 1 "g", KV.mk 1 "h", KV.mk 3 "i"].countP fun r => l.key == r.key)).sum ∧
      (([KV.mk 1 "g", KV.mk 1 "h", KV.mk 3 "i"].map KV.key).Nodup →
        out.length = [KV.mk 0 "a", KV.mk 1 "b", KV.mk 2 "c"].length) :=
  ⟨⟨by decide, by decide⟩,
    C6_join_left_order [KV.mk 0 "a", KV.mk 1 "b", KV.mk 2 "c"]
      [KV.mk 1 "g", KV.mk 1 "h", KV.mk 3 "i"] 4 (by decide) (by decide)⟩

/-! ### `AggregateByKey` -/

theorem foldlM_pure_run {α σ : Type} (g : σ → α → σ) (xs : List α) :
    ∀ s : σ, xs.foldlM (fun s x => (pure (g s x) : Run σ)) s = Except.ok (xs.foldl g s) := by
  induction xs with
  | nil => intro s; rfl
  | cons x xs ih => intro s; simp only [List.foldlM_cons, List.foldl_cons]; exact ih _

theorem find_isNone_iff {K T : Type} [DecidableEq K] (m : UnorderedMap K T) (k : K) :
    (m.find k).isNone = true ↔ k ∉ m.entries.map Prod.fst := by
  unfold UnorderedMap.find
  induction m.entries with
  | nil => simp
  | cons e es ih =>
    by_cases he : e.1 = k
    · simp [List.find?_cons, he]
    · have hne : ¬ k = e.1 := fun h => he h.symm
      simp only [List.find?_cons, he, decide_False, List.map_cons, List.mem_cons, hne,
        false_or]
      exact ih

theorem subscriptEntries_append {K T : Type} [DecidableEq K] [Inhabited T] (k : K)
    (g : T → T) (es rest : List (K × T)) (hk : k ∉ es.map Prod.fst) :
    UnorderedMap.subscriptEntries k g (es ++ rest)
      = es ++ UnorderedMap.subscriptEntries k g rest := by
  induction es with
  | nil => rfl
  | cons e es ih =>
    simp only [List.map_cons, List.mem_cons, not_or] at hk
    have he : ¬ e.1 = k := fun h => hk.1 h.symm
    show UnorderedMap.subscriptEntries k g (e :: (es ++ rest)) = e :: (es ++ _)
    simp only [UnorderedMap.subscriptEntries, he, if_false, ih hk.2]

theorem subscriptEntries_of_mem {K T : Type} [DecidableEq K] [Inhabited T] (k : K)
    (g : T → T) (es : List (K × T)) (hnd : (es.map Prod.fst).Nodup)
    (hk : k ∈ es.map Prod.fst) :
    UnorderedMap.subscriptEntries k g es
      = es.map fun e => if e.1 = k then (e.1, g e.2) else e := by
  induction es with
  | nil => simp at hk
  | cons e es ih =>
    rw [List.map_cons, List.nodup_cons] at hnd
    by_cases he : e.1 = k
    · have hrest : ∀ e1 ∈ es, ¬ e1.1 = k := by
        intro e1 h1 h2
        apply hnd.1
        rw [he, ← h2]
        exact List.mem_map_of_mem Prod.fst h1
      have hmap : (es.map fun e => if e.1 = k then (e.1, g e.2) else e) = es := by
        conv_rhs => rw [← List.map_id es]
        apply List.map_congr_left
        intro e1 h1
        simp [hrest e1 h1]
      simp only [UnorderedMap.subscriptEntries, he, if_true, List.map_cons, hmap]
    · have hk1 : k ∈ es.map Prod.fst := by
        rw [List.map_cons, List.mem_cons] at hk
        rcases hk with h | h
        · exact absurd h.symm he
        · exact h
      simp only [UnorderedMap.subscriptEntries, he, if_false, List.map_cons, ih hnd.2 hk1]

theorem aggregate_step_absent {Item K V : Type} [DecidableEq K] [Inhabited V]
    (self : AggregateByKey Item K V) (es : List (K × (V × Nat))) (n : Nat) (item : Item)
    (hk : self.key_func_ item ∉ es.map Prod.fst) :
    self.step (⟨es⟩, n) item
      = (⟨es ++ [(self.key_func_ item, (self.predicate_ item self.init_value_, n))]⟩,
          n + 1) := by
  have hnone : ((⟨es⟩ : UnorderedMap K (V × Nat)).find (self.key_func_ item)).isNone = true :=
    (find_isNone_iff _ _).mpr hk
  have h : ∀ (g : V × Nat → V × Nat) (rest : List (K × (V × Nat))),
      UnorderedMap.subscriptEntries (self.key_func_ item) g (es ++ rest)
        = es ++ UnorderedMap.subscriptEntries (self.key_func_ item) g rest :=
    fun g rest => subscriptEntries_append (self.key_func_ item) g es rest hk
  have h0 : ∀ g : V × Nat → V × Nat, UnorderedMap.subscriptEntries (self.key_func_ item) g es
      = es ++ [(self.key_func_ item, g default)] := by
    intro g
    simpa [UnorderedMap.subscriptEntries] using h g []
  have h1 : ∀ (g : V × Nat → V × Nat) (t : V × Nat),
      UnorderedMap.subscriptEntries (self.key_func_ item) g (es ++ [(self.key_func_ item, t)])
      = es ++ [(self.key_func_ item, g t)] := by
    intro g t
    rw [h]
    simp [UnorderedMap.subscriptEntries]
  simp only [AggregateByKey.step, hnone, if_true, UnorderedMap.subscript, h0, h1]

theorem aggregate_step_present {Item K V : Type} [DecidableEq K] [Inhabited V]
    (self : AggregateByKey Item K V) (es : List (K × (V × Nat))) (n : Nat) (item : Item)
    (hnd : (es.map Prod.fst).Nodup) (hk : self.key_func_ item ∈ es.map Prod.fst) :
    self.step (⟨es⟩, n) item
      = (⟨es.map fun e => if e.1 = self.key_func_ item
            then (e.1, (self.predicate_ item e.2.1, e.2.2)) else e⟩, n) := by
  have hsome : ((⟨es⟩ : UnorderedMap K (V × Nat)).find (self.key_func_ item)).isNone = false := by
    rw [Bool.eq_false_iff, Ne, find_isNone_iff]
    exact fun h => h hk
  simp only [AggregateByKey.step, hsome, Bool.false_eq_true, if_false, UnorderedMap.subscript,
    subscriptEntries_of_mem _ _ es hnd hk]

theorem aggInv_nil {Item K V : Type} [DecidableEq K] (self : AggregateByKey Item K V) :
    AggInv self [] ((⟨[]⟩ : UnorderedMap K (V × Nat)), 0) :=
  ⟨rfl, rfl, List.nodup_nil, by simp, List.Pairwise.nil, by simp⟩

theorem aggInv_step_absent {Item K V : Type} [DecidableEq K]
    (self : AggregateByKey Item K V) (pre : List Item) (es : List (K × (V × Nat))) (n : Nat)
    (x : Item) (h : AggInv self pre (⟨es⟩, n)) (hk : self.key_func_ x ∉ es.map Prod.fst) :
    AggInv self (pre ++ [x])
      (⟨es ++ [(self.key_func_ x, (self.predicate_ x self.init_value_, n))]⟩, n + 1) := by
  obtain ⟨h1, h2, h3, h4, h5, h6⟩ := h
  simp only at h1 h2 h3 h4 h5 h6
  have hkpre : self.key_func_ x ∉ pre.map self.key_func_ := fun hmem => hk ((h4 _).mpr hmem)
  refine ⟨?_, ?_, ?_, ?_, ?_, ?_⟩
  · simp [h1]
  · simp only [List.map_append, h2, List.map_cons, List.map_nil, List.length_append,
      List.length_singleton, List.range_succ, h1]
  · simp only [List.map_append, List.map_cons, List.map_nil]
    exact List.Nodup.append h3 (List.nodup_singleton _) (by simpa using hk)
  · intro k
    simp only [List.map_append, List.map_cons, List.map_nil, List.mem_append, h4 k]
  · simp only [List.map_append, List.map_cons, List.map_nil]
    rw [List.pairwise_append]
    refine ⟨?_, List.pairwise_singleton _ _, ?_⟩
    · refine List.Pairwise.imp_of_mem ?_ h5
      intro a b ha hb hab
      rw [List.indexOf_append_of_mem ((h4 a).mp ha), List.indexOf_append_of_mem ((h4 b).mp hb)]
      exact hab
    · intro a ha b hb
      rw [List.mem_singleton] at hb
      subst hb
      rw [List.indexOf_append_of_mem ((h4 a).mp ha), List.indexOf_append_of_not_mem hkpre]
      have := List.indexOf_lt_length.mpr ((h4 a).mp ha)
      omega
  · intro e he
    simp only [List.mem_append, List.mem_singleton] at he
    rcases he with he | he
    · have hne : ¬ self.key_func_ x = e.1 := by
        intro heq
        apply hk
        rw [heq]
        exact List.mem_map_of_mem Prod.fst he
      rw [h6 e he]
      simp [List.filter_append, List.filter_cons, hne]
    · subst he
      have hnil : (pre.filter fun y => self.key_func_ y = self.key_func_ x) = [] := by
        rw [List.filter_eq_nil_iff]
        intro y hy hyk
        apply hkpre
        rw [← of_decide_eq_true hyk]
        exact List.mem_map_of_mem _ hy
      simp [List.filter_append, hnil]

theorem aggInv_step_present {Item K V : Type} [DecidableEq K]
    (self : AggregateByKey Item K V) (pre : List Item) (es : List (K × (V × Nat))) (n : Nat)
    (x : Item) (h : AggInv self pre (⟨es⟩, n)) (hk : self.key_func_ x ∈ es.map Prod.fst) :
    AggInv self (pre ++ [x])
      (⟨es.map fun e => if e.1 = self.key_func_ x
          then (e.1, (self.predicate_ x e.2.1, e.2.2)) else e⟩, n) := by
  obtain ⟨h1, h2, h3, h4, h5, h6⟩ := h
  simp only at h1 h2 h3 h4 h5 h6
  have hkpre : self.key_func_ x ∈ pre.map self.key_func_ := (h4 _).mp hk
  have hfst : (es.map fun e => if e.1 = self.key_func_ x
      then (e.1, (self.predicate_ x e.2.1, e.2.2)) else e).map Prod.fst = es.map Prod.fst := by
    rw [List.map_map]
    apply List.map_congr_left
    intro e _
    by_cases he : e.1 = self.key_func_ x <;> simp [he]
  have hidx : (es.map fun e => if e.1 = self.key_func_ x
      then (e.1, (self.predicate_ x e.2.1, e.2.2)) else e).map (fun e => e.2.2)
      = es.map fun e => e.2.2 := by
    rw [List.map_map]
    apply List.map_congr_left
    intro e _
    by_cases he : e.1 = self.key_func_ x <;> simp [he]
  refine ⟨?_, ?_, ?_, ?_, ?_, ?_⟩
  · simp [h1]
  · simp only [hidx, h2, List.length_map]
  · simp only [hfst]; exact h3
  · intro k
    simp only [hfst, h4 k, List.map_append, List.map_cons, List.map_nil, List.mem_append,
      List.mem_singleton]
    constructor
    · exact Or.inl
    · rintro (hl | hr)
      · exact hl
      · rw [hr]; exact hkpre
  · simp only [hfst, List.map_append, List.map_cons, List.map_nil]
    refine List.Pairwise.imp_of_mem ?_ h5
    intro a b ha hb hab
    rw [List.indexOf_append_of_mem ((h4 a).mp ha), List.indexOf_append_of_mem ((h4 b).mp hb)]
    exact hab
  · intro e1 he1
    obtain ⟨e, he, rfl⟩ := List.mem_map.mp he1
    by_cases hek : e.1 = self.key_func_ x
    · have h6e := h6 e he
      rw [hek] at h6e
      simp only [hek, if_true]
      rw [List.filter_append, List.foldl_append, ← h6e]
      simp
    · have hne : ¬ self.key_func_ x = e.1 := fun hh => hek hh.symm
      simp [hek, List.filter_append, List.filter_cons, hne, ← h6 e he]

theorem aggInv_foldl {Item K V : Type} [DecidableEq K] [Inhabited V]
    (self : AggregateByKey Item K V) (xs : List Item) :
    AggInv self xs (xs.foldl self.step ((⟨[]⟩ : UnorderedMap K (V × Nat)), 0)) := by
  induction xs using List.reverseRecOn with
  | nil => exact aggInv_nil self
  | append_singleton pre x ih =>
    rw [List.foldl_append, List.foldl_cons, List.foldl_nil]
    generalize pre.foldl self.step ((⟨[]⟩ : UnorderedMap K (V × Nat)), 0) = st at ih
    obtain ⟨⟨es⟩, n⟩ := st
    have hnd : (es.map Prod.fst).Nodup := by
      obtain ⟨_, _, h3, _, _, _⟩ := ih
      exact h3
    by_cases hk : self.key_func_ x ∈ es.map Prod.fst
    · rw [aggregate_step_present self es n x hnd hk]
      exact aggInv_step_present self pre es n x ih hk
    · rw [aggregate_step_absent self es n x hk]
      exact aggInv_step_absent self pre es n x ih hk

/-! The second loop of `AggregateByKey::operator()`. -/

theorem setFold_length {K V : Type} (ps : List (K × (V × Nat))) :
    ∀ init : List (K × V),
      (ps.foldl (fun nf item => nf.set item.2.2 (item.1, item.2.1)) init).length
        = init.length := by
  induction ps with
  | nil => intro init; rfl
  | cons p ps ih => intro init; rw [List.foldl_cons, ih, List.length_set]

theorem setFold_run {K V : Type} (ps : List (K × (V × Nat))) :
    ∀ init : List (K × V), (∀ p ∈ ps, p.2.2 < init.length) →
      ps.foldlM (fun (new_flow_ : List (K × V)) item =>
          if item.2.2 < new_flow_.length then
            (pure (new_flow_.set item.2.2 (item.1, item.2.1)) : Run _)
          else throw Fault.pastEnd) init
        = Except.ok (ps.foldl (fun nf item => nf.set item.2.2 (item.1, item.2.1)) init) := by
  induction ps with
  | nil => intro init _; rfl
  | cons p ps ih =>
    intro init h
    have hp : p.2.2 < init.length := h p (List.mem_cons_self _ _)
    rw [List.foldlM_cons, List.foldl_cons]
    simp only [hp, if_true, run_pure, run_ok_bind]
    have := ih (init.set p.2.2 (p.1, p.2.1)) (by
      intro q hq
      rw [List.length_set]
      exact h q (List.mem_cons_of_mem _ hq))
    simpa using this

theorem setFold_get_other {K V : Type} (i : Nat) (ps : List (K × (V × Nat))) :
    ∀ init : List (K × V), (∀ p ∈ ps, p.2.2 ≠ i) →
      (ps.foldl (fun nf item => nf.set item.2.2 (item.1, item.2.1)) init)[i]? = init[i]? := by
  induction ps with
  | nil => intro init _; rfl
  | cons p ps ih =>
    intro init h
    rw [List.foldl_cons, ih _ (fun q hq => h q (List.mem_cons_of_mem _ hq)),
      List.getElem?_set_ne (h p (List.mem_cons_self _ _))]

theorem setFold_get {K V : Type} (i : Nat) (v : K × V) (ps : List (K × (V × Nat))) :
    ∀ init : List (K × V), (∀ p ∈ ps, p.2.2 = i → (p.1, p.2.1) = v) →
      (∃ p ∈ ps, p.2.2 = i) → i < init.length →
      (ps.foldl (fun nf item => nf.set item.2.2 (item.1, item.2.1)) init)[i]? = some v := by
  induction ps with
  | nil => intro init _ h; simp at h
  | cons p ps ih =>
    intro init hv hex hi
    rw [List.foldl_cons]
    by_cases hlater : ∃ q ∈ ps, q.2.2 = i
    · exact ih _ (fun q hq => hv q (List.mem_cons_of_mem _ hq)) hlater
        (by rw [List.length_set]; exact hi)
    · have hp : p.2.2 = i := by
        obtain ⟨q, hq, hqi⟩ := hex
        rcases List.mem_cons.mp hq with h | h
        · rw [← h]; exact hqi
        · exact absurd ⟨q, h, hqi⟩ hlater
      rw [setFold_get_other i ps _ (fun q hq hqi => hlater ⟨q, hq, hqi⟩), hp,
        List.getElem?_set_self hi, ← hv p (List.mem_cons_self _ _) hp]

theorem setFold_perm {K V : Type} (es ps : List (K × (V × Nat))) (init : List (K × V))
    (hperm : ps.Perm es) (hidx : es.map (fun e => e.2.2) = List.range es.length)
    (hinit : init.length = es.length) :
    ps.foldl (fun nf item => nf.set item.2.2 (item.1, item.2.1)) init
      = es.map fun e => (e.1, e.2.1) := by
  have hget : ∀ (j : Nat) (hj : j < es.length), (es.get ⟨j, hj⟩).2.2 = j := by
    intro j hj
    have h1 : (es.map fun e => e.2.2)[j]? = (List.range es.length)[j]? := by rw [hidx]
    rw [List.getElem?_map, List.getElem?_range hj, List.getElem?_eq_getElem hj] at h1
    simpa using h1
  apply List.ext_getElem?
  intro i
  by_cases hi : i < es.length
  · rw [List.getElem?_map, List.getElem?_eq_getElem hi]
    apply setFold_get i _ ps init
    · intro p hp hpi
      obtain ⟨j, hj, hje⟩ := List.mem_iff_getElem.mp (hperm.mem_iff.mp hp)
      have hji : j = i := by
        have := hget j hj
        rw [List.get_eq_getElem, hje] at this
        omega
      subst hji
      rw [← hje]
    · refine ⟨es.get ⟨i, hi⟩, hperm.mem_iff.mpr (List.get_mem _ _ _), hget i hi⟩
    · omega
  · have h1 : es.length ≤ i := by omega
    rw [List.getElem?_eq_none (by rw [setFold_length]; omega),
      List.getElem?_eq_none (by rw [List.length_map]; exact h1)]

theorem aggregate_call_eq {Item K V : Type} [DecidableEq K] [Inhabited K] [Inhabited V]
    (self : AggregateByKey Item K V) (xs : List Item)
    (order : List (K × (V × Nat)) → List (K × (V × Nat)))
    (horder : ∀ es, (order es).Perm es) (F : Nat) (hF : xs.length < F) :
    AggregateByKey.call F order self (AsDataFlow.mk xs)
      = Except.ok ((xs.foldl self.step ((⟨[]⟩ : UnorderedMap K (V × Nat)), 0)).1.entries.map
          fun e => (e.1, e.2.1)) := by
  have hinv := aggInv_foldl self xs
  unfold AggregateByKey.call
  rw [rangeFor_of_yields (asDataFlow_yields F xs) hF, foldlM_pure_run]
  simp only [run_ok_bind]
  generalize xs.foldl self.step ((⟨[]⟩ : UnorderedMap K (V × Nat)), 0) = st at hinv
  obtain ⟨⟨es⟩, n⟩ := st
  have hidx : es.map (fun e => e.2.2) = List.range es.length := by
    obtain ⟨_, h2, _, _, _, _⟩ := hinv
    exact h2
  have hbound : ∀ p ∈ order es, p.2.2 < (List.replicate es.length
      ((default, default) : K × V)).length := by
    intro p hp
    have hmem : p.2.2 ∈ es.map fun e => e.2.2 :=
      List.mem_map_of_mem (fun e : K × (V × Nat) => e.2.2) ((horder es).mem_iff.mp hp)
    rw [hidx, List.mem_range] at hmem
    simpa using hmem
  show (order es).foldlM _ (List.replicate es.length (default, default)) = _
  rw [setFold_run (order es) _ hbound,
    setFold_perm es (order es) _ (horder es) hidx (by simp)]

theorem aggregate_call_spec {Item K V : Type} [DecidableEq K] [Inhabited K] [Inhabited V]
    (self : AggregateByKey Item K V) (xs : List Item) (F : Nat) (hF : xs.length < F) :
    ∃ out : List (K × V),
      (∀ order : List (K × (V × Nat)) → List (K × (V × Nat)), (∀ es, (order es).Perm es) →
        AggregateByKey.call F order self (AsDataFlow.mk xs) = Except.ok out) ∧
      (out.map Prod.fst).Nodup ∧
      (∀ k, k ∈ out.map Prod.fst ↔ k ∈ xs.map self.key_func_) ∧
      ((out.map Prod.fst).Pairwise fun a b =>
        (xs.map self.key_func_).indexOf a < (xs.map self.key_func_).indexOf b) ∧
      (∀ k v, (k, v) ∈ out → v = (xs.filter fun x => self.key_func_ x = k).foldl
        (fun acc x => self.predicate_ x acc) self.init_value_) := by
  refine ⟨_, fun order horder => aggregate_call_eq self xs order horder F hF, ?_⟩
  obtain ⟨_, _, h3, h4, h5, h6⟩ := aggInv_foldl self xs
  generalize xs.foldl self.step ((⟨[]⟩ : UnorderedMap K (V × Nat)), 0) = st at h3 h4 h5 h6
  have hfst : (st.1.entries.map fun e => (e.1, e.2.1)).map Prod.fst
      = st.1.entries.map Prod.fst := by
    rw [List.map_map]; rfl
  rw [hfst]
  refine ⟨h3, h4, h5, ?_⟩
  intro k v hkv
  obtain ⟨e, he, heq⟩ := List.mem_map.mp hkv
  have h1 : e.1 = k := congrArg Prod.fst heq
  have h2 : e.2.1 = v := congrArg Prod.snd heq
  rw [← h1, ← h2]
  exact h6 e he

/-- C8: the keys of the pairs `AggregateByKey` returns are pairwise distinct, are exactly the
keys occurring in the input, and are listed in the order of their first occurrences in the
input, whatever the order in which the hash table lists its entries; an empty input gives an
empty output. -/
theorem C8_aggregate_keys_first_seen {Item K V : Type} [DecidableEq K] [Inhabited K]
    [Inhabited V] (xs : List Item) (init : V) (f : Item → V → V) (key : Item → K) (F : Nat)
    (hF : xs.length < F) :
    ∃ out : List (K × V),
      (∀ order : List (K × (V × Nat)) → List (K × (V × Nat)), (∀ es, (order es).Perm es) →
        AggregateByKey.call F order ⟨key, f, init⟩ (AsDataFlow.mk xs) = Except.ok out) ∧
      (out.map Prod.fst).Nodup ∧
      (∀ k, k ∈ out.map Prod.fst ↔ k ∈ xs.map key) ∧
      ((out.map Prod.fst).Pairwise fun a b =>
        (xs.map key).indexOf a < (xs.map key).indexOf b) ∧
      (xs = [] → out = []) := by
  obtain ⟨out, h1, h2, h3, h4, _⟩ := aggregate_call_spec ⟨key, f, init⟩ xs F hF
  refine ⟨out, h1, h2, h3, h4, ?_⟩
  intro hxs
  subst hxs
  have hnil : out.map Prod.fst = [] := by
    apply List.eq_nil_iff_forall_not_mem.mpr
    intro k hk
    simpa using (h3 k).mp hk
  exact List.map_eq_nil_iff.mp hnil

theorem C8_aggregate_keys_first_seen_witness :
    ["x", "y", "x"].length < 4 ∧
    ∃ out : List (String × Nat),
      AggregateByKey.call 4 List.reverse ⟨id, fun _ c => c + 1, 0⟩
        (AsDataFlow.mk ["x", "y", "x"]) = Except.ok out ∧
      (out.map Prod.fst).Nodup ∧
      (∀ k, k ∈ out.map Prod.fst ↔ k ∈ ["x", "y", "x"].map id) ∧
      ((out.map Prod.fst).Pairwise fun a b =>
        (["x", "y", "x"].map id).indexOf a < (["x", "y", "x"].map id).indexOf b) := by
  obtain ⟨out, h1, h2, h3, h4, _⟩ :=
    C8_aggregate_keys_first_seen ["x", "y", "x"] 0 (fun _ c => c + 1) id 4 (by decide)
  exact ⟨by decide, out, h1 List.reverse List.reverse_perm, h2, h3, h4⟩

theorem foldl_incr_mod (M : Nat) {α : Type} (l : List α) :
    ∀ a : Nat, a < M → l.foldl (fun acc _ => (acc + 1) % M) a = (a + l.length) % M := by
  induction l with
  | nil => intro a ha; simp [Nat.mod_eq_of_lt ha]
  | cons x l ih =>
    intro a ha
    have hM : 0 < M := by omega
    rw [List.foldl_cons, ih _ (Nat.mod_lt _ hM), List.length_cons, Nat.mod_add_mod]
    congr 1
    omega

/-- C9: the value `AggregateByKey` pairs with a key `k` is the result of starting from the
initial value and applying the accumulation function, in input order, to exactly the items
whose key is `k`; with initial value 0 and an incrementing accumulation (on `size_t`) every key
is paired with its number of occurrences, and the counts sum to the input length. -/
theorem C9_aggregate_values {Item K V : Type} [DecidableEq K] [Inhabited K] [Inhabited V]
    (xs : List Item) (init : V) (f : Item → V → V) (key : Item → K)
    (order : List (K × (V × Nat)) → List (K × (V × Nat)))
    (orderN : List (K × (Nat × Nat)) → List (K × (Nat × Nat)))
    (horder : ∀ es, (order es).Perm es) (horderN : ∀ es, (orderN es).Perm es)
    (F : Nat) (hF : xs.length < F) (hsize : xs.length < 2 ^ 64) :
    (∃ out : List (K × V),
      AggregateByKey.call F order ⟨key, f, init⟩ (AsDataFlow.mk xs) = Except.ok out ∧
      ∀ k v, (k, v) ∈ out →
        v = (xs.filter fun x => key x = k).foldl (fun acc x => f x acc) init) ∧
    (∃ cnt : List (K × Nat),
      AggregateByKey.call F orderN ⟨key, fun _ c => (c + 1) % 2 ^ 64, 0⟩ (AsDataFlow.mk xs)
        = Except.ok cnt ∧
      (∀ k c, (k, c) ∈ cnt → c = xs.countP fun x => key x = k) ∧
      (cnt.map Prod.snd).sum = xs.length) := by
  constructor
  · obtain ⟨out, h1, _, _, _, h5⟩ := aggregate_call_spec ⟨key, f, init⟩ xs F hF
    exact ⟨out, h1 order horder, h5⟩
  · obtain ⟨cnt, h1, h2, h3, _, h5⟩ :=
      aggregate_call_spec ⟨key, fun _ c => (c + 1) % 2 ^ 64, 0⟩ xs F hF
    have hcount : ∀ k c, (k, c) ∈ cnt → c = xs.countP fun x => key x = k := by
      intro k c hkc
      have h5k := h5 k c hkc
      simp only at h5k
      rw [h5k]
      rw [foldl_incr_mod (2 ^ 64) _ 0 (by norm_num), List.countP_eq_length_filter, Nat.zero_add]
      apply Nat.mod_eq_of_lt
      have := List.length_filter_le (fun x => decide (key x = k)) xs
      omega
    refine ⟨cnt, h1 orderN horderN, hcount, ?_⟩
    have hsnd : cnt.map Prod.snd = (cnt.map Prod.fst).map fun k => (xs.map key).count k := by
      rw [List.map_map]
      apply List.map_congr_left
      intro p hp
      rw [hcount p.1 p.2 hp, Function.comp_apply, List.count, List.countP_map]
      congr 1
    have hperm : (cnt.map Prod.fst).Perm (xs.map key).dedup := by
      rw [List.perm_ext_iff_of_nodup h2 (List.nodup_dedup _)]
      intro k
      rw [h3 k, List.mem_dedup]
    rw [hsnd, (hperm.map _).sum_eq, List.sum_map_count_dedup_eq_length, List.length_map]

theorem C9_aggregate_values_witness :
    (["x", "y", "x"].length < 4 ∧ ["x", "y", "x"].length < 2 ^ 64) ∧
    (∃ out : List (String × List String),
      AggregateByKey.call 4 List.reverse ⟨id, fun item acc => acc ++ [item], []⟩
        (AsDataFlow.mk ["x", "y", "x"]) = Except.ok out ∧
      ∀ k v, (k, v) ∈ out →
        v = (["x", "y", "x"].filter fun x => id x = k).foldl (fun acc x => acc ++ [x]) []) ∧
    (∃ cnt : List (String × Nat),
      AggregateByKey.call 4 id ⟨id, fun _ c => (c + 1) % 2 ^ 64, 0⟩
        (AsDataFlow.mk ["x", "y", "x"]) = Except.ok cnt ∧
      (∀ k c, (k, c) ∈ cnt → c = ["x", "y", "x"].countP fun x => id x = k) ∧
      (cnt.map Prod.snd).sum = ["x", "y", "x"].length) :=
  ⟨⟨by decide, by decide⟩,
    C9_aggregate_values ["x", "y", "x"] [] (fun item acc => acc ++ [item]) id List.reverse id
      List.reverse_perm (fun es => List.Perm.refl es) 4 (by decide) (by decide)⟩

/-- C10 (evaluation at the failing inputs): over the one-item upstream `[error "e"]` collecting
the success view does not return the empty list but dereferences the end of the upstream, and
over the one-item upstream `[ok 1]` collecting the error view does the same, for every
iteration budget. -/
theorem C10_views_fault_without_own_items (F : Nat) :
    (SplitExpected.call F ⟨⟩ (AsDataFlow.mk [(Except.error "e" : Except String Nat)])
      >>= fun views => AsVector.call F views.2)
      = Except.error (if F = 0 then Fault.outOfFuel else Fault.pastEnd) ∧
    (SplitExpected.call F ⟨⟩ (AsDataFlow.mk [(Except.ok 1 : Except String Nat)])
      >>= fun views => AsVector.call F views.1)
      = Except.error (if F = 0 then Fault.outOfFuel else Fault.pastEnd) := by
  cases F with
  | zero => exact ⟨rfl, rfl⟩
  | succ n => exact ⟨rfl, rfl⟩

/-! ### `SplitExpected` over a vector

The views start at `begin()` of the upstream without skipping; the first `operator*` does the
skipping.  After any `operator++` a view is a stable cursor. -/

theorem valuesOf_append {E T : Type} (xs ys : List (Except E T)) :
    valuesOf (xs ++ ys) = valuesOf xs ++ valuesOf ys := by
  induction xs with
  | nil => rfl
  | cons x xs ih => cases x <;> simp [valuesOf, ih]

theorem errorsOf_append {E T : Type} (xs ys : List (Except E T)) :
    errorsOf (xs ++ ys) = errorsOf xs ++ errorsOf ys := by
  induction xs with
  | nil => rfl
  | cons x xs ih => cases x <;> simp [errorsOf, ih]

theorem valuesOf_eq_nil {E T : Type} (xs : List (Except E T))
    (h : ∀ x ∈ xs, has_value x = false) : valuesOf xs = [] := by
  induction xs with
  | nil => rfl
  | cons x xs ih =>
    cases x with
    | ok v => simpa [has_value] using h (Except.ok v) (List.mem_cons_self _ _)
    | error err => simpa [valuesOf] using ih fun y hy => h y (List.mem_cons_of_mem _ hy)

theorem errorsOf_eq_nil {E T : Type} (xs : List (Except E T))
    (h : ∀ x ∈ xs, has_value x = true) : errorsOf xs = [] := by
  induction xs with
  | nil => rfl
  | cons x xs ih =>
    cases x with
    | error err => simpa [has_value] using h (Except.error err) (List.mem_cons_self _ _)
    | ok v => simpa [errorsOf] using ih fun y hy => h y (List.mem_cons_of_mem _ hy)

theorem vec_deref {α : Type} (F : Nat) (xs : List α) (i : Nat) (x : α)
    (h : xs[i]? = some x) :
    Iter.deref F (⟨xs, i⟩ : VecIter α) = Except.ok (x, ⟨xs, i⟩) := by
  have hget : xs.get? i = some x := by rw [List.get?_eq_getElem?]; exact h
  simp only [Iter.deref, hget]; rfl

theorem vec_deref_end {α : Type} (F : Nat) (xs : List α) (i : Nat) (h : xs.length ≤ i) :
    Iter.deref F (⟨xs, i⟩ : VecIter α) = Except.error Fault.pastEnd := by
  have hget : xs.get? i = none := by
    rw [List.get?_eq_getElem?]; exact List.getElem?_eq_none h
  simp only [Iter.deref, hget]; rfl

theorem vec_incr {α : Type} (F : Nat) (xs : List α) (i : Nat) (h : i < xs.length) :
    Iter.incr F (⟨xs, i⟩ : VecIter α) = Except.ok ⟨xs, i + 1⟩ := by
  simp only [Iter.incr, h, if_true]; rfl

theorem vec_ne {α : Type} (xs : List α) (i j : Nat) :
    Iter.ne (⟨xs, i⟩ : VecIter α) ⟨xs, j⟩ = (i != j) := rfl

theorem rangeLoop_first_deref {I α σ : Type} [Iter I α] (F : Nat) (body : σ → α → Run σ)
    (b it1 e : I) (v : α) (hb : Iter.ne b e = true) (h1 : Iter.ne it1 e = true)
    (hdb : Iter.deref F b = Except.ok (v, it1)) (hd1 : Iter.deref F it1 = Except.ok (v, it1))
    (n : Nat) (s : σ) : rangeLoop F body n b e s = rangeLoop F body n it1 e s := by
  cases n with
  | zero => rfl
  | succ n => simp only [rangeLoop, hb, h1, if_true, hdb, hd1]

theorem leading_errors {E T : Type} (l : List (Except E T)) :
    ∃ k : Nat, k ≤ l.length ∧ (∀ j, j < k → ∃ err, l[j]? = some (Except.error err)) ∧
      (k = l.length ∨ ∃ v, l[k]? = some (Except.ok v)) ∧ valuesOf l = valuesOf (l.drop k) := by
  induction l with
  | nil => exact ⟨0, by simp, by simp, Or.inl rfl, rfl⟩
  | cons x l ih =>
    cases x with
    | ok v => exact ⟨0, by simp, by simp, Or.inr ⟨v, by simp⟩, rfl⟩
    | error err =>
      obtain ⟨k, h1, h2, h3, h4⟩ := ih
      refine ⟨k + 1, by simpa using h1, ?_, ?_, ?_⟩
      · intro j hj
        cases j with
        | zero => exact ⟨err, by simp⟩
        | succ j => simpa using h2 j (by omega)
      · rcases h3 with h | ⟨v, h⟩
        · exact Or.inl (by simp [h])
        · exact Or.inr ⟨v, by simpa using h⟩
      · simpa [valuesOf] using h4

theorem expected_apdateLoop_vec {E T : Type} (F : Nat) (xs : List (Except E T)) :
    ∀ (k i n : Nat), (∀ j, i ≤ j → j < i + k → ∃ err, xs[j]? = some (Except.error err)) →
      (i + k = xs.length ∨ ∃ v, xs[i + k]? = some (Except.ok v)) → i < xs.length → k < n →
      SplitExpected.ExpectedIterator.apdateLoop F n
          ⟨(⟨xs, i⟩ : VecIter (Except E T)), ⟨xs, xs.length⟩⟩
        = Except.ok ⟨⟨xs, i + k⟩, ⟨xs, xs.length⟩⟩ := by
  intro k
  induction k with
  | zero =>
    intro i n _ hend hi hn
    obtain ⟨n, rfl⟩ : ∃ m, n = m + 1 := ⟨n - 1, by omega⟩
    rcases hend with h | ⟨v, h⟩
    · omega
    · simp only [SplitExpected.ExpectedIterator.apdateLoop, vec_deref F xs i _ h, run_ok_bind,
        has_value]
      simp
  | succ k ih =>
    intro i n herr hend hi hn
    obtain ⟨n, rfl⟩ : ∃ m, n = m + 1 := ⟨n - 1, by omega⟩
    obtain ⟨err, hx⟩ := herr i (Nat.le_refl _) (by omega)
    have hbound : i + (k + 1) ≤ xs.length := by
      rcases hend with h | ⟨v, h⟩
      · omega
      · have := (List.getElem?_eq_some.mp h).1
        omega
    simp only [SplitExpected.ExpectedIterator.apdateLoop, vec_deref F xs i _ hx, run_ok_bind,
      has_value, Bool.not_false, if_true, vec_incr F xs i hi, vec_ne]
    by_cases hlast : i + 1 = xs.length
    · have hk : k = 0 := by omega
      subst hk
      simp [hlast]
    · have hne1 : (i + 1 != xs.length) = true := by simpa using hlast
      simp only [hne1, Bool.not_true, Bool.false_eq_true, if_false]
      have ih1 := ih (i + 1) n (fun j h1 h2 => herr j (by omega) (by omega))
        (by rw [Nat.add_assoc, Nat.add_comm 1 k]; exact hend) (by omega) (by omega)
      rw [ih1, Nat.add_assoc, Nat.add_comm 1 k]

theorem expected_apdate_vec {E T : Type} (F : Nat) (xs : List (Except E T)) (k i : Nat)
    (herr : ∀ j, i + 1 ≤ j → j < i + 1 + k → ∃ err, xs[j]? = some (Except.error err))
    (hend : i + 1 + k = xs.length ∨ ∃ v, xs[i + 1 + k]? = some (Except.ok v))
    (hi : i < xs.length) (hF : k < F) :
    SplitExpected.ExpectedIterator.apdate F
        ⟨(⟨xs, i⟩ : VecIter (Except E T)), ⟨xs, xs.length⟩⟩
      = Except.ok ⟨⟨xs, i + 1 + k⟩, ⟨xs, xs.length⟩⟩ := by
  simp only [SplitExpected.ExpectedIterator.apdate, vec_incr F xs i hi, run_ok_bind, vec_ne]
  have hbound : i + 1 + k ≤ xs.length := by
    rcases hend with h | ⟨v, h⟩
    · omega
    · have := (List.getElem?_eq_some.mp h).1
      omega
  by_cases hlast : i + 1 = xs.length
  · have hk : k = 0 := by omega
    subst hk
    simp [hlast]
  · have hne1 : (i + 1 != xs.length) = true := by simpa using hlast
    simp only [hne1, Bool.not_true, Bool.false_eq_true, if_false]
    exact expected_apdateLoop_vec F xs k (i + 1) F herr hend (by omega) hF

/-- From a position that is the end or holds a success, the success view over a vector is a
stable cursor over the remaining success values. -/
theorem expectedIterator_lists {E T : Type} (F : Nat) (xs : List (Except E T))
    (hF : xs.length < F) :
    ∀ (m i : Nat), xs.length - i ≤ m →
      (i = xs.length ∨ ∃ v, xs[i]? = some (Except.ok v)) →
      Lists F (⟨⟨xs, xs.length⟩, ⟨xs, xs.length⟩⟩ : SplitExpected.ExpectedIterator (VecIter _))
        ⟨⟨xs, i⟩, ⟨xs, xs.length⟩⟩ (valuesOf (xs.drop i)) := by
  intro m
  induction m with
  | zero =>
    intro i hm hpos
    have hi : i = xs.length := by
      rcases hpos with h | ⟨v, h⟩
      · exact h
      · have := (List.getElem?_eq_some.mp h).1
        omega
    subst hi
    rw [List.drop_length]
    exact Lists.nil (by simp [Iter.ne])
  | succ m ih =>
    intro i hm hpos
    rcases hpos with hi | ⟨v, hv⟩
    · subst hi
      rw [List.drop_length]
      exact Lists.nil (by simp [Iter.ne])
    · have hi : i < xs.length := (List.getElem?_eq_some.mp hv).1
      obtain ⟨k, hk1, hk2, hk3, hk4⟩ := leading_errors (xs.drop (i + 1))
      have hklen : i + 1 + k ≤ xs.length := by
        rw [List.length_drop] at hk1
        omega
      have herr : ∀ j, i + 1 ≤ j → j < i + 1 + k →
          ∃ err, xs[j]? = some (Except.error err) := by
        intro j h1 h2
        obtain ⟨err, h⟩ := hk2 (j - (i + 1)) (by omega)
        rw [List.getElem?_drop] at h
        exact ⟨err, by rw [← h]; congr 1; omega⟩
      have hend : i + 1 + k = xs.length ∨ ∃ v, xs[i + 1 + k]? = some (Except.ok v) := by
        rcases hk3 with h | ⟨w, h⟩
        · left
          rw [List.length_drop] at h
          omega
        · right
          rw [List.getElem?_drop] at h
          exact ⟨w, h⟩
      have hdrop : valuesOf (xs.drop i) = v :: valuesOf (xs.drop (i + 1 + k)) := by
        rw [List.drop_eq_getElem_cons hi]
        have hxi : xs[i] = Except.ok v := by
          have := List.getElem?_eq_getElem hi
          rw [hv] at this
          exact (Option.some.inj this).symm
        rw [hxi]
        simp only [valuesOf]
        rw [hk4, List.drop_drop]
      rw [hdrop]
      refine Lists.cons ?_ ?_ ?_ (ih (i + 1 + k) (by omega) hend)
      · show Iter.ne (⟨xs, i⟩ : VecIter _) ⟨xs, xs.length⟩ = true
        rw [vec_ne]
        simpa using Nat.ne_of_lt hi
      · show (Iter.deref F (⟨xs, i⟩ : VecIter _) >>= fun r => _) = _
        rw [vec_deref F xs i _ hv]
        simp only [run_ok_bind, has_value, Bool.not_true, Bool.false_eq_true, if_false, run_pure,
          vec_deref F xs i _ hv]
      · exact expected_apdate_vec F xs k i herr hend hi (by omega)

theorem valuesOf_length_le {E T : Type} (xs : List (Except E T)) :
    (valuesOf xs).length ≤ xs.length := by
  induction xs with
  | nil => simp [valuesOf]
  | cons x xs ih => cases x <;> simp [valuesOf] <;> omega

theorem splitExpected_call_vec {E T : Type} (F : Nat) (xs : List (Except E T)) :
    SplitExpected.call F ⟨⟩ (AsDataFlow.mk xs)
      = Except.ok (⟨⟨xs, 0⟩, ⟨xs, xs.length⟩⟩, ⟨⟨xs, 0⟩, ⟨xs, xs.length⟩⟩) := rfl

/-- The success view of a vector that is empty or holds a success collects to the success
values, in order. -/
theorem expectedView_collect {E T : Type} (F : Nat) (xs : List (Except E T))
    (hF : xs.length < F) (h : xs = [] ∨ valuesOf xs ≠ []) :
    (SplitExpected.call F ⟨⟩ (AsDataFlow.mk xs) >>= fun views => AsVector.call F views.2)
      = Except.ok (valuesOf xs) := by
  rw [splitExpected_call_vec, run_ok_bind]
  show rangeLoop F _ F (⟨⟨xs, 0⟩, ⟨xs, xs.length⟩⟩ : SplitExpected.ExpectedIterator (VecIter _))
    ⟨⟨xs, xs.length⟩, ⟨xs, xs.length⟩⟩ [] = _
  have hlenv := valuesOf_length_le xs
  obtain ⟨k0, hk1, hk2, hk3, hk4⟩ := leading_errors xs
  cases k0 with
  | zero =>
    have hl := expectedIterator_lists F xs hF xs.length 0 (by omega)
      (by rcases hk3 with h0 | h0
          · exact Or.inl h0
          · exact Or.inr h0)
    rw [List.drop_zero] at hl
    rw [rangeLoop_of_lists _ hl F [] (by omega), foldlM_push]
    simp
  | succ k =>
    obtain ⟨e0, he0⟩ := hk2 0 (by omega)
    have hpos : 0 < xs.length := by omega
    have hv : ∃ v, xs[k + 1]? = some (Except.ok v) := by
      rcases hk3 with h0 | h0
      · exfalso
        rw [h0, List.drop_length] at hk4
        rcases h with h1 | h1
        · rw [h1] at hpos; simp at hpos
        · exact h1 hk4
      · exact h0
    obtain ⟨v, hv⟩ := hv
    have hlt : k + 1 < xs.length := (List.getElem?_eq_some.mp hv).1
    have hl := expectedIterator_lists F xs hF xs.length (k + 1) (by omega) (Or.inr ⟨v, hv⟩)
    rw [← hk4] at hl
    have hap := expected_apdate_vec F xs k 0
      (fun j h1 h2 => hk2 j (by omega))
      (Or.inr ⟨v, by rw [Nat.zero_add, Nat.add_comm 1 k]; exact hv⟩) hpos (by omega)
    rw [Nat.zero_add, Nat.add_comm 1 k] at hap
    have hdb : Iter.deref F
        (⟨⟨xs, 0⟩, ⟨xs, xs.length⟩⟩ : SplitExpected.ExpectedIterator (VecIter _))
        = Except.ok (v, ⟨⟨xs, k + 1⟩, ⟨xs, xs.length⟩⟩) := by
      show (Iter.deref F (⟨xs, 0⟩ : VecIter _) >>= fun r => _) = _
      rw [vec_deref F xs 0 _ he0]
      simp only [run_ok_bind, has_value, Bool.not_false, if_true, hap,
        vec_deref F xs (k + 1) _ hv, run_pure]
    have hd1 : Iter.deref F
        (⟨⟨xs, k + 1⟩, ⟨xs, xs.length⟩⟩ : SplitExpected.ExpectedIterator (VecIter _))
        = Except.ok (v, ⟨⟨xs, k + 1⟩, ⟨xs, xs.length⟩⟩) := by
      show (Iter.deref F (⟨xs, k + 1⟩ : VecIter _) >>= fun r => _) = _
      rw [vec_deref F xs (k + 1) _ hv]
      simp only [run_ok_bind, has_value, Bool.not_true, Bool.false_eq_true, if_false, run_pure,
        vec_deref F xs (k + 1) _ hv]
    rw [rangeLoop_first_deref F _ _ ⟨⟨xs, k + 1⟩, ⟨xs, xs.length⟩⟩ _ v
      (by show Iter.ne (⟨xs, 0⟩ : VecIter _) ⟨xs, xs.length⟩ = true
          rw [vec_ne]; simpa using Nat.ne_of_lt hpos)
      (by show Iter.ne (⟨xs, k + 1⟩ : VecIter _) ⟨xs, xs.length⟩ = true
          rw [vec_ne]; simpa using Nat.ne_of_lt hlt)
      hdb hd1 F [], rangeLoop_of_lists _ hl F [] (by omega), foldlM_push]
    simp

/-- The success view of a non-empty vector without a success dereferences the end of the
vector when it is collected. -/
theorem expectedView_fault {E T : Type} (F : Nat) (xs : List (Except E T))
    (hF : xs.length < F) (hne : xs ≠ []) (hnone : valuesOf xs = []) :
    (SplitExpected.call F ⟨⟩ (AsDataFlow.mk xs) >>= fun views => AsVector.call F views.2)
      = Except.error Fault.pastEnd := by
  rw [splitExpected_call_vec, run_ok_bind]
  show rangeLoop F _ F (⟨⟨xs, 0⟩, ⟨xs, xs.length⟩⟩ : SplitExpected.ExpectedIterator (VecIter _))
    ⟨⟨xs, xs.length⟩, ⟨xs, xs.length⟩⟩ [] = _
  have hpos : 0 < xs.length := List.length_pos.mpr hne
  obtain ⟨k0, hk1, hk2, hk3, hk4⟩ := leading_errors xs
  have hall : k0 = xs.length := by
    rcases hk3 with h0 | ⟨v, h0⟩
    · exact h0
    · exfalso
      have hlt : k0 < xs.length := (List.getElem?_eq_some.mp h0).1
      have hx : xs[k0] = Except.ok v := by
        have := List.getElem?_eq_getElem hlt
        rw [h0] at this
        exact (Option.some.inj this).symm
      rw [hnone, List.drop_eq_getElem_cons hlt, hx] at hk4
      simp [valuesOf] at hk4
  subst hall
  obtain ⟨e0, he0⟩ := hk2 0 hpos
  have hap := expected_apdate_vec F xs (xs.length - 1) 0
    (fun j h1 h2 => hk2 j (by omega)) (Or.inl (by omega)) hpos (by omega)
  have hlen : 0 + 1 + (xs.length - 1) = xs.length := by omega
  rw [hlen] at hap
  have hdb : Iter.deref F
      (⟨⟨xs, 0⟩, ⟨xs, xs.length⟩⟩ : SplitExpected.ExpectedIterator (VecIter _))
      = Except.error Fault.pastEnd := by
    show (Iter.deref F (⟨xs, 0⟩ : VecIter _) >>= fun r => _) = _
    rw [vec_deref F xs 0 _ he0]
    simp only [run_ok_bind, has_value, Bool.not_false, if_true, hap,
      vec_deref_end F xs xs.length (Nat.le_refl _), run_error_bind]
  obtain ⟨n, rfl⟩ : ∃ m, F = m + 1 := ⟨F - 1, by omega⟩
  have hb : Iter.ne (⟨⟨xs, 0⟩, ⟨xs, xs.length⟩⟩ : SplitExpected.ExpectedIterator (VecIter _))
      ⟨⟨xs, xs.length⟩, ⟨xs, xs.length⟩⟩ = true := by
    show Iter.ne (⟨xs, 0⟩ : VecIter _) ⟨xs, xs.length⟩ = true
    rw [vec_ne]; simpa using Nat.ne_of_lt hpos
  simp only [rangeLoop, hb, if_true, hdb, run_error_bind]

theorem errorsOf_length_le {E T : Type} (xs : List (Except E T)) :
    (errorsOf xs).length ≤ xs.length := by
  induction xs with
  | nil => simp [errorsOf]
  | cons x xs ih => cases x <;> simp [errorsOf] <;> omega

theorem leading_successes {E T : Type} (l : List (Except E T)) :
    ∃ k : Nat, k ≤ l.length ∧ (∀ j, j < k → ∃ v0, l[j]? = some (Except.ok v0)) ∧
      (k = l.length ∨ ∃ err0, l[k]? = some (Except.error err0)) ∧
      errorsOf l = errorsOf (l.drop k) := by
  induction l with
  | nil => exact ⟨0, by simp, by simp, Or.inl rfl, rfl⟩
  | cons x l ih =>
    cases x with
    | error err0 => exact ⟨0, by simp, by simp, Or.inr ⟨err0, by simp⟩, rfl⟩
    | ok v0 =>
      obtain ⟨k, h1, h2, h3, h4⟩ := ih
      refine ⟨k + 1, by simpa using h1, ?_, ?_, ?_⟩
      · intro j hj
        cases j with
        | zero => exact ⟨v0, by simp⟩
        | succ j => simpa using h2 j (by omega)
      · rcases h3 with h | ⟨err0, h⟩
        · exact Or.inl (by simp [h])
        · exact Or.inr ⟨err0, by simpa using h⟩
      · simpa [errorsOf] using h4

theorem unexpected_apdateLoop_vec {E T : Type} (F : Nat) (xs : List (Except E T)) :
    ∀ (k i n : Nat), (∀ j, i ≤ j → j < i + k → ∃ v0, xs[j]? = some (Except.ok v0)) →
      (i + k = xs.length ∨ ∃ err0, xs[i + k]? = some (Except.error err0)) → i < xs.length →
      k < n →
      SplitExpected.UnexpectedIterator.apdateLoop F n
          ⟨(⟨xs, i⟩ : VecIter (Except E T)), ⟨xs, xs.length⟩⟩
        = Except.ok ⟨⟨xs, i + k⟩, ⟨xs, xs.length⟩⟩ := by
  intro k
  induction k with
  | zero =>
    intro i n _ hend hi hn
    obtain ⟨n, rfl⟩ : ∃ m, n = m + 1 := ⟨n - 1, by omega⟩
    rcases hend with h | ⟨err0, h⟩
    · omega
    · simp only [SplitExpected.UnexpectedIterator.apdateLoop, vec_deref F xs i _ h, run_ok_bind,
        has_value]
      simp
  | succ k ih =>
    intro i n herr hend hi hn
    obtain ⟨n, rfl⟩ : ∃ m, n = m + 1 := ⟨n - 1, by omega⟩
    obtain ⟨v0, hx⟩ := herr i (Nat.le_refl _) (by omega)
    have hbound : i + (k + 1) ≤ xs.length := by
      rcases hend with h | ⟨err0, h⟩
      · omega
      · have := (List.getElem?_eq_some.mp h).1
        omega
    simp only [SplitExpected.UnexpectedIterator.apdateLoop, vec_deref F xs i _ hx, run_ok_bind,
      has_value, Bool.not_false, if_true, vec_incr F xs i hi, vec_ne]
    by_cases hlast : i + 1 = xs.length
    · have hk : k = 0 := by omega
      subst hk
      simp [hlast]
    · have hne1 : (i + 1 != xs.length) = true := by simpa using hlast
      simp only [hne1, Bool.not_true, Bool.false_eq_true, if_false]
      have ih1 := ih (i + 1) n (fun j h1 h2 => herr j (by omega) (by omega))
        (by rw [Nat.add_assoc, Nat.add_comm 1 k]; exact hend) (by omega) (by omega)
      rw [ih1, Nat.add_assoc, Nat.add_comm 1 k]

theorem unexpected_apdate_vec {E T : Type} (F : Nat) (xs : List (Except E T)) (k i : Nat)
    (herr : ∀ j, i + 1 ≤ j → j < i + 1 + k → ∃ v0, xs[j]? = some (Except.ok v0))
    (hend : i + 1 + k = xs.length ∨ ∃ err0, xs[i + 1 + k]? = some (Except.error err0))
    (hi : i < xs.length) (hF : k < F) :
    SplitExpected.UnexpectedIterator.apdate F
        ⟨(⟨xs, i⟩ : VecIter (Except E T)), ⟨xs, xs.length⟩⟩
      = Except.ok ⟨⟨xs, i + 1 + k⟩, ⟨xs, xs.length⟩⟩ := by
  simp only [SplitExpected.UnexpectedIterator.apdate, vec_incr F xs i hi, run_ok_bind, vec_ne]
  have hbound : i + 1 + k ≤ xs.length := by
    rcases hend with h | ⟨err0, h⟩
    · omega
    · have := (List.getElem?_eq_some.mp h).1
      omega
  by_cases hlast : i + 1 = xs.length
  · have hk : k = 0 := by omega
    subst hk
    simp [hlast]
  · have hne1 : (i + 1 != xs.length) = true := by simpa using hlast
    simp only [hne1, Bool.not_true, Bool.false_eq_true, if_false]
    exact unexpected_apdateLoop_vec F xs k (i + 1) F herr hend (by omega) hF

/-- From a position that is the end or holds an error, the error view over a vector is a
stable cursor over the remaining error values. -/
theorem unexpectedIterator_lists {E T : Type} (F : Nat) (xs : List (Except E T))
    (hF : xs.length < F) :
    ∀ (m i : Nat), xs.length - i ≤ m →
      (i = xs.length ∨ ∃ err0, xs[i]? = some (Except.error err0)) →
      Lists F (⟨⟨xs, xs.length⟩, ⟨xs, xs.length⟩⟩ : SplitExpected.UnexpectedIterator (VecIter _))
        ⟨⟨xs, i⟩, ⟨xs, xs.length⟩⟩ (errorsOf (xs.drop i)) := by
  intro m
  induction m with
  | zero =>
    intro i hm hpos
    have hi : i = xs.length := by
      rcases hpos with h | ⟨err0, h⟩
      · exact h
      · have := (List.getElem?_eq_some.mp h).1
        omega
    subst hi
    rw [List.drop_length]
    exact Lists.nil (by simp [Iter.ne])
  | succ m ih =>
    intro i hm hpos
    rcases hpos with hi | ⟨err0, hv⟩
    · subst hi
      rw [List.drop_length]
      exact Lists.nil (by simp [Iter.ne])
    · have hi : i < xs.length := (List.getElem?_eq_some.mp hv).1
      obtain ⟨k, hk1, hk2, hk3, hk4⟩ := leading_successes (xs.drop (i + 1))
      have hklen : i + 1 + k ≤ xs.length := by
        rw [List.length_drop] at hk1
        omega
      have herr : ∀ j, i + 1 ≤ j → j < i + 1 + k →
          ∃ v0, xs[j]? = some (Except.ok v0) := by
        intro j h1 h2
        obtain ⟨v0, h⟩ := hk2 (j - (i + 1)) (by omega)
        rw [List.getElem?_drop] at h
        exact ⟨v0, by rw [← h]; congr 1; omega⟩
      have hend : i + 1 + k = xs.length ∨ ∃ err0, xs[i + 1 + k]? = some (Except.error err0) := by
        rcases hk3 with h | ⟨w, h⟩
        · left
          rw [List.length_drop] at h
          omega
        · right
          rw [List.getElem?_drop] at h
          exact ⟨w, h⟩
      have hdrop : errorsOf (xs.drop i) = err0 :: errorsOf (xs.drop (i + 1 + k)) := by
        rw [List.drop_eq_getElem_cons hi]
        have hxi : xs[i] = Except.error err0 := by
          have := List.getElem?_eq_getElem hi
          rw [hv] at this
          exact (Option.some.inj this).symm
        rw [hxi]
        simp only [errorsOf]
        rw [hk4, List.drop_drop]
      rw [hdrop]
      refine Lists.cons ?_ ?_ ?_ (ih (i + 1 + k) (by omega) hend)
      · show Iter.ne (⟨xs, i⟩ : VecIter _) ⟨xs, xs.length⟩ = true
        rw [vec_ne]
        simpa using Nat.ne_of_lt hi
      · show (Iter.deref F (⟨xs, i⟩ : VecIter _) >>= fun r => _) = _
        rw [vec_deref F xs i _ hv]
        simp only [run_ok_bind, has_value, Bool.not_true, Bool.false_eq_true, if_false, run_pure,
          vec_deref F xs i _ hv]
      · exact unexpected_apdate_vec F xs k i herr hend hi (by omega)


/-- The error view of a vector that is empty or holds an error collects to the success
values, in order. -/
theorem unexpectedView_collect {E T : Type} (F : Nat) (xs : List (Except E T))
    (hF : xs.length < F) (h : xs = [] ∨ errorsOf xs ≠ []) :
    (SplitExpected.call F ⟨⟩ (AsDataFlow.mk xs) >>= fun views => AsVector.call F views.1)
      = Except.ok (errorsOf xs) := by
  rw [splitExpected_call_vec, run_ok_bind]
  show rangeLoop F _ F (⟨⟨xs, 0⟩, ⟨xs, xs.length⟩⟩ : SplitExpected.UnexpectedIterator (VecIter _))
    ⟨⟨xs, xs.length⟩, ⟨xs, xs.length⟩⟩ [] = _
  have hlenv := errorsOf_length_le xs
  obtain ⟨k0, hk1, hk2, hk3, hk4⟩ := leading_successes xs
  cases k0 with
  | zero =>
    have hl := unexpectedIterator_lists F xs hF xs.length 0 (by omega)
      (by rcases hk3 with h0 | h0
          · exact Or.inl h0
          · exact Or.inr h0)
    rw [List.drop_zero] at hl
    rw [rangeLoop_of_lists _ hl F [] (by omega), foldlM_push]
    simp
  | succ k =>
    obtain ⟨e0, he0⟩ := hk2 0 (by omega)
    have hpos : 0 < xs.length := by omega
    have hv : ∃ err0, xs[k + 1]? = some (Except.error err0) := by
      rcases hk3 with h0 | h0
      · exfalso
        rw [h0, List.drop_length] at hk4
        rcases h with h1 | h1
        · rw [h1] at hpos; simp at hpos
        · exact h1 hk4
      · exact h0
    obtain ⟨err0, hv⟩ := hv
    have hlt : k + 1 < xs.length := (List.getElem?_eq_some.mp hv).1
    have hl := unexpectedIterator_lists F xs hF xs.length (k + 1) (by omega) (Or.inr ⟨err0, hv⟩)
    rw [← hk4] at hl
    have hap := unexpected_apdate_vec F xs k 0
      (fun j h1 h2 => hk2 j (by omega))
      (Or.inr ⟨err0, by rw [Nat.zero_add, Nat.add_comm 1 k]; exact hv⟩) hpos (by omega)
    rw [Nat.zero_add, Nat.add_comm 1 k] at hap
    have hdb : Iter.deref F
        (⟨⟨xs, 0⟩, ⟨xs, xs.length⟩⟩ : SplitExpected.UnexpectedIterator (VecIter _))
        = Except.ok (err0, ⟨⟨xs, k + 1⟩, ⟨xs, xs.length⟩⟩) := by
      show (Iter.deref F (⟨xs, 0⟩ : VecIter _) >>= fun r => _) = _
      rw [vec_deref F xs 0 _ he0]
      simp only [run_ok_bind, has_value, Bool.not_false, if_true, hap,
        vec_deref F xs (k + 1) _ hv, run_pure]
    have hd1 : Iter.deref F
        (⟨⟨xs, k + 1⟩, ⟨xs, xs.length⟩⟩ : SplitExpected.UnexpectedIterator (VecIter _))
        = Except.ok (err0, ⟨⟨xs, k + 1⟩, ⟨xs, xs.length⟩⟩) := by
      show (Iter.deref F (⟨xs, k + 1⟩ : VecIter _) >>= fun r => _) = _
      rw [vec_deref F xs (k + 1) _ hv]
      simp only [run_ok_bind, has_value, Bool.not_true, Bool.false_eq_true, if_false, run_pure,
        vec_deref F xs (k + 1) _ hv]
    rw [rangeLoop_first_deref F _ _ ⟨⟨xs, k + 1⟩, ⟨xs, xs.length⟩⟩ _ err0
      (by show Iter.ne (⟨xs, 0⟩ : VecIter _) ⟨xs, xs.length⟩ = true
          rw [vec_ne]; simpa using Nat.ne_of_lt hpos)
      (by show Iter.ne (⟨xs, k + 1⟩ : VecIter _) ⟨xs, xs.length⟩ = true
          rw [vec_ne]; simpa using Nat.ne_of_lt hlt)
      hdb hd1 F [], rangeLoop_of_lists _ hl F [] (by omega), foldlM_push]
    simp

/-- The error view of a non-empty vector without an error dereferences the end of the
vector when it is collected. -/
theorem unexpectedView_fault {E T : Type} (F : Nat) (xs : List (Except E T))
    (hF : xs.length < F) (hne : xs ≠ []) (hnone : errorsOf xs = []) :
    (SplitExpected.call F ⟨⟩ (AsDataFlow.mk xs) >>= fun views => AsVector.call F views.1)
      = Except.error Fault.pastEnd := by
  rw [splitExpected_call_vec, run_ok_bind]
  show rangeLoop F _ F (⟨⟨xs, 0⟩, ⟨xs, xs.length⟩⟩ : SplitExpected.UnexpectedIterator (VecIter _))
    ⟨⟨xs, xs.length⟩, ⟨xs, xs.length⟩⟩ [] = _
  have hpos : 0 < xs.length := List.length_pos.mpr hne
  obtain ⟨k0, hk1, hk2, hk3, hk4⟩ := leading_successes xs
  have hall : k0 = xs.length := by
    rcases hk3 with h0 | ⟨err0, h0⟩
    · exact h0
    · exfalso
      have hlt : k0 < xs.length := (List.getElem?_eq_some.mp h0).1
      have hx : xs[k0] = Except.error err0 := by
        have := List.getElem?_eq_getElem hlt
        rw [h0] at this
        exact (Option.some.inj this).symm
      rw [hnone, List.drop_eq_getElem_cons hlt, hx] at hk4
      simp [errorsOf] at hk4
  subst hall
  obtain ⟨e0, he0⟩ := hk2 0 hpos
  have hap := unexpected_apdate_vec F xs (xs.length - 1) 0
    (fun j h1 h2 => hk2 j (by omega)) (Or.inl (by omega)) hpos (by omega)
  have hlen : 0 + 1 + (xs.length - 1) = xs.length := by omega
  rw [hlen] at hap
  have hdb : Iter.deref F
      (⟨⟨xs, 0⟩, ⟨xs, xs.length⟩⟩ : SplitExpected.UnexpectedIterator (VecIter _))
      = Except.error Fault.pastEnd := by
    show (Iter.deref F (⟨xs, 0⟩ : VecIter _) >>= fun r => _) = _
    rw [vec_deref F xs 0 _ he0]
    simp only [run_ok_bind, has_value, Bool.not_false, if_true, hap,
      vec_deref_end F xs xs.length (Nat.le_refl _), run_error_bind]
  obtain ⟨n, rfl⟩ : ∃ m, F = m + 1 := ⟨F - 1, by omega⟩
  have hb : Iter.ne (⟨⟨xs, 0⟩, ⟨xs, xs.length⟩⟩ : SplitExpected.UnexpectedIterator (VecIter _))
      ⟨⟨xs, xs.length⟩, ⟨xs, xs.length⟩⟩ = true := by
    show Iter.ne (⟨xs, 0⟩ : VecIter _) ⟨xs, xs.length⟩ = true
    rw [vec_ne]; simpa using Nat.ne_of_lt hpos
  simp only [rangeLoop, hb, if_true, hdb, run_error_bind]

/-! ### Claims on `SplitExpected`, `Transform | DropNullopt`, `Write`, `AsVector` -/

theorem map_ok_valuesOf {E T : Type} (xs : List (Except E T)) :
    (valuesOf xs).map Except.ok = xs.filter has_value := by
  induction xs with
  | nil => rfl
  | cons x xs ih => cases x <;> simp [valuesOf, has_value, ih]

theorem map_error_errorsOf {E T : Type} (xs : List (Except E T)) :
    (errorsOf xs).map Except.error = xs.filter fun x => !has_value x := by
  induction xs with
  | nil => rfl
  | cons x xs ih => cases x <;> simp [errorsOf, has_value, ih]

theorem valuesOf_ne_nil {E T : Type} (xs : List (Except E T)) (v : T)
    (h : Except.ok v ∈ xs) : valuesOf xs ≠ [] := by
  induction xs with
  | nil => simp at h
  | cons x xs ih =>
    cases x with
    | ok w => simp [valuesOf]
    | error err =>
      have h1 : Except.ok v ∈ xs := by simpa using h
      simpa [valuesOf] using ih h1

theorem errorsOf_ne_nil {E T : Type} (xs : List (Except E T)) (err : E)
    (h : Except.error err ∈ xs) : errorsOf xs ≠ [] := by
  induction xs with
  | nil => simp at h
  | cons x xs ih =>
    cases x with
    | error w => simp [errorsOf]
    | ok v =>
      have h1 : Except.error err ∈ xs := by simpa using h
      simpa [errorsOf] using ih h1

theorem foldlM_write {α : Type} (text : α → List Char) (d : Char) (xs : List α) :
    ∀ os : List Char,
      xs.foldlM (fun (os : List Char) item => (pure (os ++ text item ++ [d]) : Run _)) os
        = Except.ok (os ++ xs.flatMap fun x => text x ++ [d]) := by
  induction xs with
  | nil => intro os; simp
  | cons x xs ih =>
    intro os
    rw [List.foldlM_cons, run_pure, run_ok_bind, ih]
    simp [List.flatMap_cons]

theorem write_call_of_yields {D I α : Type} [DataFlow D I] [Iter I α] {F : Nat} {d : D}
    {xs : List α} (h : Yields F d xs) (hF : xs.length < F) (text : α → List Char)
    (self : Write) (os_ : List Char) :
    Write.call F text self os_ d
      = Except.ok (os_ ++ xs.flatMap fun x => text x ++ [self.delimiter_], d) := by
  unfold Write.call
  rw [rangeFor_of_yields h hF, foldlM_write]
  rfl

/-- C18: `Write` leaves the sink holding its initial contents followed by, for each upstream
item in order, the item's text and then the delimiter (also after the last item), and nothing
else; an empty upstream leaves the sink unchanged. -/
theorem C18_write_sink {α : Type} (xs : List α) (text : α → List Char) (d : Char)
    (sink : List Char) (F : Nat) (hF : xs.length < F) :
    (Write.call F text ⟨d⟩ sink (AsDataFlow.mk xs)).map Prod.fst
      = Except.ok (sink ++ xs.flatMap fun x => text x ++ [d]) ∧
    (Write.call F text ⟨d⟩ sink (AsDataFlow.mk ([] : List α))).map Prod.fst
      = Except.ok sink := by
  constructor
  · rw [write_call_of_yields (asDataFlow_yields F xs) hF]
    rfl
  · rw [write_call_of_yields (asDataFlow_yields F ([] : List α)) (by simp; omega)]
    simp [Except.map]

theorem C18_write_sink_witness :
    ["Negative number", "Invalid integer"].length < 3 ∧
    (Write.call 3 String.toList ⟨'.'⟩ "log:".toList
        (AsDataFlow.mk ["Negative number", "Invalid integer"])).map Prod.fst
      = Except.ok ("log:".toList ++
          ["Negative number", "Invalid integer"].flatMap fun x => String.toList x ++ ['.']) ∧
    (Write.call 3 String.toList ⟨'.'⟩ "log:".toList
        (AsDataFlow.mk ([] : List String))).map Prod.fst = Except.ok "log:".toList :=
  ⟨by decide,
    C18_write_sink ["Negative number", "Invalid integer"] String.toList '.' "log:".toList 3
      (by decide)⟩

/-- C19 (as stated, refuted): the flow `Write` returns for the one-item vector `[1]` does not
collect to the empty vector. -/
theorem C19_write_handle_not_exhausted :
    (Write.call 2 (fun n : Nat => (toString n).toList) ⟨' '⟩ [] (AsDataFlow.mk [1])
      >>= fun r => AsVector.call 2 r.2) ≠ Except.ok [] := by
  decide

/-- C19 (amended): for an upstream `AsDataFlow(xs)` that views a container `xs`, `Write` returns
that view, and collecting the returned flow gives every item of `xs` again, in order. -/
theorem C19_write_returns_upstream {α : Type} (xs : List α) (text : α → List Char) (d : Char)
    (sink : List Char) (F : Nat) (hF : xs.length < F) :
    (Write.call F text ⟨d⟩ sink (AsDataFlow.mk xs)).map Prod.snd
      = Except.ok (AsDataFlow.mk xs) ∧
    (Write.call F text ⟨d⟩ sink (AsDataFlow.mk xs) >>= fun r => AsVector.call F r.2)
      = Except.ok xs := by
  rw [write_call_of_yields (asDataFlow_yields F xs) hF]
  exact ⟨rfl, asVector_of_yields (asDataFlow_yields F xs) hF⟩

theorem C19_write_returns_upstream_witness :
    [1, 2].length < 3 ∧
    (Write.call 3 (fun n : Nat => (toString n).toList) ⟨' '⟩ [] (AsDataFlow.mk [1, 2])).map
        Prod.snd = Except.ok (AsDataFlow.mk [1, 2]) ∧
    (Write.call 3 (fun n : Nat => (toString n).toList) ⟨' '⟩ [] (AsDataFlow.mk [1, 2])
      >>= fun r => AsVector.call 3 r.2) = Except.ok [1, 2] :=
  ⟨by decide,
    C19_write_returns_upstream [1, 2] (fun n : Nat => (toString n).toList) ' ' [] 3
      (by decide)⟩

/-- C20: `AsDataFlow(xs) | AsVector()` returns a vector equal to `xs` (every item, same length,
same order), and the viewed container is still `xs`. -/
theorem C20_asDataFlow_asVector {α : Type} (xs : List α) (F : Nat) (hF : xs.length < F) :
    ∃ out : List α, AsVector.call F (AsDataFlow.mk xs) = Except.ok out ∧ out = xs ∧
      out.length = xs.length ∧ (∀ i : Nat, out[i]? = xs[i]?) ∧
      (AsDataFlow.mk xs).container_ = xs :=
  ⟨xs, asVector_of_yields (asDataFlow_yields F xs) hF, rfl, rfl, fun _ => rfl, rfl⟩

theorem C20_asDataFlow_asVector_witness :
    ["a", "b", "a"].length < 4 ∧
    ∃ out : List String, AsVector.call 4 (AsDataFlow.mk ["a", "b", "a"]) = Except.ok out ∧
      out = ["a", "b", "a"] ∧ out.length = ["a", "b", "a"].length ∧
      (∀ i : Nat, out[i]? = ["a", "b", "a"][i]?) ∧
      (AsDataFlow.mk ["a", "b", "a"]).container_ = ["a", "b", "a"] :=
  ⟨by decide, C20_asDataFlow_asVector ["a", "b", "a"] 4 (by decide)⟩

/-! ### `Split` over a vector of streams -/

theorem streamsAt_zero (v : List (List Char)) :
    ∀ i : Nat, streamsAt v i 0 = v.map StringStream.ofString := by
  induction v with
  | nil => intro i; rfl
  | cons s v ih =>
    intro i
    cases i with
    | zero => rfl
    | succ i => simp [streamsAt, ih, StringStream.ofString]

theorem streamsAt_length (v : List (List Char)) :
    ∀ i p : Nat, (streamsAt v i p).length = v.length := by
  induction v with
  | nil => intro i p; rfl
  | cons s v ih =>
    intro i p
    cases i with
    | zero => simp [streamsAt]
    | succ i => simp [streamsAt, ih]

theorem streamsAt_get (v : List (List Char)) :
    ∀ (i p : Nat) (s : List Char) (later : List (List Char)), v.drop i = s :: later →
      (streamsAt v i p).get? i = some ⟨s, p⟩ := by
  induction v with
  | nil => intro i p s later h; simp at h
  | cons s0 v ih =>
    intro i p s later h
    cases i with
    | zero =>
      simp only [List.drop_zero, List.cons.injEq] at h
      simp [streamsAt, h.1]
    | succ i =>
      simp only [List.drop_succ_cons] at h
      simpa [streamsAt] using ih i p s later h

theorem streamsAt_set (v : List (List Char)) :
    ∀ (i p q : Nat) (s : List Char) (later : List (List Char)), v.drop i = s :: later →
      (streamsAt v i p).set i ⟨s, q⟩ = streamsAt v i q := by
  induction v with
  | nil => intro i p q s later h; simp at h
  | cons s0 v ih =>
    intro i p q s later h
    cases i with
    | zero =>
      simp only [List.drop_zero, List.cons.injEq] at h
      simp [streamsAt, h.1]
    | succ i =>
      simp only [List.drop_succ_cons] at h
      simp [streamsAt, ih i p q s later h]

theorem drop_eq_cons_lt {α : Type} (v : List α) (i : Nat) (s : α) (later : List α)
    (h : v.drop i = s :: later) : i < v.length := by
  by_contra hlt
  rw [List.drop_eq_nil_of_le (by omega)] at h
  simp at h

theorem drop_succ_of_drop_eq_cons {α : Type} (v : List α) (i : Nat) (s : α) (later : List α)
    (h : v.drop i = s :: later) : v.drop (i + 1) = later := by
  have : v.drop (i + 1) = (v.drop i).drop 1 := by rw [List.drop_drop]
  rw [this, h]
  rfl

theorem drop_cons_get {α : Type} (s : List α) (p : Nat) (c : α) (rest : List α)
    (h : s.drop p = c :: rest) : s.get? p = some c ∧ s.drop (p + 1) = rest ∧ p < s.length := by
  have hlt := drop_eq_cons_lt s p c rest h
  refine ⟨?_, drop_succ_of_drop_eq_cons s p c rest h, hlt⟩
  rw [List.drop_eq_getElem_cons hlt] at h
  rw [List.get?_eq_getElem?, List.getElem?_eq_getElem hlt]
  exact congrArg some (List.cons.inj h).1

theorem atEof_streamsAt (v : List (List Char)) (i p : Nat) (s : List Char)
    (later : List (List Char)) (hdrop : v.drop i = s :: later) :
    istreambuf_atEof (streamsAt v i p) (some i) = decide (s.length ≤ p) := by
  simp only [istreambuf_atEof, streamsAt_get v i p s later hdrop]

theorem deref_streamsAt (v : List (List Char)) (i p : Nat) (s : List Char)
    (later : List (List Char)) (hdrop : v.drop i = s :: later) :
    istreambuf_deref (streamsAt v i p) (some i) = s.get? p := by
  simp only [istreambuf_deref, streamsAt_get v i p s later hdrop]

theorem incr_streamsAt (v : List (List Char)) (i p : Nat) (s : List Char)
    (later : List (List Char)) (hdrop : v.drop i = s :: later) :
    istreambuf_incr (streamsAt v i p) (some i) = streamsAt v i (p + 1) := by
  simp only [istreambuf_incr, streamsAt_get v i p s later hdrop,
    streamsAt_set v i p (p + 1) s later hdrop]

theorem splitLoop_spec (seps : List Char) (v : List (List Char)) (e : VecIter StringStream)
    (syms : List Char) (hsyms : ∀ c, syms.contains c = isSplitSymbol seps c) (i : Nat)
    (s : List Char) (later : List (List Char)) (hdrop : v.drop i = s :: later) (fl : Bool) :
    ∀ (rest : List Char) (p n : Nat) (w : List Char), s.drop p = rest → rest.length < n →
      ∃ (f : List Char) (fs : List (List Char)),
        rest.splitOnP (isSplitSymbol seps) = f :: fs ∧
        Split.Iterator.splitLoop n (splitState v e syms i p w (some i) fl)
          = Except.ok (splitState v e syms i (p + f.length + (if fs = [] then 0 else 1))
              (w ++ f) (some i) fl, !fs.isEmpty) ∧
        (fs ≠ [] → fs = (s.drop (p + f.length + 1)).splitOnP (isSplitSymbol seps)) := by
  intro rest
  induction rest with
  | nil =>
    intro p n w hrest hn
    obtain ⟨n, rfl⟩ : ∃ m, n = m + 1 := ⟨n - 1, by simp at hn; omega⟩
    have hlen : s.length ≤ p := List.drop_eq_nil_iff.mp hrest
    refine ⟨[], [], List.splitOnP_nil _, ?_, fun h => absurd rfl h⟩
    simp only [Split.Iterator.splitLoop, splitState, istreambuf_ne,
      atEof_streamsAt v i p s later hdrop, decide_eq_true hlen]
    simp [istreambuf_atEof]
  | cons c rest ih =>
    intro p n w hrest hn
    obtain ⟨n, rfl⟩ : ∃ m, n = m + 1 := ⟨n - 1, by simp at hn; omega⟩
    obtain ⟨hc, hrest1, hlt⟩ := drop_cons_get s p c rest hrest
    have hnlen : ¬ s.length ≤ p := by omega
    have hne : istreambuf_ne (streamsAt v i p) (some i) none = true := by
      simp only [istreambuf_ne, atEof_streamsAt v i p s later hdrop, decide_eq_false hnlen]
      rfl
    have hstep : Split.Iterator.splitLoop (n + 1) (splitState v e syms i p w (some i) fl)
        = if !isSplitSymbol seps c then
            Split.Iterator.splitLoop n (splitState v e syms i (p + 1) (w ++ [c]) (some i) fl)
          else Except.ok (splitState v e syms i (p + 1) w (some i) fl, true) := by
      simp only [Split.Iterator.splitLoop, splitState, hne, if_true,
        deref_streamsAt v i p s later hdrop, hc, incr_streamsAt v i p s later hdrop, hsyms,
        run_pure]
    rw [hstep]
    by_cases hsep : isSplitSymbol seps c = true
    · have hnil := List.splitOnP_ne_nil (isSplitSymbol seps) rest
      refine ⟨[], rest.splitOnP (isSplitSymbol seps), ?_, ?_, ?_⟩
      · rw [List.splitOnP_cons, if_pos hsep]
      · have hemp : (rest.splitOnP (isSplitSymbol seps)).isEmpty = false := by
          cases hsp : rest.splitOnP (isSplitSymbol seps) with
          | nil => exact absurd hsp hnil
          | cons _ _ => rfl
        simp [hsep, hnil, hemp]
      · intro _
        rw [← hrest1]
        simp
    · obtain ⟨f, fs, hsp, hrun, hfs⟩ := ih (p + 1) n (w ++ [c]) hrest1
        (by simp at hn; omega)
      have hsepf : isSplitSymbol seps c = false := by simpa using hsep
      refine ⟨c :: f, fs, ?_, ?_, ?_⟩
      · rw [List.splitOnP_cons, hsp]
        simp [hsepf]
      · have hpos : p + 1 + f.length + (if fs = [] then 0 else 1)
            = p + (c :: f).length + (if fs = [] then 0 else 1) := by
          simp only [List.length_cons]; omega
        have hw : w ++ [c] ++ f = w ++ c :: f := by simp
        rw [hpos, hw] at hrun
        simp only [hsepf, Bool.not_false, if_true]
        exact hrun
      · intro h
        rw [hfs h]
        congr 2
        simp only [List.length_cons]; omega

theorem split_at_end (v : List (List Char)) (e : VecIter StringStream) (syms : List Char)
    (he : e.pos = v.length) (F p : Nat) (w : List Char) (fi : Option Nat) (fl : Bool) :
    Split.Iterator.split F (splitState v e syms v.length p w fi fl)
      = Except.ok (splitState v e syms v.length p [] fi fl) := by
  have hne : Iter.ne (⟨streamsAt v v.length p, v.length⟩ : VecIter StringStream) e = false := by
    show (v.length != e.pos) = false
    rw [he]; simp
  simp only [Split.Iterator.split, splitState, hne]
  rfl

theorem split_step (seps : List Char) (v : List (List Char)) (e : VecIter StringStream)
    (syms : List Char) (hsyms : ∀ c, syms.contains c = isSplitSymbol seps c)
    (he : e.pos = v.length) (F : Nat) (hF : ∀ s ∈ v, s.length < F) (i p : Nat)
    (s : List Char) (later : List (List Char)) (hdrop : v.drop i = s :: later)
    (w : List Char) (fl : Bool) :
    ∃ (f : List Char) (ps : List (List Char)) (i2 p2 : Nat) (fi2 : Option Nat),
      pendingFields seps v i p = f :: ps ∧
      Split.Iterator.split F (splitState v e syms i p w (some i) fl)
        = Except.ok (splitState v e syms i2 p2 f fi2 fl) ∧
      pendingFields seps v i2 p2 = ps ∧ i2 ≤ v.length ∧
      (∀ s2 later2, v.drop i2 = s2 :: later2 → fi2 = some i2) := by
  have hi : i < v.length := drop_eq_cons_lt v i s later hdrop
  have hsmem : s ∈ v := by
    have : s ∈ v.drop i := by rw [hdrop]; exact List.mem_cons_self _ _
    exact List.mem_of_mem_drop this
  have hne : Iter.ne (⟨streamsAt v i p, i⟩ : VecIter StringStream) e = true := by
    show (i != e.pos) = true
    rw [he]; simpa using Nat.ne_of_lt hi
  obtain ⟨f, fs, hsp, hrun, hfs⟩ := splitLoop_spec seps v e syms hsyms i s later hdrop fl
    (s.drop p) p F [] rfl (by
      have := hF s hsmem
      rw [List.length_drop]; omega)
  have hpend : pendingFields seps v i p
      = f :: (fs ++ later.flatMap (List.splitOnP (isSplitSymbol seps))) := by
    simp only [pendingFields, hdrop, hsp, List.cons_append]
  have hstart : Split.Iterator.split F (splitState v e syms i p w (some i) fl)
      = (Split.Iterator.splitLoop F (splitState v e syms i p [] (some i) fl) >>= fun r =>
          if r.2 = true then pure r.1
          else do
            let (s, i1) ← Iter.deref F r.1.iter_
            let i2 : VecIter StringStream :=
              { i1 with data := i1.data.set i1.pos { s with gpos := 0 } }
            let i3 ← Iter.incr F i2
            if Iter.ne i3 r.1.end_ then do
              let (_, i4) ← Iter.deref F i3
              pure { r.1 with iter_ := i4, file_iter_ := some i4.pos }
            else pure { r.1 with iter_ := i3 }) := by
    simp only [Split.Iterator.split, splitState, hne, Bool.not_true, Bool.false_eq_true,
      if_false]
  rw [hstart, hrun, run_ok_bind, List.nil_append]
  by_cases hfsnil : fs = []
  · subst hfsnil
    have hg : (streamsAt v i (p + f.length))[i]? = some ⟨s, p + f.length⟩ := by
      rw [← List.get?_eq_getElem?]
      exact streamsAt_get v i (p + f.length) s later hdrop
    have hd := vec_deref F (streamsAt v i (p + f.length)) i _ hg
    have hset : (streamsAt v i (p + f.length)).set i ⟨s, 0⟩ = streamsAt v (i + 1) 0 := by
      rw [streamsAt_set v i (p + f.length) 0 s later hdrop, streamsAt_zero, streamsAt_zero]
    have hinc := vec_incr F (streamsAt v (i + 1) 0) i (by rw [streamsAt_length]; exact hi)
    have hlater : v.drop (i + 1) = later := drop_succ_of_drop_eq_cons v i s later hdrop
    simp only [List.isEmpty_nil, Bool.not_true, Bool.false_eq_true, if_false, if_true,
      Nat.add_zero, splitState, hd, run_ok_bind, hset, hinc]
    cases hl : later with
    | nil =>
      have hlen : i + 1 = v.length := by
        have h1 : v.length ≤ i + 1 := List.drop_eq_nil_iff.mp (hlater.trans hl)
        omega
      have hne2 : Iter.ne (⟨streamsAt v (i + 1) 0, i + 1⟩ : VecIter StringStream) e = false := by
        show (i + 1 != e.pos) = false
        rw [he, hlen]; simp
      refine ⟨f, [], i + 1, 0, some i, ?_, ?_, ?_, by omega, ?_⟩
      · rw [hpend, hl]; rfl
      · simp only [hne2, Bool.false_eq_true, if_false, splitState]
        rfl
      · simp only [pendingFields, hlater, hl]
      · intro s2 later2 h2
        rw [hlater, hl] at h2
        simp at h2
    | cons s2 later2 =>
      have hdrop2 : v.drop (i + 1) = s2 :: later2 := hlater.trans hl
      have hi2 : i + 1 < v.length := drop_eq_cons_lt v (i + 1) s2 later2 hdrop2
      have hne2 : Iter.ne (⟨streamsAt v (i + 1) 0, i + 1⟩ : VecIter StringStream) e = true := by
        show (i + 1 != e.pos) = true
        rw [he]; simpa using Nat.ne_of_lt hi2
      have hg2 : (streamsAt v (i + 1) 0)[i + 1]? = some ⟨s2, 0⟩ := by
        rw [← List.get?_eq_getElem?]
        exact streamsAt_get v (i + 1) 0 s2 later2 hdrop2
      have hd2 := vec_deref F (streamsAt v (i + 1) 0) (i + 1) _ hg2
      refine ⟨f, (s2 :: later2).flatMap (List.splitOnP (isSplitSymbol seps)), i + 1, 0,
        some (i + 1), ?_, ?_, ?_, by omega, ?_⟩
      · rw [hpend, hl]; rfl
      · simp only [hne2, if_true, hd2, run_ok_bind, splitState]
        rfl
      · simp only [pendingFields, hdrop2, List.drop_zero, List.flatMap_cons]
      · intro _ _ _
        rfl
  · have hemp : fs.isEmpty = false := by
      cases fs with
      | nil => exact absurd rfl hfsnil
      | cons _ _ => rfl
    refine ⟨f, fs ++ later.flatMap (List.splitOnP (isSplitSymbol seps)), i, p + f.length + 1,
      some i, hpend, ?_, ?_, by omega, fun _ _ _ => rfl⟩
    · simp only [hemp, Bool.not_false, if_true, hfsnil, if_false]
      rfl
    · simp only [pendingFields, hdrop, hfs hfsnil]

theorem pendingFields_eq_nil (seps : List Char) (v : List (List Char)) (i p : Nat)
    (h : pendingFields seps v i p = []) : v.drop i = [] := by
  cases hd : v.drop i with
  | nil => rfl
  | cons s later =>
    simp only [pendingFields, hd] at h
    exact absurd (List.append_eq_nil.mp h).1 (List.splitOnP_ne_nil _ _)

theorem dropLastEmpty_cons (f : List Char) (ps : List (List Char)) :
    dropLastEmpty (f :: ps) = if ps = [] ∧ f = [] then [] else f :: dropLastEmpty ps := by
  cases ps with
  | nil => by_cases hf : f = [] <;> simp [dropLastEmpty, hf]
  | cons f2 ps => simp [dropLastEmpty]

theorem dropLastEmpty_length_le (ps : List (List Char)) :
    (dropLastEmpty ps).length ≤ ps.length := by
  induction ps with
  | nil => simp [dropLastEmpty]
  | cons f ps ih =>
    rw [dropLastEmpty_cons]
    split
    · simp
    · simp only [List.length_cons]; omega

theorem splitState_ne (v : List (List Char)) (e : VecIter StringStream) (syms : List Char)
    (i p : Nat) (w : List Char) (fi : Option Nat) (fl : Bool) (eIt : Split.Iterator)
    (h1 : eIt.iter_.pos = v.length) (h2 : eIt.current_word_ = []) :
    Iter.ne (splitState v e syms i p w fi fl) eIt = (i != v.length || w != []) := by
  show ((i != eIt.iter_.pos) || (w != eIt.current_word_)) = _
  rw [h1, h2]

theorem splitState_deref (v : List (List Char)) (e : VecIter StringStream) (syms : List Char)
    (F i p : Nat) (w : List Char) (fi : Option Nat) :
    Iter.deref F (splitState v e syms i p w fi false)
      = Except.ok (w, splitState v e syms i p w fi false) := by
  simp only [Iter.deref, splitState, Bool.and_false, Bool.false_eq_true, if_false, run_pure,
    run_ok_bind]

/-- After an increment the `Split` iterator is a stable cursor over the fields still to be read,
without a final empty one. -/
theorem split_incr_lists (seps : List Char) (v : List (List Char)) (e : VecIter StringStream)
    (syms : List Char) (hsyms : ∀ c, syms.contains c = isSplitSymbol seps c)
    (he : e.pos = v.length) (F : Nat) (hF : ∀ s ∈ v, s.length < F) (eIt : Split.Iterator)
    (h1 : eIt.iter_.pos = v.length) (h2 : eIt.current_word_ = []) :
    ∀ (ps : List (List Char)) (i p : Nat) (w : List Char) (fi : Option Nat),
      pendingFields seps v i p = ps → i ≤ v.length →
      (∀ s2 later2, v.drop i = s2 :: later2 → fi = some i) →
      ∃ st2 : Split.Iterator,
        Split.Iterator.split F (splitState v e syms i p w fi false) = Except.ok st2 ∧
        Lists F eIt st2 (dropLastEmpty ps) := by
  intro ps
  induction ps with
  | nil =>
    intro i p w fi hpend hi _
    have hlen : i = v.length := by
      have := List.drop_eq_nil_iff.mp (pendingFields_eq_nil seps v i p hpend)
      omega
    subst hlen
    refine ⟨_, split_at_end v e syms he F p w fi false, Lists.nil ?_⟩
    rw [splitState_ne v e syms _ p [] fi false eIt h1 h2]
    simp
  | cons f ps ih =>
    intro i p w fi hpend hi hfi
    cases hd : v.drop i with
    | nil => simp [pendingFields, hd] at hpend
    | cons s later =>
      have hfi1 : fi = some i := hfi s later hd
      subst hfi1
      obtain ⟨f1, ps1, i2, p2, fi2, hp1, hrun, hp2, hi2, hfi2⟩ :=
        split_step seps v e syms hsyms he F hF i p s later hd w false
      rw [hpend] at hp1
      obtain ⟨rfl, rfl⟩ := List.cons.inj hp1
      refine ⟨_, hrun, ?_⟩
      obtain ⟨st3, hrun3, hl3⟩ := ih i2 p2 f fi2 hp2 hi2 hfi2
      rw [dropLastEmpty_cons]
      by_cases hstop : ps = [] ∧ f = []
      · rw [if_pos hstop]
        apply Lists.nil
        have hlen : i2 = v.length := by
          have := List.drop_eq_nil_iff.mp
            (pendingFields_eq_nil seps v i2 p2 (hp2.trans hstop.1))
          omega
        rw [splitState_ne v e syms _ p2 f fi2 false eIt h1 h2, hlen, hstop.2]
        simp
      · rw [if_neg hstop]
        refine Lists.cons ?_ (splitState_deref v e syms F i2 p2 f fi2) hrun3 hl3
        rw [splitState_ne v e syms _ p2 f fi2 false eIt h1 h2]
        by_cases hps : ps = []
        · have hf : f ≠ [] := fun hf => hstop ⟨hps, hf⟩
          simp [hf]
        · have hlt : i2 < v.length := by
            cases hd2 : v.drop i2 with
            | nil =>
              rw [← hp2] at hps
              simp [pendingFields, hd2] at hps
            | cons s2 later2 => exact drop_eq_cons_lt v i2 s2 later2 hd2
          have : (i2 != v.length) = true := by simpa using Nat.ne_of_lt hlt
          simp [this]

theorem splitOnP_length_le {α : Type} (P : α → Bool) (s : List α) :
    (s.splitOnP P).length ≤ s.length + 1 := by
  induction s with
  | nil => simp [List.splitOnP_nil]
  | cons c s ih =>
    rw [List.splitOnP_cons]
    split
    · simp only [List.length_cons]; omega
    · rw [List.length_modifyHead]
      simp only [List.length_cons]; omega

theorem splitFields_length_le (seps : List Char) (v : List (List Char)) :
    (splitFields seps v).length ≤ (v.map List.length).sum + v.length := by
  induction v with
  | nil => simp [splitFields]
  | cons s v ih =>
    have h1 := splitOnP_length_le (isSplitSymbol seps) s
    simp only [splitFields, List.flatMap_cons, List.length_append, List.map_cons, List.sum_cons,
      List.length_cons] at ih ⊢
    omega

theorem length_le_sum_of_mem (v : List (List Char)) (s : List Char) (h : s ∈ v) :
    s.length ≤ (v.map List.length).sum := by
  induction v with
  | nil => simp at h
  | cons t v ih =>
    rcases List.mem_cons.mp h with h1 | h1
    · subst h1; simp
    · have := ih h1
      simp only [List.map_cons, List.sum_cons]; omega

theorem split_symbols_contains (seps : List Char) (c : Char) :
    (seps ++ [Char.ofNat 0] ++ [Char.ofNat 0]).contains c = isSplitSymbol seps c := by
  simp only [isSplitSymbol, List.contains_eq_any_beq, List.any_append, List.any_cons,
    List.any_nil, Bool.or_false]
  cases hc : (c == Char.ofNat 0) <;> simp [hc]

theorem pendingFields_start (seps : List Char) (v : List (List Char)) :
    pendingFields seps v 0 0 = splitFields seps v := by
  cases v with
  | nil => rfl
  | cons s later => simp [pendingFields, splitFields]

/-- What collecting `Split` returns for streams that have not been read yet: the fields of all
streams, the last one left out when it is empty and not the only one. -/
theorem split_collect (seps : List Char) (v : List (List Char)) (F : Nat)
    (hF : (v.map List.length).sum + v.length < F) :
    (Split.call F ⟨seps⟩ (AsDataFlow.mk (v.map StringStream.ofString)) >>= AsVector.call F)
      = Except.ok (splitOutput seps v) := by
  obtain ⟨n, rfl⟩ : ∃ m, F = m + 1 := ⟨F - 1, by omega⟩
  cases v with
  | nil => rfl
  | cons s later =>
    generalize hv : s :: later = v at hF ⊢
    have hlen : 0 < v.length := by rw [← hv]; simp
    have hFs : ∀ t ∈ v, t.length < n + 1 := by
      intro t ht
      have := length_le_sum_of_mem v t ht
      omega
    have hdata : v.map StringStream.ofString = streamsAt v 0 0 := (streamsAt_zero v 0).symm
    have hne0 : Iter.ne (⟨streamsAt v 0 0, 0⟩ : VecIter StringStream)
        ⟨streamsAt v 0 0, (streamsAt v 0 0).length⟩ = true := by
      rw [vec_ne, streamsAt_length]
      simpa using Nat.ne_of_lt hlen
    have hg0 : (streamsAt v 0 0)[0]? = some ⟨s, 0⟩ := by
      rw [← List.get?_eq_getElem?]
      exact streamsAt_get v 0 0 s later (by rw [← hv]; rfl)
    have hd0 := vec_deref (n + 1) (streamsAt v 0 0) 0 _ hg0
    have hcall : Split.call (n + 1) ⟨seps⟩ (AsDataFlow.mk (v.map StringStream.ofString))
        = Except.ok ⟨⟨streamsAt v 0 0, 0⟩, ⟨streamsAt v 0 0, (streamsAt v 0 0).length⟩,
            seps ++ [Char.ofNat 0], [], some 0, none, true⟩ := by
      rw [hdata]
      show (Split.Iterator.new (n + 1) ⟨streamsAt v 0 0, 0⟩
        ⟨streamsAt v 0 0, (streamsAt v 0 0).length⟩ seps) = _
      simp only [Split.Iterator.new, hne0, if_true, hd0, run_ok_bind, run_pure]
    rw [hcall, run_ok_bind]
    have hbegin : DataFlow.begin (n + 1) (⟨⟨streamsAt v 0 0, 0⟩,
          ⟨streamsAt v 0 0, (streamsAt v 0 0).length⟩, seps ++ [Char.ofNat 0], [], some 0, none,
          true⟩ : Split.Iterator)
        = Except.ok (splitState v ⟨streamsAt v 0 0, (streamsAt v 0 0).length⟩
            (seps ++ [Char.ofNat 0] ++ [Char.ofNat 0]) 0 0 [] (some 0) true) := by
      show (Split.Iterator.new (n + 1) ⟨streamsAt v 0 0, 0⟩
        ⟨streamsAt v 0 0, (streamsAt v 0 0).length⟩ (seps ++ [Char.ofNat 0])) = _
      simp only [Split.Iterator.new, hne0, if_true, hd0, run_ok_bind, run_pure, splitState]
    have hend : DataFlow.endOf (n + 1) (⟨⟨streamsAt v 0 0, 0⟩,
          ⟨streamsAt v 0 0, (streamsAt v 0 0).length⟩, seps ++ [Char.ofNat 0], [], some 0, none,
          true⟩ : Split.Iterator)
        = Except.ok ⟨⟨streamsAt v 0 0, (streamsAt v 0 0).length⟩,
            ⟨streamsAt v 0 0, (streamsAt v 0 0).length⟩,
            seps ++ [Char.ofNat 0] ++ [Char.ofNat 0], [], none, none, true⟩ := by
      show (Split.Iterator.new (n + 1) ⟨streamsAt v 0 0, (streamsAt v 0 0).length⟩
        ⟨streamsAt v 0 0, (streamsAt v 0 0).length⟩ (seps ++ [Char.ofNat 0])) = _
      have hne1 : Iter.ne (⟨streamsAt v 0 0, (streamsAt v 0 0).length⟩ : VecIter StringStream)
          ⟨streamsAt v 0 0, (streamsAt v 0 0).length⟩ = false := by
        rw [vec_ne]; simp
      simp only [Split.Iterator.new, hne1, Bool.false_eq_true, if_false, run_ok_bind, run_pure]
    unfold AsVector.call rangeFor
    rw [hbegin, hend, run_ok_bind, run_ok_bind]
    generalize hE : (⟨⟨streamsAt v 0 0, (streamsAt v 0 0).length⟩,
      ⟨streamsAt v 0 0, (streamsAt v 0 0).length⟩, seps ++ [Char.ofNat 0] ++ [Char.ofNat 0], [],
      none, none, true⟩ : Split.Iterator) = eIt
    have h1 : eIt.iter_.pos = v.length := by rw [← hE]; exact streamsAt_length v 0 0
    have h2 : eIt.current_word_ = [] := by rw [← hE]
    have hepos : (⟨streamsAt v 0 0, (streamsAt v 0 0).length⟩ : VecIter StringStream).pos
        = v.length := streamsAt_length v 0 0
    generalize (⟨streamsAt v 0 0, (streamsAt v 0 0).length⟩ : VecIter StringStream) = e at hepos
    have hsyms := split_symbols_contains seps
    obtain ⟨f, ps, i2, p2, fi2, hp1, hrun, hp2, hi2, hfi2⟩ :=
      split_step seps v e _ hsyms hepos (n + 1) hFs 0 0 s later (by rw [← hv]; rfl) [] true
    rw [pendingFields_start] at hp1
    obtain ⟨st3, hrun3, hl3⟩ := split_incr_lists seps v e _ hsyms hepos (n + 1) hFs eIt h1 h2 ps
      i2 p2 f fi2 hp2 hi2 hfi2
    have hneb : Iter.ne (splitState v e (seps ++ [Char.ofNat 0] ++ [Char.ofNat 0]) 0 0 []
        (some 0) true) eIt = true := by
      rw [splitState_ne v e _ 0 0 [] (some 0) true eIt h1 h2]
      simpa using Nat.ne_of_lt hlen
    have hderef : Iter.deref (n + 1) (splitState v e (seps ++ [Char.ofNat 0] ++ [Char.ofNat 0])
        0 0 [] (some 0) true)
        = Except.ok (f, splitState v e (seps ++ [Char.ofNat 0] ++ [Char.ofNat 0]) i2 p2 f fi2
            false) := by
      have hb : (([] : List Char) == [] && true) = true := rfl
      have hunf : Iter.deref (n + 1) (splitState v e (seps ++ [Char.ofNat 0] ++ [Char.ofNat 0])
          0 0 [] (some 0) true)
          = ((if (([] : List Char) == [] && true) = true then
              Split.Iterator.split (n + 1)
                (splitState v e (seps ++ [Char.ofNat 0] ++ [Char.ofNat 0]) 0 0 [] (some 0) true)
            else pure
              (splitState v e (seps ++ [Char.ofNat 0] ++ [Char.ofNat 0]) 0 0 [] (some 0) true))
            >>= fun it1 => pure (it1.current_word_, { it1 with flag := false })) := rfl
      rw [hunf, if_pos hb, hrun]
      rfl
    have hfields := splitFields_length_le seps v
    have hdl := dropLastEmpty_length_le ps
    have hpslen : ps.length + 1 = (splitFields seps v).length := by rw [hp1]; rfl
    rw [rangeLoop_succ, if_pos hneb, hderef, run_ok_bind, run_pure, run_ok_bind]
    show (Split.Iterator.split (n + 1) _ >>= fun it2 => _) = _
    rw [hrun3, run_ok_bind, rangeLoop_of_lists _ hl3 n _ (by omega), foldlM_push]
    simp only [splitOutput, hp1, List.nil_append, List.singleton_append]

theorem collectSplit_eq (seps : List Char) (v : List (List Char)) (F : Nat)
    (hF : streamsSize v < F) : collectSplit F seps v = Except.ok (splitOutput seps v) :=
  split_collect seps v F hF

theorem streamsSize_append (v1 v2 : List (List Char)) :
    streamsSize (v1 ++ v2) = streamsSize v1 + streamsSize v2 := by
  simp only [streamsSize, List.map_append, List.sum_append, List.length_append]
  omega

theorem streamsSize_singleton (s : List Char) : streamsSize [s] = s.length + 1 := by
  simp [streamsSize]

theorem splitFields_append (seps : List Char) (v1 v2 : List (List Char)) :
    splitFields seps (v1 ++ v2) = splitFields seps v1 ++ splitFields seps v2 := by
  simp [splitFields]

theorem splitFields_singleton (seps : List Char) (s : List Char) :
    splitFields seps [s] = s.splitOnP (isSplitSymbol seps) := by
  simp [splitFields]

theorem dropLastEmpty_append_singleton (l : List (List Char)) (x : List Char) :
    dropLastEmpty (l ++ [x]) = l ++ (if x = [] then [] else [x]) := by
  induction l with
  | nil => by_cases hx : x = [] <;> simp [dropLastEmpty, hx]
  | cons f l ih =>
    rw [List.cons_append, dropLastEmpty_cons, ih]
    simp

theorem dropLastEmpty_append (l R : List (List Char)) (hR : R ≠ []) :
    dropLastEmpty (l ++ R) = l ++ dropLastEmpty R := by
  induction l with
  | nil => rfl
  | cons f l ih =>
    rw [List.cons_append, dropLastEmpty_cons, ih]
    simp [hR]

theorem dropLastEmpty_of_forall_ne (l : List (List Char)) (h : ∀ x ∈ l, x ≠ []) :
    dropLastEmpty l = l := by
  induction l with
  | nil => rfl
  | cons f l ih =>
    rw [dropLastEmpty_cons, ih fun x hx => h x (List.mem_cons_of_mem _ hx)]
    have hf : f ≠ [] := h f (List.mem_cons_self _ _)
    simp [hf]

theorem filter_dropLastEmpty (l : List (List Char)) :
    (dropLastEmpty l).filter (fun t => !t.isEmpty) = l.filter fun t => !t.isEmpty := by
  induction l with
  | nil => rfl
  | cons f l ih =>
    rw [dropLastEmpty_cons]
    by_cases h : l = [] ∧ f = []
    · rw [if_pos h, h.1, h.2]; rfl
    · rw [if_neg h, List.filter_cons, List.filter_cons, ih]

theorem splitOutput_of_fields (seps : List Char) (v : List (List Char)) (f : List Char)
    (ps : List (List Char)) (h : splitFields seps v = f :: ps) :
    splitOutput seps v = f :: dropLastEmpty ps := by
  simp only [splitOutput, h]

theorem splitOutput_nil (seps : List Char) : splitOutput seps [] = [] := rfl

theorem filter_splitOutput (seps : List Char) (v : List (List Char)) :
    (splitOutput seps v).filter (fun t => !t.isEmpty)
      = (splitFields seps v).filter fun t => !t.isEmpty := by
  cases h : splitFields seps v with
  | nil => simp [splitOutput, h]
  | cons f ps =>
    rw [splitOutput_of_fields seps v f ps h, List.filter_cons, List.filter_cons,
      filter_dropLastEmpty]

theorem modifyHead_append {α : Type} (g : α → α) (l r : List α) (hl : l ≠ []) :
    (l ++ r).modifyHead g = l.modifyHead g ++ r := by
  cases l with
  | nil => exact absurd rfl hl
  | cons a l => rfl

theorem splitOnP_append_sep {α : Type} (P : α → Bool) (a : List α) (d : α) (b : List α)
    (hd : P d = true) : (a ++ d :: b).splitOnP P = a.splitOnP P ++ b.splitOnP P := by
  induction a with
  | nil => simp [List.splitOnP_cons, hd, List.splitOnP_nil]
  | cons c a ih =>
    rw [List.cons_append, List.splitOnP_cons, List.splitOnP_cons, ih]
    by_cases hc : P c = true
    · simp [hc]
    · simp only [hc, Bool.false_eq_true, if_false]
      exact modifyHead_append _ _ _ (List.splitOnP_ne_nil P a)

theorem splitOnP_append_sep_last {α : Type} (P : α → Bool) (a : List α) (d : α)
    (hd : P d = true) : (a ++ [d]).splitOnP P = a.splitOnP P ++ [[]] := by
  rw [splitOnP_append_sep P a d [] hd, List.splitOnP_nil]

theorem splitOnP_last_nonempty {α : Type} (P : α → Bool) (s : List α) (c : α)
    (hc : P c = false) :
    ∃ (Q : List (List α)) (x : List α), (s ++ [c]).splitOnP P = Q ++ [x] ∧ x ≠ [] := by
  induction s with
  | nil => exact ⟨[], [c], by simp [List.splitOnP_cons, hc, List.splitOnP_nil], by simp⟩
  | cons c0 s ih =>
    obtain ⟨Q, x, hQ, hx⟩ := ih
    rw [List.cons_append, List.splitOnP_cons, hQ]
    by_cases h0 : P c0 = true
    · exact ⟨[] :: Q, x, by simp [h0], hx⟩
    · cases Q with
      | nil => exact ⟨[], c0 :: x, by simp [h0], by simp⟩
      | cons q Q => exact ⟨(c0 :: q) :: Q, x, by simp [h0], hx⟩

theorem isSplitSymbol_eq_false (seps : List Char) (c : Char)
    (h : c ∉ seps ∧ c ≠ Char.ofNat 0) : isSplitSymbol seps c = false := by
  simp [isSplitSymbol, h.1, h.2]

theorem isSplitSymbol_of_mem (seps : List Char) (d : Char) (h : d ∈ seps) :
    isSplitSymbol seps d = true := by
  simp [isSplitSymbol, h]

theorem splitOnP_tokens (seps : List Char) (rest : List (Char × List Char)) :
    ∀ t0 : List Char, (∀ c ∈ t0, c ∉ seps ∧ c ≠ Char.ofNat 0) →
      (∀ dt ∈ rest, dt.1 ∈ seps ∧ ∀ c ∈ dt.2, c ∉ seps ∧ c ≠ Char.ofNat 0) →
      (t0 ++ rest.flatMap fun dt => dt.1 :: dt.2).splitOnP (isSplitSymbol seps)
        = t0 :: rest.map Prod.snd := by
  induction rest with
  | nil =>
    intro t0 h0 _
    rw [List.flatMap_nil, List.append_nil]
    apply List.splitOnP_eq_single
    intro x hx
    rw [isSplitSymbol_eq_false seps x (h0 x hx)]
    simp
  | cons dt rest ih =>
    intro t0 h0 hr
    have hdt := hr dt (List.mem_cons_self _ _)
    rw [List.flatMap_cons, List.cons_append, List.splitOnP_first (isSplitSymbol seps) t0
      (fun x hx => by rw [isSplitSymbol_eq_false seps x (h0 x hx)]; simp) dt.1
      (isSplitSymbol_of_mem seps dt.1 hdt.1),
      ih dt.2 hdt.2 fun d hd => hr d (List.mem_cons_of_mem _ hd)]
    rfl

/-- C12: when every stream consists of one or more non-empty tokens, free of delimiter and NUL
characters, separated by single delimiter characters (a stream is given by its first token and
the following delimiter-token pairs), collecting `Split` returns exactly all tokens of all
streams, stream by stream and left to right within a stream. -/
theorem C12_split_wellformed_tokens (seps : List Char)
    (streams : List (List Char × List (Char × List Char))) (F : Nat)
    (hfirst : ∀ st ∈ streams, st.1 ≠ [] ∧ ∀ c ∈ st.1, c ∉ seps ∧ c ≠ Char.ofNat 0)
    (hrest : ∀ st ∈ streams, ∀ dt ∈ st.2,
      dt.1 ∈ seps ∧ dt.2 ≠ [] ∧ ∀ c ∈ dt.2, c ∉ seps ∧ c ≠ Char.ofNat 0)
    (hF : streamsSize (streams.map fun st => st.1 ++ st.2.flatMap fun dt => dt.1 :: dt.2) < F) :
    collectSplit F seps (streams.map fun st => st.1 ++ st.2.flatMap fun dt => dt.1 :: dt.2)
      = Except.ok (streams.flatMap fun st => st.1 :: st.2.map Prod.snd) := by
  rw [collectSplit_eq seps _ F hF]
  have hfields : splitFields seps
      (streams.map fun st => st.1 ++ st.2.flatMap fun dt => dt.1 :: dt.2)
      = streams.flatMap fun st => st.1 :: st.2.map Prod.snd := by
    clear hF
    induction streams with
    | nil => rfl
    | cons st streams ih =>
      have h1 := hfirst st (List.mem_cons_self _ _)
      have h2 := hrest st (List.mem_cons_self _ _)
      rw [List.map_cons, List.flatMap_cons, ← ih
        (fun x hx => hfirst x (List.mem_cons_of_mem _ hx))
        (fun x hx => hrest x (List.mem_cons_of_mem _ hx))]
      simp only [splitFields, List.flatMap_cons]
      rw [splitOnP_tokens seps st.2 st.1 h1.2 fun dt hdt => ⟨(h2 dt hdt).1, (h2 dt hdt).2.2⟩]
  have hne : ∀ x ∈ (streams.flatMap fun st => st.1 :: st.2.map Prod.snd), x ≠ [] := by
    intro x hx
    obtain ⟨st, hst, hxst⟩ := List.mem_flatMap.mp hx
    rcases List.mem_cons.mp hxst with h | h
    · rw [h]; exact (hfirst st hst).1
    · obtain ⟨dt, hdt, rfl⟩ := List.mem_map.mp h
      exact (hrest st hst dt hdt).2.1
  cases hfl : (streams.flatMap fun st => st.1 :: st.2.map Prod.snd) with
  | nil =>
    rw [hfl] at hfields
    simp only [splitOutput, hfields]
  | cons f ps =>
    rw [hfl] at hfields hne
    rw [splitOutput_of_fields seps _ f ps hfields,
      dropLastEmpty_of_forall_ne ps fun x hx => hne x (List.mem_cons_of_mem _ hx)]

theorem C12_split_wellformed_tokens_witness :
    ((∀ st ∈ [("10".toList, [(' ', "2".toList)]), ("3".toList, [])],
        st.1 ≠ [] ∧ ∀ c ∈ st.1, c ∉ " ".toList ∧ c ≠ Char.ofNat 0) ∧
      (∀ st ∈ [("10".toList, [(' ', "2".toList)]), ("3".toList, [])], ∀ dt ∈ st.2,
        dt.1 ∈ " ".toList ∧ dt.2 ≠ [] ∧ ∀ c ∈ dt.2, c ∉ " ".toList ∧ c ≠ Char.ofNat 0) ∧
      streamsSize ([("10".toList, [(' ', "2".toList)]), ("3".toList, [])].map
        fun st => st.1 ++ st.2.flatMap fun dt => dt.1 :: dt.2) < 8) ∧
    collectSplit 8 " ".toList ([("10".toList, [(' ', "2".toList)]), ("3".toList, [])].map
        fun st => st.1 ++ st.2.flatMap fun dt => dt.1 :: dt.2)
      = Except.ok ([("10".toList, [(' ', "2".toList)]), ("3".toList, [])].flatMap
          fun st => st.1 :: st.2.map Prod.snd) :=
  ⟨⟨by decide, by decide, by decide⟩,
    C12_split_wellformed_tokens " ".toList [("10".toList, [(' ', "2".toList)]), ("3".toList, [])]
      8 (by decide) (by decide) (by decide)⟩

theorem splitOutput_of_last_ne (seps : List Char) (v : List (List Char))
    (l : List (List Char)) (x : List Char) (h : splitFields seps v = l ++ [x]) (hx : x ≠ []) :
    splitOutput seps v = l ++ [x] := by
  cases l with
  | nil => rw [splitOutput_of_fields seps v x [] h]; rfl
  | cons f l =>
    rw [splitOutput_of_fields seps v f (l ++ [x]) h, dropLastEmpty_append_singleton, if_neg hx]
    rfl

theorem splitOutput_of_last_empty (seps : List Char) (v : List (List Char))
    (l : List (List Char)) (h : splitFields seps v = l ++ [[]]) (hl : l ≠ []) :
    splitOutput seps v = l := by
  cases l with
  | nil => exact absurd rfl hl
  | cons f l =>
    rw [splitOutput_of_fields seps v f (l ++ [[]]) (by rw [h]; rfl),
      dropLastEmpty_append_singleton]
    simp

theorem streamsSize_le_of_mem (v : List (List Char)) (s : List Char) (h : s ∈ v) :
    streamsSize [s] ≤ streamsSize v := by
  induction v with
  | nil => simp at h
  | cons t v ih =>
    have hc : streamsSize (t :: v) = streamsSize [t] + streamsSize v :=
      streamsSize_append [t] v
    rcases List.mem_cons.mp h with h1 | h1
    · rw [hc, h1]; omega
    · have := ih h1
      rw [hc]; omega

theorem filter_flatMap_splitOutput (seps : List Char) (v : List (List Char)) :
    (v.flatMap fun s => splitOutput seps [s]).filter (fun t => !t.isEmpty)
      = (splitFields seps v).filter fun t => !t.isEmpty := by
  induction v with
  | nil => rfl
  | cons s v ih =>
    have hc : splitFields seps (s :: v) = splitFields seps [s] ++ splitFields seps v :=
      splitFields_append seps [s] v
    rw [List.flatMap_cons, List.filter_append, ih, hc, List.filter_append, filter_splitOutput]

/-- C13 (as stated, refuted): over the two streams `a|` and `b` with delimiter `|` the output
is `a`, the empty string, `b`, while the streams taken alone give `a` and `b`. -/
theorem C13_not_concat_of_single_streams :
    collectSplit 8 "|".toList ["a|".toList, "b".toList]
      = Except.ok ["a".toList, [], "b".toList] ∧
    collectSplit 8 "|".toList ["a|".toList] = Except.ok ["a".toList] ∧
    collectSplit 8 "|".toList ["b".toList] = Except.ok ["b".toList] ∧
    ["a".toList, [], "b".toList] ≠ ["a".toList] ++ ["b".toList] := by
  decide

/-- C13 (amended): the non-empty tokens `Split` yields are grouped by stream in stream order:
they are the concatenation of the non-empty tokens yielded for each stream taken alone, so no
token has characters of two streams; when every stream ends with a character that is neither a
delimiter nor NUL the whole output is the concatenation of the outputs for the single
streams. -/
theorem C13_split_grouped_by_stream (seps : List Char) (v : List (List Char)) (F : Nat)
    (hF : streamsSize v < F) :
    ∃ (out : List (List Char)) (per : List Char → List (List Char)),
      collectSplit F seps v = Except.ok out ∧
      (∀ s ∈ v, collectSplit F seps [s] = Except.ok (per s)) ∧
      out.filter (fun t => !t.isEmpty) = (v.flatMap per).filter (fun t => !t.isEmpty) ∧
      ((∀ s ∈ v, ∃ s0 c, s = s0 ++ [c] ∧ c ∉ seps ∧ c ≠ Char.ofNat 0) →
        out = v.flatMap per) := by
  refine ⟨splitOutput seps v, fun s => splitOutput seps [s], collectSplit_eq seps v F hF, ?_, ?_,
    ?_⟩
  · intro s hs
    have := streamsSize_le_of_mem v s hs
    exact collectSplit_eq seps [s] F (by omega)
  · rw [filter_splitOutput, filter_flatMap_splitOutput]
  · intro hall
    have hper : ∀ s ∈ v, splitOutput seps [s] = s.splitOnP (isSplitSymbol seps) := by
      intro s hs
      obtain ⟨s0, c, rfl, hc⟩ := hall s hs
      obtain ⟨Q, x, hQ, hx⟩ := splitOnP_last_nonempty (isSplitSymbol seps) s0 c
        (isSplitSymbol_eq_false seps c hc)
      rw [splitOutput_of_last_ne seps _ Q x (by rw [splitFields_singleton, hQ]) hx, hQ]
    have hflat : (v.flatMap fun s => splitOutput seps [s]) = splitFields seps v := by
      unfold splitFields
      clear hF
      induction v with
      | nil => rfl
      | cons s v ih =>
        rw [List.flatMap_cons, List.flatMap_cons, hper s (List.mem_cons_self _ _),
          ih (fun t ht => hall t (List.mem_cons_of_mem _ ht))
            (fun t ht => hper t (List.mem_cons_of_mem _ ht))]
    rw [hflat]
    rcases List.eq_nil_or_concat v with hv | ⟨v0, s, hv⟩
    · subst hv; rfl
    · rw [List.concat_eq_append] at hv
      subst hv
      obtain ⟨s0, c, rfl, hc⟩ := hall s (by simp)
      obtain ⟨Q, x, hQ, hx⟩ := splitOnP_last_nonempty (isSplitSymbol seps) s0 c
        (isSplitSymbol_eq_false seps c hc)
      have hf : splitFields seps (v0 ++ [s0 ++ [c]]) = (splitFields seps v0 ++ Q) ++ [x] := by
        rw [splitFields_append, splitFields_singleton, hQ, List.append_assoc]
      rw [splitOutput_of_last_ne seps _ _ x hf hx, hf]

theorem C13_split_grouped_by_stream_witness :
    streamsSize ["a|b".toList, "c".toList] < 8 ∧
    ∃ (out : List (List Char)) (per : List Char → List (List Char)),
      collectSplit 8 "|".toList ["a|b".toList, "c".toList] = Except.ok out ∧
      (∀ s ∈ ["a|b".toList, "c".toList], collectSplit 8 "|".toList [s] = Except.ok (per s)) ∧
      out.filter (fun t => !t.isEmpty)
        = (["a|b".toList, "c".toList].flatMap per).filter (fun t => !t.isEmpty) ∧
      out = ["a|b".toList, "c".toList].flatMap per :=
  ⟨by decide,
    (C13_split_grouped_by_stream "|".toList ["a|b".toList, "c".toList] 8 (by decide)).elim
      fun out h => h.elim fun per h2 => ⟨out, per, h2.1, h2.2.1, h2.2.2.1,
        h2.2.2.2 (by
          intro s hs
          simp only [List.mem_cons, List.mem_singleton, List.not_mem_nil, or_false] at hs
          rcases hs with rfl | rfl
          · exact ⟨"a|".toList, 'b', rfl, by decide, by decide⟩
          · exact ⟨[], 'c', rfl, by decide, by decide⟩)⟩⟩

theorem splitOutput_append (seps : List Char) (v : List (List Char)) (X R : List (List Char))
    (h : splitFields seps v = X ++ R) (hX : X ≠ []) (hR : R ≠ []) :
    splitOutput seps v = X ++ dropLastEmpty R := by
  cases X with
  | nil => exact absurd rfl hX
  | cons f t =>
    rw [splitOutput_of_fields seps v f (t ++ R) (by rw [h]; rfl), dropLastEmpty_append t R hR]
    rfl

/-- C14 (as stated, refuted): with delimiter `|` the stream `a||b` gives `a`, the empty string,
`b`, which is not the output `a`, `b` of the stream `a|b`. -/
theorem C14_adjacent_delimiters_give_empty_token :
    collectSplit 8 "|".toList ["a||b".toList] = Except.ok ["a".toList, [], "b".toList] ∧
    collectSplit 8 "|".toList ["a|b".toList] = Except.ok ["a".toList, "b".toList] ∧
    collectSplit 8 "|".toList ["a||b".toList] ≠ collectSplit 8 "|".toList ["a|b".toList] := by
  decide

/-- C14 (amended): two adjacent delimiter characters produce exactly one empty token between
them: the output for streams one of which is `a ++ [d1, d2] ++ b` is the output for the same
streams with the pair collapsed to `d1`, with one empty string inserted right after the
tokens of the earlier streams and of `a`. -/
theorem C14_split_adjacent_delimiters (seps : List Char) (pre post : List (List Char))
    (a b : List Char) (d1 d2 : Char) (F : Nat) (hd1 : isSplitSymbol seps d1 = true)
    (hd2 : isSplitSymbol seps d2 = true)
    (hF : streamsSize (pre ++ [a ++ d1 :: d2 :: b] ++ post) < F) :
    ∃ Y : List (List Char),
      collectSplit F seps (pre ++ [a ++ d1 :: b] ++ post)
        = Except.ok ((pre.flatMap (List.splitOnP (isSplitSymbol seps))
            ++ a.splitOnP (isSplitSymbol seps)) ++ Y) ∧
      collectSplit F seps (pre ++ [a ++ d1 :: d2 :: b] ++ post)
        = Except.ok ((pre.flatMap (List.splitOnP (isSplitSymbol seps))
            ++ a.splitOnP (isSplitSymbol seps)) ++ [] :: Y) := by
  have hsize : streamsSize (pre ++ [a ++ d1 :: b] ++ post) < F := by
    simp only [streamsSize_append, streamsSize_singleton, List.length_append,
      List.length_cons] at hF ⊢
    omega
  have hA := List.splitOnP_ne_nil (isSplitSymbol seps) a
  have hB := List.splitOnP_ne_nil (isSplitSymbol seps) b
  have hX : pre.flatMap (List.splitOnP (isSplitSymbol seps)) ++ a.splitOnP (isSplitSymbol seps)
      ≠ [] := by simp [hA]
  have hR : b.splitOnP (isSplitSymbol seps) ++ splitFields seps post ≠ [] := by simp [hB]
  refine ⟨dropLastEmpty (b.splitOnP (isSplitSymbol seps) ++ splitFields seps post), ?_, ?_⟩
  · rw [collectSplit_eq seps _ F hsize]
    congr 1
    apply splitOutput_append seps _ _ _ _ hX hR
    rw [splitFields_append, splitFields_append, splitFields_singleton,
      splitOnP_append_sep _ a d1 b hd1]
    simp [splitFields]
  · rw [collectSplit_eq seps _ F hF]
    congr 1
    have hR2 : ([] : List Char) :: (b.splitOnP (isSplitSymbol seps) ++ splitFields seps post)
        ≠ [] := by simp
    have h2 := splitOutput_append seps (pre ++ [a ++ d1 :: d2 :: b] ++ post)
      (pre.flatMap (List.splitOnP (isSplitSymbol seps)) ++ a.splitOnP (isSplitSymbol seps))
      ([] :: (b.splitOnP (isSplitSymbol seps) ++ splitFields seps post)) (by
        rw [splitFields_append, splitFields_append, splitFields_singleton,
          splitOnP_append_sep _ a d1 (d2 :: b) hd1, List.splitOnP_cons, if_pos hd2]
        simp [splitFields]) hX hR2
    rw [h2, dropLastEmpty_cons]
    simp [hB]

theorem C14_split_adjacent_delimiters_witness :
    (isSplitSymbol "|".toList '|' = true ∧ isSplitSymbol "|".toList '|' = true ∧
      streamsSize ([] ++ ["a".toList ++ '|' :: '|' :: "b".toList] ++ []) < 8) ∧
    ∃ Y : List (List Char),
      collectSplit 8 "|".toList ([] ++ ["a".toList ++ '|' :: "b".toList] ++ [])
        = Except.ok ((([] : List (List Char)).flatMap (List.splitOnP (isSplitSymbol "|".toList))
            ++ "a".toList.splitOnP (isSplitSymbol "|".toList)) ++ Y) ∧
      collectSplit 8 "|".toList ([] ++ ["a".toList ++ '|' :: '|' :: "b".toList] ++ [])
        = Except.ok ((([] : List (List Char)).flatMap (List.splitOnP (isSplitSymbol "|".toList))
            ++ "a".toList.splitOnP (isSplitSymbol "|".toList)) ++ [] :: Y) :=
  ⟨⟨by decide, by decide, by decide⟩,
    C14_split_adjacent_delimiters "|".toList [] [] "a".toList "b".toList '|' '|' 8
      (by decide) (by decide) (by decide)⟩

/-- C15 (as stated, refuted): a single empty stream gives one empty string, not the empty list,
and putting an empty stream before the stream `x` changes the output. -/
theorem C15_empty_stream_gives_empty_token :
    collectSplit 4 "|".toList [[]] = Except.ok [[]] ∧
    collectSplit 4 "|".toList [[]] ≠ Except.ok [] ∧
    collectSplit 4 "|".toList [[], "x".toList] = Except.ok [[], "x".toList] ∧
    collectSplit 4 "|".toList ["x".toList] = Except.ok ["x".toList] := by
  decide

/-- C15 (amended): inserting an empty stream at any position (first, middle or last) leaves the
non-empty tokens of the collected output unchanged; inserted after a last stream that ends with
a character that is neither a delimiter nor NUL it leaves the whole output unchanged. -/
theorem C15_split_empty_stream (seps : List Char) (pre post : List (List Char)) (F : Nat)
    (hF : streamsSize (pre ++ [[]] ++ post) < F) :
    ∃ o1 o2 : List (List Char),
      collectSplit F seps (pre ++ post) = Except.ok o1 ∧
      collectSplit F seps (pre ++ [[]] ++ post) = Except.ok o2 ∧
      o2.filter (fun t => !t.isEmpty) = o1.filter (fun t => !t.isEmpty) ∧
      (post = [] → (∃ init s0 c, pre = init ++ [s0 ++ [c]] ∧ c ∉ seps ∧ c ≠ Char.ofNat 0) →
        o2 = o1) := by
  have hsz : streamsSize (pre ++ [[]] ++ post) = streamsSize pre + 1 + streamsSize post := by
    simp only [streamsSize_append, streamsSize_singleton, List.length_nil]
  have hsz1 : streamsSize (pre ++ post) < F := by
    rw [streamsSize_append]; omega
  refine ⟨splitOutput seps (pre ++ post), splitOutput seps (pre ++ [[]] ++ post),
    collectSplit_eq seps _ F hsz1, collectSplit_eq seps _ F hF, ?_, ?_⟩
  · rw [filter_splitOutput, filter_splitOutput, splitFields_append, splitFields_append,
      splitFields_append, splitFields_singleton, List.splitOnP_nil]
    simp
  · rintro rfl ⟨init, s0, c, rfl, hc⟩
    obtain ⟨Q, x, hQ, hx⟩ := splitOnP_last_nonempty (isSplitSymbol seps) s0 c
      (isSplitSymbol_eq_false seps c hc)
    have hf1 : splitFields seps (init ++ [s0 ++ [c]] ++ [])
        = (splitFields seps init ++ Q) ++ [x] := by
      rw [List.append_nil, splitFields_append, splitFields_singleton, hQ, List.append_assoc]
    have hf2 : splitFields seps (init ++ [s0 ++ [c]] ++ [[]] ++ [])
        = ((splitFields seps init ++ Q) ++ [x]) ++ [[]] := by
      rw [List.append_nil, splitFields_append, splitFields_append, splitFields_singleton,
        splitFields_singleton, hQ, List.splitOnP_nil, List.append_assoc (splitFields seps init)]
      simp
    rw [splitOutput_of_last_ne seps _ _ x hf1 hx,
      splitOutput_of_last_empty seps _ _ hf2 (by simp)]

theorem C15_split_empty_stream_witness :
    streamsSize (["x|a".toList] ++ [[]] ++ []) < 8 ∧
    ∃ o1 o2 : List (List Char),
      collectSplit 8 "|".toList (["x|a".toList] ++ []) = Except.ok o1 ∧
      collectSplit 8 "|".toList (["x|a".toList] ++ [[]] ++ []) = Except.ok o2 ∧
      o2.filter (fun t => !t.isEmpty) = o1.filter (fun t => !t.isEmpty) ∧
      o2 = o1 :=
  ⟨by decide,
    (C15_split_empty_stream "|".toList ["x|a".toList] [] 8 (by decide)).elim
      fun o1 h => h.elim fun o2 h2 => ⟨o1, o2, h2.1, h2.2.1, h2.2.2.1,
        h2.2.2.2 rfl ⟨[], "x|".toList, 'a', rfl, by decide, by decide⟩⟩⟩

/-- C16 (as stated, refuted): with the delimiter `|`, the stream holding `a` and NUL ends with a
character that is not a delimiter, yet appending `|` to it changes the collected output from
`a` to `a`, empty string: `Split` cuts at NUL as well, so the field before the appended
delimiter is empty and is no longer the last one. -/
theorem C16_trailing_delimiter_after_nul :
    Char.ofNat 0 ∉ "|".toList ∧
    collectSplit 8 "|".toList [['a', Char.ofNat 0]] = Except.ok [['a']] ∧
    collectSplit 8 "|".toList [['a', Char.ofNat 0, '|']] = Except.ok [['a'], []] := by
  decide

/-- C16 (amended): when the final stream ends with a character that is neither a delimiter nor
NUL, appending one delimiter character (or NUL) to it leaves the collected output of `Split`
unchanged: the empty field after the final delimiter is not yielded. -/
theorem C16_split_trailing_delimiter (seps : List Char) (init : List (List Char))
    (s : List Char) (c d : Char) (F : Nat) (hc0 : c ∉ seps ∧ c ≠ Char.ofNat 0)
    (hd0 : d ∈ seps ∨ d = Char.ofNat 0) (hF : streamsSize (init ++ [s ++ [c] ++ [d]]) < F) :
    ∃ out : List (List Char),
      collectSplit F seps (init ++ [s ++ [c]]) = Except.ok out ∧
      collectSplit F seps (init ++ [s ++ [c] ++ [d]]) = Except.ok out := by
  have hc : isSplitSymbol seps c = false := isSplitSymbol_eq_false seps c hc0
  have hd : isSplitSymbol seps d = true := by
    rcases hd0 with h | h
    · exact isSplitSymbol_of_mem seps d h
    · simp [isSplitSymbol, h]
  have hsz : streamsSize (init ++ [s ++ [c]]) < F := by
    simp only [streamsSize_append, streamsSize_singleton, List.length_append,
      List.length_singleton] at hF ⊢
    omega
  obtain ⟨Q, x, hQ, hx⟩ := splitOnP_last_nonempty (isSplitSymbol seps) s c hc
  have hf1 : splitFields seps (init ++ [s ++ [c]]) = (splitFields seps init ++ Q) ++ [x] := by
    rw [splitFields_append, splitFields_singleton, hQ, List.append_assoc]
  have hf2 : splitFields seps (init ++ [s ++ [c] ++ [d]])
      = ((splitFields seps init ++ Q) ++ [x]) ++ [[]] := by
    rw [splitFields_append, splitFields_singleton, splitOnP_append_sep_last _ _ d hd, hQ]
    simp
  refine ⟨(splitFields seps init ++ Q) ++ [x], ?_, ?_⟩
  · rw [collectSplit_eq seps _ F hsz, splitOutput_of_last_ne seps _ _ x hf1 hx]
  · rw [collectSplit_eq seps _ F hF, splitOutput_of_last_empty seps _ _ hf2 (by simp)]

theorem C16_split_trailing_delimiter_witness :
    (('b' ∉ "|".toList ∧ 'b' ≠ Char.ofNat 0) ∧ ('|' ∈ "|".toList ∨ '|' = Char.ofNat 0) ∧
      streamsSize (["x|".toList] ++ ["a|".toList ++ ['b'] ++ ['|']]) < 10) ∧
    ∃ out : List (List Char),
      collectSplit 10 "|".toList (["x|".toList] ++ ["a|".toList ++ ['b']]) = Except.ok out ∧
      collectSplit 10 "|".toList (["x|".toList] ++ ["a|".toList ++ ['b'] ++ ['|']])
        = Except.ok out :=
  ⟨⟨by decide, by decide, by decide⟩,
    C16_split_trailing_delimiter "|".toList ["x|".toList] "a|".toList 'b' '|' 10
      (by decide) (by decide) (by decide)⟩

/-! ### `Transform | DropNullopt` against `Filter` -/

theorem filterMap_map_ite {α : Type} (p : α → Bool) (xs : List α) :
    (xs.map fun x => if p x = true then some x else none).filterMap id = xs.filter p := by
  induction xs with
  | nil => rfl
  | cons x xs ih =>
    by_cases hp : p x = true
    · simp [hp, ih]
    · simp [hp, ih]

/-- C26: for every sequence `xs` and predicate `p`, collecting
`xs | Transform(x -> p(x) ? some(x) : none) | DropNullopt()` gives the same vector as collecting
`xs | Filter(p)`: both runs return, and return the items of `xs` satisfying `p` in order. -/
theorem C26_transform_dropNullopt_is_filter {α : Type} (xs : List α) (p : α → Bool) (F : Nat)
    (hF : xs.length < F) :
    (Transform.call F ⟨fun x => if p x = true then some x else none⟩ (AsDataFlow.mk xs)
        >>= DropNullopt.call F ⟨⟩ >>= AsVector.call F)
      = (Filter.call F ⟨p⟩ (AsDataFlow.mk xs) >>= AsVector.call F) ∧
    (Filter.call F ⟨p⟩ (AsDataFlow.mk xs) >>= AsVector.call F) = Except.ok (xs.filter p) := by
  obtain ⟨it1, h1, y1⟩ := transform_call_yields (fun x => if p x = true then some x else none)
    (asDataFlow_yields F xs)
  obtain ⟨it2, h2, y2⟩ := dropNullopt_call_yields y1 (by simpa using hF)
  obtain ⟨it3, h3, y3⟩ := filter_call_yields p (asDataFlow_yields F xs) hF
  rw [filterMap_map_ite] at y2
  have hle := List.length_filter_le p xs
  have hL : (Transform.call F ⟨fun x => if p x = true then some x else none⟩ (AsDataFlow.mk xs)
      >>= DropNullopt.call F ⟨⟩ >>= AsVector.call F) = Except.ok (xs.filter p) := by
    rw [h1, run_ok_bind, h2, run_ok_bind]
    exact asVector_of_yields y2 (by omega)
  have hR : (Filter.call F ⟨p⟩ (AsDataFlow.mk xs) >>= AsVector.call F)
      = Except.ok (xs.filter p) := by
    rw [h3, run_ok_bind]
    exact asVector_of_yields y3 (by omega)
  exact ⟨hL.trans hR.symm, hR⟩

theorem C26_transform_dropNullopt_is_filter_witness :
    [1, 2, 3, 4, 5].length < 6 ∧
    (Transform.call 6 ⟨fun x => if (fun x => x % 2 == 0) x = true then some x else none⟩
        (AsDataFlow.mk [1, 2, 3, 4, 5]) >>= DropNullopt.call 6 ⟨⟩ >>= AsVector.call 6)
      = (Filter.call 6 ⟨fun x => x % 2 == 0⟩ (AsDataFlow.mk [1, 2, 3, 4, 5])
          >>= AsVector.call 6) ∧
    (Filter.call 6 ⟨fun x => x % 2 == 0⟩ (AsDataFlow.mk [1, 2, 3, 4, 5]) >>= AsVector.call 6)
      = Except.ok ([1, 2, 3, 4, 5].filter fun x => x % 2 == 0) :=
  ⟨by decide,
    C26_transform_dropNullopt_is_filter [1, 2, 3, 4, 5] (fun x => x % 2 == 0) 6 (by decide)⟩

/-! ### Safety of the `SplitExpected` views -/

/-- C23 (as stated, refuted by the code): collecting the success view over a non-empty upstream
without success items, and the error view over a non-empty upstream without error items, does
not give the empty list: the run dereferences the upstream at its end position.  Over every
other upstream the views are collected without a fault. -/
theorem C23_views_deref_end_without_own_items {E T : Type} (xs : List (Except E T)) (F : Nat)
    (hF : xs.length < F) :
    (SplitExpected.call F ⟨⟩ (AsDataFlow.mk xs) >>= fun views => AsVector.call F views.2)
      = (if xs.isEmpty || !(valuesOf xs).isEmpty then Except.ok (valuesOf xs)
          else Except.error Fault.pastEnd) ∧
    (SplitExpected.call F ⟨⟩ (AsDataFlow.mk xs) >>= fun views => AsVector.call F views.1)
      = (if xs.isEmpty || !(errorsOf xs).isEmpty then Except.ok (errorsOf xs)
          else Except.error Fault.pastEnd) := by
  constructor
  · by_cases h : xs = [] ∨ valuesOf xs ≠ []
    · rw [expectedView_collect F xs hF h]
      have hb : (xs.isEmpty || !(valuesOf xs).isEmpty) = true := by
        rcases h with h | h
        · simp [h]
        · simp [List.isEmpty_iff, h]
      rw [hb]; rfl
    · have h1 : xs ≠ [] := fun h0 => h (Or.inl h0)
      have h2 : valuesOf xs = [] := by
        by_contra h0
        exact h (Or.inr h0)
      rw [expectedView_fault F xs hF h1 h2]
      have hb : (xs.isEmpty || !(valuesOf xs).isEmpty) = false := by
        simp [List.isEmpty_iff, h1, h2]
      rw [hb]; rfl
  · by_cases h : xs = [] ∨ errorsOf xs ≠ []
    · rw [unexpectedView_collect F xs hF h]
      have hb : (xs.isEmpty || !(errorsOf xs).isEmpty) = true := by
        rcases h with h | h
        · simp [h]
        · simp [List.isEmpty_iff, h]
      rw [hb]; rfl
    · have h1 : xs ≠ [] := fun h0 => h (Or.inl h0)
      have h2 : errorsOf xs = [] := by
        by_contra h0
        exact h (Or.inr h0)
      rw [unexpectedView_fault F xs hF h1 h2]
      have hb : (xs.isEmpty || !(errorsOf xs).isEmpty) = false := by
        simp [List.isEmpty_iff, h1, h2]
      rw [hb]; rfl

theorem C23_views_deref_end_without_own_items_witness :
    [(Except.ok 1 : Except String Nat), Except.ok 2].length < 3 ∧
    (SplitExpected.call 3 ⟨⟩ (AsDataFlow.mk [(Except.ok 1 : Except String Nat), Except.ok 2])
      >>= fun views => AsVector.call 3 views.2) = Except.ok [1, 2] ∧
    (SplitExpected.call 3 ⟨⟩ (AsDataFlow.mk [(Except.ok 1 : Except String Nat), Except.ok 2])
      >>= fun views => AsVector.call 3 views.1) = Except.error Fault.pastEnd :=
  ⟨by decide,
    C23_views_deref_end_without_own_items [(Except.ok 1 : Except String Nat), Except.ok 2] 3
      (by decide)⟩

/-! ### The exact output of `Split` -/

theorem dropLastEmpty_eq (l : List (List Char)) :
    dropLastEmpty l = if l.getLast? = some [] then l.dropLast else l := by
  induction l with
  | nil => simp [dropLastEmpty]
  | cons w l ih =>
    cases l with
    | nil => by_cases hw : w = [] <;> simp [dropLastEmpty, hw]
    | cons f ps =>
      rw [dropLastEmpty, ih, List.getLast?_cons_cons, List.dropLast_cons₂]
      split <;> rfl

theorem splitOutput_eq (seps : List Char) (v : List (List Char)) :
    splitOutput seps v
      = if (splitFields seps v).getLast? = some [] ∧ 1 < (splitFields seps v).length
        then (splitFields seps v).dropLast else splitFields seps v := by
  unfold splitOutput
  cases h : splitFields seps v with
  | nil => simp
  | cons f ps =>
    cases ps with
    | nil => simp [dropLastEmpty]
    | cons g qs =>
      simp only [dropLastEmpty_eq, List.getLast?_cons_cons, List.dropLast_cons₂,
        List.length_cons]
      have h1 : 1 < qs.length + 1 + 1 := by omega
      simp only [h1, and_true]
      split <;> rfl

theorem splitOnP_length {α : Type} (P : α → Bool) (s : List α) :
    (s.splitOnP P).length = s.countP P + 1 := by
  induction s with
  | nil => simp [List.splitOnP_nil]
  | cons c s ih =>
    rw [List.splitOnP_cons]
    by_cases hc : P c = true
    · simp [hc, ih]
    · have hne := List.splitOnP_ne_nil P s
      cases hs : List.splitOnP P s with
      | nil => exact absurd hs hne
      | cons a b =>
        rw [hs] at ih
        simp only [List.length_cons] at ih
        simp [hc, List.modifyHead, ih]

/-- C21: with `fields` the concatenation, in stream order, of the fields of each stream (the
stream cut at each of its characters that is a delimiter or NUL, empty fields kept, so a stream
with `k` such characters has `k + 1` fields), collecting `Split` returns `fields` unchanged when
its last field is non-empty or it has exactly one field, and `fields` without its last field
when that field is empty and there is more than one field; zero streams give the empty list,
and the one stream `a||b` gives `a`, the empty string, `b`. -/
theorem C21_split_exact_output (seps : List Char) (v : List (List Char)) (F : Nat)
    (hF : streamsSize v < F) :
    ∃ out : List (List Char),
      collectSplit F seps v = Except.ok out ∧
      (∀ s ∈ v, (s.splitOnP (isSplitSymbol seps)).length
        = s.countP (isSplitSymbol seps) + 1) ∧
      ((v.flatMap (List.splitOnP (isSplitSymbol seps))).getLast? ≠ some [] ∨
          (v.flatMap (List.splitOnP (isSplitSymbol seps))).length = 1 →
        out = v.flatMap (List.splitOnP (isSplitSymbol seps))) ∧
      ((v.flatMap (List.splitOnP (isSplitSymbol seps))).getLast? = some [] ∧
          1 < (v.flatMap (List.splitOnP (isSplitSymbol seps))).length →
        out = (v.flatMap (List.splitOnP (isSplitSymbol seps))).dropLast) ∧
      (v = [] → out = []) ∧
      (seps = ['|'] → v = [['a', '|', '|', 'b']] → out = [['a'], [], ['b']]) := by
  refine ⟨splitOutput seps v, collectSplit_eq seps v F hF, fun s _ => splitOnP_length _ s,
    ?_, ?_, ?_, ?_⟩
  · intro h
    rw [splitOutput_eq]
    show (if (splitFields seps v).getLast? = some [] ∧ 1 < (splitFields seps v).length
      then _ else _) = splitFields seps v
    have hn : ¬((splitFields seps v).getLast? = some [] ∧ 1 < (splitFields seps v).length) := by
      rintro ⟨h1, h2⟩
      rcases h with h | h
      · exact h h1
      · have h3 : (splitFields seps v).length = 1 := h
        omega
    rw [if_neg hn]
  · intro h
    rw [splitOutput_eq]
    exact if_pos h
  · intro h
    subst h
    rfl
  · intro h1 h2
    subst h1 h2
    decide

theorem C21_split_exact_output_witness :
    streamsSize ["a||b".toList] < 6 ∧
    ∃ out : List (List Char),
      collectSplit 6 "|".toList ["a||b".toList] = Except.ok out ∧
      (∀ s ∈ ["a||b".toList], (s.splitOnP (isSplitSymbol "|".toList)).length
        = s.countP (isSplitSymbol "|".toList) + 1) ∧
      ((["a||b".toList].flatMap
            (List.splitOnP (isSplitSymbol "|".toList))).getLast? ≠ some [] ∨
          (["a||b".toList].flatMap
            (List.splitOnP (isSplitSymbol "|".toList))).length = 1 →
        out = ["a||b".toList].flatMap (List.splitOnP (isSplitSymbol "|".toList))) ∧
      ((["a||b".toList].flatMap
            (List.splitOnP (isSplitSymbol "|".toList))).getLast? = some [] ∧
          1 < (["a||b".toList].flatMap
            (List.splitOnP (isSplitSymbol "|".toList))).length →
        out = (["a||b".toList].flatMap
          (List.splitOnP (isSplitSymbol "|".toList))).dropLast) ∧
      (["a||b".toList] = [] → out = []) ∧
      ("|".toList = ['|'] → ["a||b".toList] = [['a', '|', '|', 'b']] →
        out = [['a'], [], ['b']]) :=
  ⟨by decide, C21_split_exact_output "|".toList ["a||b".toList] 6 (by decide)⟩

/-! ### `Split` keeps the characters and bounds the number of tokens -/

theorem flatten_modifyHead_cons {α : Type} (c : α) (l : List (List α)) (hl : l ≠ []) :
    (l.modifyHead (List.cons c)).flatten = c :: l.flatten := by
  cases l with
  | nil => exact absurd rfl hl
  | cons a b => simp [List.modifyHead]

theorem flatten_splitOnP {α : Type} (P : α → Bool) (s : List α) :
    (s.splitOnP P).flatten = s.filter fun c => !P c := by
  induction s with
  | nil => simp [List.splitOnP_nil]
  | cons c s ih =>
    rw [List.splitOnP_cons]
    by_cases hc : P c = true
    · simp [hc, ih]
    · rw [if_neg hc, flatten_modifyHead_cons c _ (List.splitOnP_ne_nil P s), ih]
      simp [hc]

theorem splitOnP_no_sep {α : Type} (P : α → Bool) (s : List α) :
    ∀ t ∈ s.splitOnP P, ∀ c ∈ t, P c = false := by
  induction s with
  | nil => simp [List.splitOnP_nil]
  | cons d s ih =>
    rw [List.splitOnP_cons]
    by_cases hd : P d = true
    · rw [if_pos hd]
      intro t ht
      rcases List.mem_cons.mp ht with h | h
      · subst h; simp
      · exact ih t h
    · rw [if_neg hd]
      cases hs : List.splitOnP P s with
      | nil => simp [List.modifyHead]
      | cons a b =>
        rw [hs] at ih
        intro t ht
        simp only [List.modifyHead, List.mem_cons] at ht
        rcases ht with h | h
        · subst h
          intro c hc
          rcases List.mem_cons.mp hc with h1 | h1
          · subst h1; simpa using hd
          · exact ih a (List.mem_cons_self _ _) c h1
        · exact ih t (List.mem_cons_of_mem _ h)

theorem flatten_dropLastEmpty (l : List (List Char)) : (dropLastEmpty l).flatten = l.flatten := by
  induction l with
  | nil => rfl
  | cons w l ih =>
    cases l with
    | nil => by_cases hw : w = [] <;> simp [dropLastEmpty, hw]
    | cons f ps =>
      rw [dropLastEmpty, List.flatten_cons, ih]
      rfl

theorem mem_dropLastEmpty (l : List (List Char)) : ∀ t ∈ dropLastEmpty l, t ∈ l := by
  induction l with
  | nil => simp [dropLastEmpty]
  | cons w l ih =>
    cases l with
    | nil => by_cases hw : w = [] <;> simp [dropLastEmpty, hw]
    | cons f ps =>
      intro t ht
      rw [dropLastEmpty] at ht
      rcases List.mem_cons.mp ht with h | h
      · subst h; exact List.mem_cons_self _ _
      · exact List.mem_cons_of_mem _ (ih t h)

theorem flatten_splitFields (seps : List Char) (v : List (List Char)) :
    (splitFields seps v).flatten = v.flatten.filter fun c => !isSplitSymbol seps c := by
  unfold splitFields
  induction v with
  | nil => rfl
  | cons s v ih =>
    rw [List.flatMap_cons, List.flatten_append, ih, flatten_splitOnP, List.flatten_cons,
      List.filter_append]

theorem flatten_splitOutput (seps : List Char) (v : List (List Char)) :
    (splitOutput seps v).flatten = v.flatten.filter fun c => !isSplitSymbol seps c := by
  rw [← flatten_splitFields]
  unfold splitOutput
  cases splitFields seps v with
  | nil => rfl
  | cons f ps =>
    show (f :: dropLastEmpty ps).flatten = _
    rw [List.flatten_cons, flatten_dropLastEmpty, List.flatten_cons]

theorem mem_splitOutput (seps : List Char) (v : List (List Char)) :
    ∀ t ∈ splitOutput seps v, t ∈ splitFields seps v := by
  unfold splitOutput
  cases splitFields seps v with
  | nil => simp
  | cons f ps =>
    intro t ht
    have ht1 : t ∈ f :: dropLastEmpty ps := ht
    rcases List.mem_cons.mp ht1 with h | h
    · subst h; exact List.mem_cons_self _ _
    · exact List.mem_cons_of_mem _ (mem_dropLastEmpty ps t h)

theorem splitFields_no_sep (seps : List Char) (v : List (List Char)) :
    ∀ t ∈ splitFields seps v, ∀ c ∈ t, isSplitSymbol seps c = false := by
  intro t ht
  unfold splitFields at ht
  obtain ⟨s, _, hs⟩ := List.mem_flatMap.mp ht
  exact splitOnP_no_sep _ s t hs

theorem splitFields_length (seps : List Char) (v : List (List Char)) :
    (splitFields seps v).length = v.length + (v.map (List.countP (isSplitSymbol seps))).sum := by
  unfold splitFields
  induction v with
  | nil => rfl
  | cons s v ih =>
    rw [List.flatMap_cons, List.length_append, ih, splitOnP_length]
    simp only [List.length_cons, List.map_cons, List.sum_cons]
    omega

theorem splitOutput_length_le (seps : List Char) (v : List (List Char)) :
    (splitOutput seps v).length ≤ (splitFields seps v).length := by
  unfold splitOutput
  cases splitFields seps v with
  | nil => simp
  | cons f ps =>
    have := dropLastEmpty_length_le ps
    show (f :: dropLastEmpty ps).length ≤ (f :: ps).length
    simp only [List.length_cons]
    omega

/-- C22: `Split` neither loses, duplicates nor reorders characters: the concatenation of the
tokens it yields, in output order, is the concatenation of the stream contents in upstream
order with every delimiter and NUL character removed, and no yielded token contains a
delimiter or NUL character. -/
theorem C22_split_preserves_characters (seps : List Char) (v : List (List Char)) (F : Nat)
    (hF : streamsSize v < F) :
    ∃ out : List (List Char),
      collectSplit F seps v = Except.ok out ∧
      out.flatten = v.flatten.filter (fun c => !(seps.contains c || c == Char.ofNat 0)) ∧
      ∀ t ∈ out, ∀ c ∈ t, c ∉ seps ∧ c ≠ Char.ofNat 0 := by
  refine ⟨splitOutput seps v, collectSplit_eq seps v F hF, flatten_splitOutput seps v, ?_⟩
  intro t ht c hc
  have h := splitFields_no_sep seps v t (mem_splitOutput seps v t ht) c hc
  unfold isSplitSymbol at h
  simpa using h

theorem C22_split_preserves_characters_witness :
    streamsSize ["a||b".toList, "|c|".toList] < 10 ∧
    ∃ out : List (List Char),
      collectSplit 10 "|".toList ["a||b".toList, "|c|".toList] = Except.ok out ∧
      out.flatten = ["a||b".toList, "|c|".toList].flatten.filter
        (fun c => !("|".toList.contains c || c == Char.ofNat 0)) ∧
      ∀ t ∈ out, ∀ c ∈ t, c ∉ "|".toList ∧ c ≠ Char.ofNat 0 :=
  ⟨by decide,
    C22_split_preserves_characters "|".toList ["a||b".toList, "|c|".toList] 10 (by decide)⟩

/-- C27: for every delimiter set and every finite list of finite streams, collecting `Split`
returns (any iteration budget above the total size of the streams is enough), and the number of
tokens it yields is at most the number of streams plus the total number of delimiter or NUL
characters occurring in the streams. -/
theorem C27_split_terminates_bounded (seps : List Char) (v : List (List Char)) (F : Nat)
    (hF : streamsSize v < F) :
    ∃ out : List (List Char),
      collectSplit F seps v = Except.ok out ∧
      out.length ≤ v.length
        + (v.map (List.countP fun c => seps.contains c || c == Char.ofNat 0)).sum := by
  refine ⟨splitOutput seps v, collectSplit_eq seps v F hF, ?_⟩
  have h1 := splitOutput_length_le seps v
  have h2 := splitFields_length seps v
  have h3 : isSplitSymbol seps = fun c => seps.contains c || c == Char.ofNat 0 := rfl
  rw [h3] at h2
  omega

theorem C27_split_terminates_bounded_witness :
    streamsSize ["a||b".toList, "|c|".toList] < 10 ∧
    ∃ out : List (List Char),
      collectSplit 10 "|".toList ["a||b".toList, "|c|".toList] = Except.ok out ∧
      out.length ≤ ["a||b".toList, "|c|".toList].length
        + (["a||b".toList, "|c|".toList].map
            (List.countP fun c => "|".toList.contains c || c == Char.ofNat 0)).sum :=
  ⟨by decide,
    C27_split_terminates_bounded "|".toList ["a||b".toList, "|c|".toList] 10 (by decide)⟩

/-! ### The skip-ahead invariant of `Filter` -/

theorem filter_vec {α : Type} (F : Nat) (xs : List α) (p : α → Bool) :
    ∀ n k : Nat, k ≤ xs.length → xs.length - k < n →
      ∃ k2 : Nat, k ≤ k2 ∧ k2 ≤ xs.length ∧
        Filter.Iterator.filter F n (⟨⟨xs, k⟩, ⟨xs, xs.length⟩, p⟩ : Filter.Iterator (VecIter α) α)
          = Except.ok ⟨⟨xs, k2⟩, ⟨xs, xs.length⟩, p⟩ ∧
        (∀ j, k ≤ j → j < k2 → ∀ y, xs[j]? = some y → p y = false) ∧
        (k2 = xs.length ∨ ∃ y, xs[k2]? = some y ∧ p y = true) := by
  intro n
  induction n with
  | zero => intro k _ h; omega
  | succ n ih =>
    intro k hk hn
    by_cases hend : k = xs.length
    · refine ⟨k, Nat.le_refl _, hk, ?_, fun j h1 h2 => by omega, Or.inl hend⟩
      have hne : Iter.ne (⟨xs, k⟩ : VecIter α) ⟨xs, xs.length⟩ = false := by
        rw [vec_ne]; simp [hend]
      simp only [Filter.Iterator.filter, hne]
      rfl
    · have hlt : k < xs.length := by omega
      have hne : Iter.ne (⟨xs, k⟩ : VecIter α) ⟨xs, xs.length⟩ = true := by
        rw [vec_ne]; simp [hend]
      have hx : xs[k]? = some xs[k] := List.getElem?_eq_getElem hlt
      have hd := vec_deref F xs k xs[k] hx
      by_cases hp : p xs[k] = true
      · refine ⟨k, Nat.le_refl _, hk, ?_, fun j h1 h2 => by omega, Or.inr ⟨xs[k], hx, hp⟩⟩
        simp only [Filter.Iterator.filter, hne, if_true, hd]
        show (if (!p xs[k]) = true then _ else _) = _
        simp [hp]
      · obtain ⟨k2, h1, h2, h3, h4, h5⟩ := ih (k + 1) (by omega) (by omega)
        refine ⟨k2, by omega, h2, ?_, ?_, h5⟩
        · simp only [Filter.Iterator.filter, hne, if_true, hd]
          show (if (!p xs[k]) = true then _ else _) = _
          simp only [hp, Bool.not_false, if_true]
          show (Iter.incr F (⟨xs, k⟩ : VecIter α) >>= fun i2 => _) = _
          rw [vec_incr F xs k hlt]
          exact h3
        · intro j hj1 hj2 y hy
          by_cases hjk : j = k
          · subst hjk
            rw [hx] at hy
            cases hy
            simpa using hp
          · exact h4 j (by omega) hj2 y hy

theorem filter_call_vec {α : Type} (F : Nat) (xs : List α) (p : α → Bool)
    (hF : xs.length < F) :
    ∃ k0 : Nat, k0 ≤ xs.length ∧
      Filter.call F ⟨p⟩ (AsDataFlow.mk xs) = Except.ok ⟨⟨xs, k0⟩, ⟨xs, xs.length⟩, p⟩ ∧
      (∀ j, j < k0 → ∀ y, xs[j]? = some y → p y = false) ∧
      (k0 = xs.length ∨ ∃ y, xs[k0]? = some y ∧ p y = true) := by
  obtain ⟨k0, _, h2, h3, h4, h5⟩ := filter_vec F xs p F 0 (Nat.zero_le _) (by omega)
  exact ⟨k0, h2, h3, fun j hj => h4 j (Nat.zero_le _) hj, h5⟩

theorem filter_incr_vec {α : Type} (F : Nat) (xs : List α) (p : α → Bool)
    (hF : xs.length < F) (k : Nat) (hk : k < xs.length) :
    ∃ k2 : Nat, k < k2 ∧ k2 ≤ xs.length ∧
      Iter.incr F (⟨⟨xs, k⟩, ⟨xs, xs.length⟩, p⟩ : Filter.Iterator (VecIter α) α)
        = Except.ok ⟨⟨xs, k2⟩, ⟨xs, xs.length⟩, p⟩ ∧
      (∀ j, k < j → j < k2 → ∀ y, xs[j]? = some y → p y = false) ∧
      (k2 = xs.length ∨ ∃ y, xs[k2]? = some y ∧ p y = true) := by
  obtain ⟨k2, h1, h2, h3, h4, h5⟩ := filter_vec F xs p F (k + 1) (by omega) (by omega)
  refine ⟨k2, by omega, h2, ?_, fun j hj => h4 j (by omega), h5⟩
  show (Iter.incr F (⟨xs, k⟩ : VecIter α) >>= fun i1 => _) = _
  rw [vec_incr F xs k hk]
  exact h3

theorem filter_deref_vec {α : Type} (F : Nat) (xs : List α) (p : α → Bool) (k : Nat) (x : α)
    (hx : xs[k]? = some x) :
    Iter.deref F (⟨⟨xs, k⟩, ⟨xs, xs.length⟩, p⟩ : Filter.Iterator (VecIter α) α)
      = Except.ok (x, ⟨⟨xs, k⟩, ⟨xs, xs.length⟩, p⟩) := by
  show (Iter.deref F (⟨xs, k⟩ : VecIter α) >>= fun r => _) = _
  rw [vec_deref F xs k x hx]
  rfl

theorem filterReached_inv {α : Type} (F : Nat) (xs : List α) (p : α → Bool)
    (hF : xs.length < F) (it : Filter.Iterator (VecIter α) α) (h : FilterReached F xs p it) :
    ∃ k : Nat, it = ⟨⟨xs, k⟩, ⟨xs, xs.length⟩, p⟩ ∧
      (k = xs.length ∨ ∃ x, xs[k]? = some x ∧ p x = true) := by
  induction h with
  | @constructed it h0 =>
    obtain ⟨k0, _, h2, _, h4⟩ := filter_call_vec F xs p hF
    rw [h2] at h0
    cases h0
    exact ⟨k0, rfl, h4⟩
  | @deref it it1 x _ hne hd ih =>
    obtain ⟨k, hk, hinv⟩ := ih
    subst hk
    rcases hinv with hend | ⟨y, hy, hpy⟩
    · exfalso
      have : Iter.ne (⟨xs, k⟩ : VecIter α) ⟨xs, xs.length⟩ = true := hne
      rw [vec_ne] at this
      simp [hend] at this
    · rw [filter_deref_vec F xs p k y hy] at hd
      have h2 := (Prod.mk.inj (Except.ok.inj hd)).2
      exact ⟨k, h2.symm, Or.inr ⟨y, hy, hpy⟩⟩
  | @incr it it1 _ hne hi ih =>
    obtain ⟨k, hk, hinv⟩ := ih
    subst hk
    rcases hinv with hend | ⟨y, hy, hpy⟩
    · exfalso
      have : Iter.ne (⟨xs, k⟩ : VecIter α) ⟨xs, xs.length⟩ = true := hne
      rw [vec_ne] at this
      simp [hend] at this
    · have hlt : k < xs.length := by
        by_contra hge
        rw [List.getElem?_eq_none (by omega)] at hy
        cases hy
      obtain ⟨k2, _, _, h3, _, h5⟩ := filter_incr_vec F xs p hF k hlt
      rw [h3] at hi
      cases hi
      exact ⟨k2, rfl, h5⟩

/-- C25: the skip-ahead invariant of `Filter` over a vector `xs`.  The constructor leaves the
upstream cursor at the first item satisfying `p`, or at the end when there is none; every state
the iterator reaches by constructing, dereferencing and incrementing has its cursor at the end
or at a satisfying item; in such a state that is not equal to `end()`, `operator*` returns the
satisfying item under the cursor, and `operator++` moves the cursor to the first satisfying item
after it (skipping only non-satisfying items), or to the end when there is none. -/
theorem C25_filter_skip_ahead {α : Type} (xs : List α) (p : α → Bool) (F : Nat)
    (hF : xs.length < F) :
    (∃ k0 : Nat, k0 ≤ xs.length ∧
      Filter.call F ⟨p⟩ (AsDataFlow.mk xs) = Except.ok ⟨⟨xs, k0⟩, ⟨xs, xs.length⟩, p⟩ ∧
      (∀ j, j < k0 → ∀ y, xs[j]? = some y → p y = false) ∧
      (k0 = xs.length ∨ ∃ y, xs[k0]? = some y ∧ p y = true)) ∧
    ∀ it : Filter.Iterator (VecIter α) α, FilterReached F xs p it →
      ∃ k : Nat, it = ⟨⟨xs, k⟩, ⟨xs, xs.length⟩, p⟩ ∧
        (k = xs.length ∨ ∃ x, xs[k]? = some x ∧ p x = true) ∧
        (Iter.ne it (⟨⟨xs, xs.length⟩, ⟨xs, xs.length⟩, p⟩ : Filter.Iterator (VecIter α) α)
            = true →
          (∃ x, Iter.deref F it = Except.ok (x, it) ∧ xs[k]? = some x ∧ p x = true) ∧
          ∃ k2 : Nat, k < k2 ∧ k2 ≤ xs.length ∧
            Iter.incr F it = Except.ok ⟨⟨xs, k2⟩, ⟨xs, xs.length⟩, p⟩ ∧
            (∀ j, k < j → j < k2 → ∀ y, xs[j]? = some y → p y = false) ∧
            (k2 = xs.length ∨ ∃ y, xs[k2]? = some y ∧ p y = true)) := by
  refine ⟨filter_call_vec F xs p hF, ?_⟩
  intro it hr
  obtain ⟨k, hk, hinv⟩ := filterReached_inv F xs p hF it hr
  subst hk
  refine ⟨k, rfl, hinv, ?_⟩
  intro hne
  have hne1 : Iter.ne (⟨xs, k⟩ : VecIter α) ⟨xs, xs.length⟩ = true := hne
  rw [vec_ne] at hne1
  rcases hinv with hend | ⟨y, hy, hpy⟩
  · simp [hend] at hne1
  · have hlt : k < xs.length := by
      by_contra hge
      rw [List.getElem?_eq_none (by omega)] at hy
      cases hy
    exact ⟨⟨y, filter_deref_vec F xs p k y hy, hy, hpy⟩, filter_incr_vec F xs p hF k hlt⟩

theorem C25_filter_skip_ahead_witness :
    [1, 2, 3, 4, 5].length < 6 ∧
    (∃ k0 : Nat, k0 ≤ [1, 2, 3, 4, 5].length ∧
      Filter.call 6 ⟨fun x => x % 2 == 0⟩ (AsDataFlow.mk [1, 2, 3, 4, 5])
        = Except.ok ⟨⟨[1, 2, 3, 4, 5], k0⟩, ⟨[1, 2, 3, 4, 5], [1, 2, 3, 4, 5].length⟩,
            fun x => x % 2 == 0⟩ ∧
      (∀ j, j < k0 → ∀ y, [1, 2, 3, 4, 5][j]? = some y → (fun x => x % 2 == 0) y = false) ∧
      (k0 = [1, 2, 3, 4, 5].length ∨
        ∃ y, [1, 2, 3, 4, 5][k0]? = some y ∧ (fun x => x % 2 == 0) y = true)) ∧
    ∀ it : Filter.Iterator (VecIter Nat) Nat,
      FilterReached 6 [1, 2, 3, 4, 5] (fun x => x % 2 == 0) it →
      ∃ k : Nat, it = ⟨⟨[1, 2, 3, 4, 5], k⟩, ⟨[1, 2, 3, 4, 5], [1, 2, 3, 4, 5].length⟩,
            fun x => x % 2 == 0⟩ ∧
        (k = [1, 2, 3, 4, 5].length ∨
          ∃ x, [1, 2, 3, 4, 5][k]? = some x ∧ (fun x => x % 2 == 0) x = true) ∧
        (Iter.ne it (⟨⟨[1, 2, 3, 4, 5], [1, 2, 3, 4, 5].length⟩,
              ⟨[1, 2, 3, 4, 5], [1, 2, 3, 4, 5].length⟩, fun x => x % 2 == 0⟩ :
              Filter.Iterator (VecIter Nat) Nat) = true →
          (∃ x, Iter.deref 6 it = Except.ok (x, it) ∧ [1, 2, 3, 4, 5][k]? = some x ∧
            (fun x => x % 2 == 0) x = true) ∧
          ∃ k2 : Nat, k < k2 ∧ k2 ≤ [1, 2, 3, 4, 5].length ∧
            Iter.incr 6 it = Except.ok ⟨⟨[1, 2, 3, 4, 5], k2⟩,
              ⟨[1, 2, 3, 4, 5], [1, 2, 3, 4, 5].length⟩, fun x => x % 2 == 0⟩ ∧
            (∀ j, k < j → j < k2 → ∀ y, [1, 2, 3, 4, 5][j]? = some y →
              (fun x => x % 2 == 0) y = false) ∧
            (k2 = [1, 2, 3, 4, 5].length ∨
              ∃ y, [1, 2, 3, 4, 5][k2]? = some y ∧ (fun x => x % 2 == 0) y = true)) :=
  ⟨by decide, C25_filter_skip_ahead [1, 2, 3, 4, 5] (fun x => x % 2 == 0) 6 (by decide)⟩

/-! ### Chained joins -/

theorem join_row_length {Ri J : Type} (m : Ri → Bool) (mk : Ri → J) (dflt : J) (rs : List Ri) :
    (if (rs.filter m).isEmpty then [dflt] else (rs.filter m).map mk).length
      = max 1 (rs.countP m) := by
  rw [List.countP_eq_length_filter]
  cases rs.filter m with
  | nil => simp
  | cons r ms =>
    have hmax : max 1 (ms.length + 1) = ms.length + 1 := by omega
    simp [hmax]

theorem join_row_mem_base {Ri B : Type} (m : Ri → Bool) (b : B) (rs : List Ri) :
    ∀ r ∈ (if (rs.filter m).isEmpty then [(⟨b, none⟩ : JoinResult B Ri)]
      else (rs.filter m).map fun x => ⟨b, some x⟩), r.base = b := by
  intro r hr
  cases hms : rs.filter m with
  | nil =>
    rw [hms] at hr
    simp at hr
    rw [hr]
  | cons x ms =>
    rw [hms] at hr
    simp only [List.isEmpty_cons, Bool.false_eq_true, if_false, List.mem_map] at hr
    obtain ⟨y, _, hy⟩ := hr
    rw [← hy]

theorem length_flatMap_le {α β : Type} (f : α → List β) (n : Nat) (l : List α)
    (h : ∀ x ∈ l, (f x).length ≤ n) : (l.flatMap f).length ≤ l.length * n := by
  induction l with
  | nil => simp
  | cons x l ih =>
    have h1 := h x (List.mem_cons_self _ _)
    have h2 := ih fun y hy => h y (List.mem_cons_of_mem _ hy)
    rw [List.flatMap_cons, List.length_append, List.length_cons, Nat.succ_mul]
    omega

theorem length_flatMap_const {α β : Type} (f : α → List β) (n : Nat) (l : List α)
    (h : ∀ x ∈ l, (f x).length = n) : (l.flatMap f).length = l.length * n := by
  induction l with
  | nil => simp
  | cons x l ih =>
    have h1 := h x (List.mem_cons_self _ _)
    have h2 := ih fun y hy => h y (List.mem_cons_of_mem _ hy)
    rw [List.flatMap_cons, List.length_append, List.length_cons, Nat.succ_mul]
    omega

theorem flatMap_flatMap {α β γ : Type} (f : α → List β) (g : β → List γ) (l : List α) :
    (l.flatMap f).flatMap g = l.flatMap fun a => (f a).flatMap g := by
  induction l with
  | nil => rfl
  | cons x l ih => simp [List.flatMap_cons, List.flatMap_append, ih]

/-- C24: chained joins through `.base`.  When the output of the explicit-key join of `la` with
`lb` is joined with `lc` using a left key function that reads the nested `.base`, every
first-stage result, also one whose joined value is absent, is paired with every item of `lc`
whose key equals the key of its base, in the order of `lc`, or with absent when there is none;
so the final results are, for each left item in left order, a block of
`max(1, m1) * max(1, m2)` consecutive results built on that item, where `m1` and `m2` are the
numbers of its matches in `lb` and in `lc`. -/
theorem C24_chained_joins {A B C K1 K2 : Type} [BEq K1] [BEq K2] (la : List A) (lb : List B)
    (lc : List C) (ka : A → K1) (kb : B → K1) (ka2 : A → K2) (kc : C → K2) (F : Nat)
    (hF : (la.length + 1) * (lb.length + 1) * (lc.length + 1) < F) :
    ∃ (first : List (JoinResult A B)) (final : List (JoinResult (JoinResult A B) C))
      (rows : A → List (JoinResult (JoinResult A B) C)),
      JoinFunc.call F (Join (AsDataFlow.mk lb) ka kb) (AsDataFlow.mk la) = Except.ok first ∧
      first = (la.flatMap fun a =>
        if (lb.filter fun b => ka a == kb b).isEmpty then [⟨a, none⟩]
        else (lb.filter fun b => ka a == kb b).map fun b => ⟨a, some b⟩) ∧
      (JoinFunc.call F (Join (AsDataFlow.mk lc) (fun r : JoinResult A B => ka2 r.base) kc) first
        >>= AsVector.call F) = Except.ok final ∧
      final = (first.flatMap fun r =>
        if (lc.filter fun c => ka2 r.base == kc c).isEmpty then [⟨r, none⟩]
        else (lc.filter fun c => ka2 r.base == kc c).map fun c => ⟨r, some c⟩) ∧
      final = la.flatMap rows ∧
      ∀ a : A,
        (rows a).length = max 1 (lb.countP fun b => ka a == kb b)
          * max 1 (lc.countP fun c => ka2 a == kc c) ∧
        ∀ r ∈ rows a, r.base.base = a := by
  have hab : la.length + 1 ≤ (la.length + 1) * (lb.length + 1) :=
    Nat.le_mul_of_pos_right _ (by omega)
  have hab2 : lb.length + 1 ≤ (la.length + 1) * (lb.length + 1) :=
    Nat.le_mul_of_pos_left _ (by omega)
  have habc : (la.length + 1) * (lb.length + 1)
      ≤ (la.length + 1) * (lb.length + 1) * (lc.length + 1) :=
    Nat.le_mul_of_pos_right _ (by omega)
  have hc : lc.length + 1 ≤ (la.length + 1) * (lb.length + 1) * (lc.length + 1) :=
    Nat.le_mul_of_pos_left _ (Nat.mul_pos (by omega) (by omega))
  have hla : la.length * (lb.length + 1) ≤ (la.length + 1) * (lb.length + 1) :=
    Nat.mul_le_mul_right _ (by omega)
  let row1 : A → List (JoinResult A B) := fun a =>
    if (lb.filter fun b => ka a == kb b).isEmpty then [⟨a, none⟩]
    else (lb.filter fun b => ka a == kb b).map fun b => ⟨a, some b⟩
  let row2 : JoinResult A B → List (JoinResult (JoinResult A B) C) := fun r =>
    if (lc.filter fun c => ka2 r.base == kc c).isEmpty then [⟨r, none⟩]
    else (lc.filter fun c => ka2 r.base == kc c).map fun c => ⟨r, some c⟩
  have hrow1 : ∀ a, (row1 a).length ≤ lb.length + 1 := by
    intro a
    have h1 := join_row_length (fun b => ka a == kb b)
      (fun b => (⟨a, some b⟩ : JoinResult A B)) ⟨a, none⟩ lb
    have h2 := List.countP_le_length (fun b => ka a == kb b) (l := lb)
    show (if _ then _ else _ : List (JoinResult A B)).length ≤ _
    omega
  have hrow2 : ∀ r, (row2 r).length ≤ lc.length + 1 := by
    intro r
    have h1 := join_row_length (fun c => ka2 r.base == kc c)
      (fun c => (⟨r, some c⟩ : JoinResult (JoinResult A B) C)) ⟨r, none⟩ lc
    have h2 := List.countP_le_length (fun c => ka2 r.base == kc c) (l := lc)
    show (if _ then _ else _ : List (JoinResult (JoinResult A B) C)).length ≤ _
    omega
  have hfirst : (la.flatMap row1).length ≤ la.length * (lb.length + 1) :=
    length_flatMap_le row1 _ la fun a _ => hrow1 a
  have hfinal : ((la.flatMap row1).flatMap row2).length
      ≤ (la.length + 1) * (lb.length + 1) * (lc.length + 1) := by
    have h1 := length_flatMap_le row2 (lc.length + 1) (la.flatMap row1) fun r _ => hrow2 r
    have h2 : (la.flatMap row1).length * (lc.length + 1)
        ≤ (la.length + 1) * (lb.length + 1) * (lc.length + 1) :=
      Nat.mul_le_mul_right _ (by omega)
    omega
  have h1 : JoinFunc.call F (Join (AsDataFlow.mk lb) ka kb) (AsDataFlow.mk la)
      = Except.ok (la.flatMap row1) :=
    joinFunc_call_eq (Join (AsDataFlow.mk lb) ka kb) (asDataFlow_yields F la)
      (asDataFlow_yields F lb) (by omega) (by omega)
  have h2 : JoinFunc.call F
      (Join (AsDataFlow.mk lc) (fun r : JoinResult A B => ka2 r.base) kc) (la.flatMap row1)
      = Except.ok ((la.flatMap row1).flatMap row2) :=
    joinFunc_call_eq (Join (AsDataFlow.mk lc) (fun r : JoinResult A B => ka2 r.base) kc)
      (vec_yields F (la.flatMap row1)) (asDataFlow_yields F lc) (by omega) (by omega)
  refine ⟨la.flatMap row1, (la.flatMap row1).flatMap row2, fun a => (row1 a).flatMap row2,
    h1, rfl, ?_, rfl, flatMap_flatMap row1 row2 la, ?_⟩
  · rw [h2, run_ok_bind]
    exact asVector_of_yields (vec_yields F _) (by omega)
  · intro a
    have hbase : ∀ r ∈ row1 a, r.base = a := join_row_mem_base (fun b => ka a == kb b) a lb
    constructor
    · have hlen1 : (row1 a).length = max 1 (lb.countP fun b => ka a == kb b) :=
        join_row_length (fun b => ka a == kb b)
          (fun b => (⟨a, some b⟩ : JoinResult A B)) ⟨a, none⟩ lb
      have hlen2 : ∀ r ∈ row1 a,
          (row2 r).length = max 1 (lc.countP fun c => ka2 a == kc c) := by
        intro r hr
        have h3 : (row2 r).length = max 1 (lc.countP fun c => ka2 r.base == kc c) :=
          join_row_length (fun c => ka2 r.base == kc c)
            (fun c => (⟨r, some c⟩ : JoinResult (JoinResult A B) C)) ⟨r, none⟩ lc
        rw [h3, hbase r hr]
      rw [length_flatMap_const row2 _ (row1 a) hlen2, hlen1]
    · intro r hr
      obtain ⟨r1, hr1, hr2⟩ := List.mem_flatMap.mp hr
      have h3 := join_row_mem_base (fun c => ka2 r1.base == kc c) r1 lc r hr2
      rw [h3]
      exact hbase r1 hr1

theorem C24_chained_joins_witness :
    ([(1, "Alice"), (2, "Bob"), (3, "Charlie")].length + 1)
        * ([(1, "Math"), (1, "Physics"), (2, "Biology")].length + 1)
        * ([(1, 90), (1, 85), (2, 78), (3, 92)].length + 1) < 81 ∧
    ∃ (first : List (JoinResult (Nat × String) (Nat × String)))
      (final : List (JoinResult (JoinResult (Nat × String) (Nat × String)) (Nat × Nat)))
      (rows : Nat × String →
        List (JoinResult (JoinResult (Nat × String) (Nat × String)) (Nat × Nat))),
      JoinFunc.call 81
          (Join (AsDataFlow.mk [(1, "Math"), (1, "Physics"), (2, "Biology")]) Prod.fst Prod.fst)
          (AsDataFlow.mk [(1, "Alice"), (2, "Bob"), (3, "Charlie")]) = Except.ok first ∧
      first = ([(1, "Alice"), (2, "Bob"), (3, "Charlie")].flatMap fun a =>
        if ([(1, "Math"), (1, "Physics"), (2, "Biology")].filter
            fun b => Prod.fst a == Prod.fst b).isEmpty then [⟨a, none⟩]
        else ([(1, "Math"), (1, "Physics"), (2, "Biology")].filter
            fun b => Prod.fst a == Prod.fst b).map fun b => ⟨a, some b⟩) ∧
      (JoinFunc.call 81 (Join (AsDataFlow.mk [(1, 90), (1, 85), (2, 78), (3, 92)])
          (fun r : JoinResult (Nat × String) (Nat × String) => Prod.fst r.base) Prod.fst) first
        >>= AsVector.call 81) = Except.ok final ∧
      final = (first.flatMap fun r =>
        if ([(1, 90), (1, 85), (2, 78), (3, 92)].filter
            fun c => Prod.fst r.base == Prod.fst c).isEmpty then [⟨r, none⟩]
        else ([(1, 90), (1, 85), (2, 78), (3, 92)].filter
            fun c => Prod.fst r.base == Prod.fst c).map fun c => ⟨r, some c⟩) ∧
      final = [(1, "Alice"), (2, "Bob"), (3, "Charlie")].flatMap rows ∧
      ∀ a : Nat × String,
        (rows a).length
          = max 1 ([(1, "Math"), (1, "Physics"), (2, "Biology")].countP
              fun b => Prod.fst a == Prod.fst b)
            * max 1 ([(1, 90), (1, 85), (2, 78), (3, 92)].countP
              fun c => Prod.fst a == Prod.fst c) ∧
        ∀ r ∈ rows a, r.base.base = a :=
  ⟨by decide,
    C24_chained_joins [(1, "Alice"), (2, "Bob"), (3, "Charlie")]
      [(1, "Math"), (1, "Physics"), (2, "Biology")] [(1, 90), (1, 85), (2, 78), (3, 92)]
      Prod.fst Prod.fst Prod.fst Prod.fst 81 (by decide)⟩

end Pipeline
